import Mathlib

/-!
# glmBfp: IWLS engine and Metropolis-Hastings sampler

A shallow embedding of `src/pkg/glmBfp/src/iwls.cpp` and
`src/pkg/glmBfp/src/sampleGlm.cpp`.

Conventions of the embedding.

* `double` is an arbitrary linearly ordered field `K` (exact arithmetic; rounding,
  infinities and NaN are not represented).  The functions of the C math library
  and the constant `M_LN_SQRT_2PI` are the fields of a `Libm K`; theorems about
  real numbers instantiate it with `Real.sqrt`, `Real.exp`, `Real.log`.
* Where the sign of a value of `exp` decides a bound or a branch (the bridge terms
  and the accept/reject test), `exp` is not taken to be positive: on doubles it
  returns `0.0` for arguments below about `-745.13`.  Those theorems hold for every
  `Libm` whose `exp` satisfies `Libm.ExpInRange`, and `Libm.withUnderflow` is a
  library with the underflow.
* `PosInt` is a natural number; the one place where a counter can leave the
  32-bit range (the increment that ends the IWLS loop) reduces modulo `2 ^ 32`.
* An Armadillo vector of length `n` is a function `Fin n → K`, a matrix with `r`
  rows and `c` columns is a `Matrix (Fin r) (Fin c) K`.
* The design matrix always has the intercept as column 0, so the number of
  coefficients is written `k + 1`.
* A C++ exception is the `error` branch of `Except Failure`.
* R's random number stream is an explicit state (`Rng`) that records the kind of
  every draw.
-/

namespace GlmBfp

open Matrix

/-! ## Numeric environment -/

/-- The modulus of the unsigned 32-bit type `PosInt` (declared in `types.h`). -/
def posIntModulus : Nat := 2 ^ 32

/-- The C math library functions the two source files call (`sqrt`, `exp`, `log`)
and R's constant `M_LN_SQRT_2PI = log(sqrt(2*pi))`. -/
structure Libm (K : Type) where
  sqrt : K → K
  exp : K → K
  log : K → K
  lnSqrt2Pi : K

/-- An Armadillo column vector (`AVector`) of length `n`. -/
abbrev AVector (K : Type) (n : Nat) := Fin n → K

/-- An Armadillo matrix (`AMatrix`) with `r` rows and `c` columns. -/
abbrev AMatrix (K : Type) (r c : Nat) := Matrix (Fin r) (Fin c) K

/-- The ways a run can abort: the exceptions thrown in `iwls.cpp` and the
out-of-range column access of `Samples::storeParameters`. -/
inductive Failure where
  | ctorCholesky (info : Nat)
  | cholesky (info : Nat) (iter : Nat)
  | solve (info : Nat) (iter : Nat)
  | storeBeyondCapacity (nSaved : Nat)
  deriving DecidableEq, Repr

variable {K : Type} [LinearOrderedField K]

/-- The library `m` with the underflow of `exp` on doubles.  For an argument below
`log(2^-1075)`, about `-745.13`, the exponential is less than half the smallest
positive double `2^-1074`, and `exp` returns exactly `0.0`; `m.withUnderflow.exp` is 0
below `-746` and `m.exp` from there on. -/
def Libm.withUnderflow (m : Libm K) : Libm K :=
  { m with exp := fun x => if x < -746 then 0 else m.exp x }

/-- What the bounds of the bridge terms and of the acceptance probability use of
`exp`: its values are not negative, at most 1 for an argument `<= 0` and at least 1 for
an argument `>= 0`.  The real exponential has these properties and so has its rounding
to doubles, underflow included; that a value is positive is not among them. -/
def Libm.ExpInRange (m : Libm K) : Prop :=
  (∀ x, 0 ≤ m.exp x) ∧ (∀ x, x ≤ 0 → m.exp x ≤ 1) ∧ (∀ x, 0 ≤ x → 1 ≤ m.exp x)

/-! ## `criterion` (iwls.cpp 15-38) -/

/-- One pass of the body of the `for` loop of `criterion`:
`tmp = fabs(a(j) - b(j)) / (fabs(b(j)) + 0.01); ret = (tmp > ret) ? tmp : ret`. -/
def criterionStep {n : Nat} (a b : AVector K n) (ret : K) (j : Fin n) : K :=
  let tmp := |a j - b j| / (|b j| + 0.01)
  if tmp > ret then tmp else ret

/-- `criterion(a, b)`: starts from `ret = 0.0` and runs the loop body for
`j = 0, ..., n_elem - 1` (the `omp critical` section makes the update sequential). -/
def criterion {n : Nat} (a b : AVector K n) : K :=
  (List.finRange n).foldl (criterionStep a b) 0

/-! ## Linear algebra interface (`linalgInterface.h`) -/

/-- Modelled from the spec: `syrk(false, false, A, beta, C)` of `linalgInterface.h`
(not among the sources), the rank update `C := A * A' + beta * C` used to
"form the weighted design cross-product, add the prior precision scaled by `1/g`". -/
def syrk {r c : Nat} (A : AMatrix K r c) (beta : K) (C : AMatrix K r r) : AMatrix K r r :=
  A * A.transpose + beta • C

/-- Modelled from the spec: column `j` of the Cholesky factorisation `Q = L L'`
(LAPACK `dpotrf`, lower triangle), given the columns before `j` in `L`.
`none` when the pivot is not positive ("the matrix is not positive definite"). -/
def potrfColumn {p : Nat} (m : Libm K) (A L : AMatrix K p p) (j : Fin p) :
    Option (AMatrix K p p) :=
  let ajj := A j j - ∑ t ∈ Finset.univ.filter (· < j), L j t * L j t
  if ajj ≤ 0 then none
  else
    some (fun i c =>
      if c = j then
        if i = j then m.sqrt ajj
        else if j < i then
          (A i j - ∑ t ∈ Finset.univ.filter (· < j), L i t * L j t) / m.sqrt ajj
        else 0
      else L i c)

/-- Modelled from the spec: the columns of the Cholesky factor of `potrf`, from the list
of column indices still to do.  The error value is LAPACK's `info`, the 1-based index
of the failing pivot. -/
def potrfColumns {p : Nat} (m : Libm K) (A : AMatrix K p p) :
    List (Fin p) → AMatrix K p p → Except Nat (AMatrix K p p)
  | [], L => .ok L
  | j :: js, L =>
    match potrfColumn m A L j with
    | none => .error (j.val + 1)
    | some L' => potrfColumns m A js L'

/-- Modelled from the spec: `potrf(false, A)` of `linalgInterface.h` (not among the
sources), the Cholesky factorisation `A = L L'` with `L` lower triangular;
`error info` with `info != 0` when `A` is not positive definite. -/
def potrf {p : Nat} (m : Libm K) (A : AMatrix K p p) : Except Nat (AMatrix K p p) :=
  potrfColumns m A (List.finRange p) 0

/-- Modelled from the spec: the forward substitution of `potrs`, which solves `L y = b`
for lower triangular `L`. -/
def forwardSolve {p : Nat} (L : AMatrix K p p) (b : AVector K p) : AVector K p :=
  (List.finRange p).foldl
    (fun y i => Function.update y i
      ((b i - ∑ t ∈ Finset.univ.filter (· < i), L i t * y t) / L i i)) 0

/-- Modelled from the spec: the backward substitution of `potrs` and `trs`, which solves
`L' x = y` for lower triangular `L`. -/
def backSolveTrans {p : Nat} (L : AMatrix K p p) (y : AVector K p) : AVector K p :=
  (List.finRange p).reverse.foldl
    (fun x i => Function.update x i
      ((y i - ∑ t ∈ Finset.univ.filter (i < ·), L t i * x t) / L i i)) 0

/-- Modelled from the spec: `potrs(false, L, b)` of `linalgInterface.h` (not among
the sources): "solve for new coefficients via forward/backward substitution",
that is `L L' x = b`.  LAPACK's `dpotrs` reports `info != 0` only for malformed
arguments, so the model has no failing branch. -/
def potrs {p : Nat} (L : AMatrix K p p) (b : AVector K p) : AVector K p :=
  backSolveTrans L (forwardSolve L b)

/-- Modelled from the spec: `trs(false, true, L, w)` of `linalgInterface.h` (not
among the sources), the "triangular solve against the precision Cholesky factor"
`L' x = w`. -/
def trs {p : Nat} (L : AMatrix K p p) (w : AVector K p) : AVector K p :=
  backSolveTrans L w

/-- Modelled from the spec: `trmv(false, true, L, v)` of `linalgInterface.h` (not
among the sources), the "triangular matrix-vector product" `L' v`, which reads
the lower triangle of `L` only. -/
def trmv {p : Nat} (L : AMatrix K p p) (v : AVector K p) : AVector K p :=
  fun i => ∑ t ∈ Finset.univ.filter (i ≤ ·), L t i * v t

/-- The dot product `arma::dot(a, b)`. -/
def dot {n : Nat} (a b : AVector K n) : K := ∑ i, a i * b i

/-- The expression `2.0 * arma::as_scalar(arma::sum(arma::log(arma::diagvec(L))))`. -/
def logDetFromCholesky {p : Nat} (m : Libm K) (L : AMatrix K p p) : K :=
  2 * ∑ i, m.log (L i i)

/-! ## Model configuration (`GlmModelConfig`, consumed read-only) -/

/-- The link capability: `linkinv(eta)` and `mu_eta(eta)`. -/
structure Link (K : Type) where
  linkinv : K → K
  mu_eta : K → K

/-- The distribution capability: `variance(mu)` and `loglik(means)`. -/
structure Distribution (K : Type) (n : Nat) where
  variance : K → K
  loglik : AVector K n → K

/-- The g-prior capability: `logDens(g)`. -/
structure GPrior (K : Type) where
  logDens : K → K

/-- The fields of `GlmModelConfig` (declared outside the sources) that the two
files read. -/
structure GlmModelConfig (K : Type) (n : Nat) where
  dispersions : AVector K n
  cfactor : K
  link : Link K
  distribution : Distribution K n
  gPrior : GPrior K
  linPredStart : AVector K n

/-! ## IWLS engine (iwls.cpp 41-296) -/

/-- The class `IwlsResults`: the Laplace approximation at a given `g`. -/
structure IwlsResults (K : Type) (n k : Nat) where
  coefs : AVector K (k + 1)
  qFactor : AMatrix K (k + 1) (k + 1)
  logPrecisionDeterminant : K
  linPred : AVector K n

/-- The `Parameter` of the chain: coefficients and `z = log(g)`. -/
structure Parameter (K : Type) (k : Nat) where
  coefs : AVector K (k + 1)
  z : K

/-- The members of the class `Iwls`; `results` is the only one the member
functions modify. -/
structure Iwls (K : Type) (n k : Nat) where
  design : AMatrix K n (k + 1)
  nCoefs : Nat
  isNullModel : Bool
  useFixedZ : Bool
  nObs : Nat
  response : AVector K n
  config : GlmModelConfig K n
  invSqrtDispersions : AVector K n
  unscaledPriorPrec : AMatrix K (k + 1) (k + 1)
  results : IwlsResults K n k
  epsilon : K
  logScaledDesignWithoutInterceptCrossprodDeterminant : K

/-- The contents of the members the constructor allocates without giving them a
value: `results.coefs`, `results.qFactor`, `results.logPrecisionDeterminant`,
`unscaledPriorPrec` and, for the null model,
`logScaledDesignWithoutInterceptCrossprodDeterminant`. -/
structure Uninit (K : Type) (k : Nat) where
  coefs : AVector K (k + 1)
  qFactor : AMatrix K (k + 1) (k + 1)
  logPrecisionDeterminant : K
  unscaledPriorPrec : AMatrix K (k + 1) (k + 1)
  logScaledDesignWithoutInterceptCrossprodDeterminant : K

/-- The local `scaledDesignWithoutIntercept` of the constructor:
`arma::diagmat(invSqrtDispersions) * design.cols(1, nCoefs - 1)`. -/
def scaledDesignWithoutIntercept {n k : Nat} (invSqrtDispersions : AVector K n)
    (design : AMatrix K n (k + 1)) : AMatrix K n k :=
  Matrix.diagonal invSqrtDispersions * design.submatrix id Fin.succ

/-- The local `scaledDesignWithoutInterceptCrossprod` of the constructor, before
`potrf` overwrites it. -/
def scaledDesignWithoutInterceptCrossprod {n k : Nat} (invSqrtDispersions : AVector K n)
    (design : AMatrix K n (k + 1)) : AMatrix K k k :=
  (scaledDesignWithoutIntercept invSqrtDispersions design).transpose *
    scaledDesignWithoutIntercept invSqrtDispersions design

/-- The constructor `Iwls::Iwls` (iwls.cpp 42-104).  The design matrix and the
response stand for `getDesignMatrix(mod, data, fpInfo, ucInfo)` and
`data.response`. -/
def Iwls.create {n k : Nat} (m : Libm K) (design : AMatrix K n (k + 1))
    (response : AVector K n) (config : GlmModelConfig K n) (linPredStart : AVector K n)
    (useFixedZ : Bool) (epsilon : K) (u : Uninit K k) : Except Failure (Iwls K n k) :=
  let nCoefs := k + 1
  let isNullModel := decide (nCoefs = 1)
  let invSqrtDispersions : AVector K n := fun i => 1 / m.sqrt (config.dispersions i)
  let results : IwlsResults K n k :=
    { coefs := u.coefs, qFactor := u.qFactor,
      logPrecisionDeterminant := u.logPrecisionDeterminant, linPred := linPredStart }
  if !isNullModel then
    let crossprod := scaledDesignWithoutInterceptCrossprod invSqrtDispersions design
    -- unscaledPriorPrec.zeros(); unscaledPriorPrec.submat(1, 1, ...) = crossprod / cfactor
    let unscaledPriorPrec : AMatrix K (k + 1) (k + 1) := fun i j =>
      Fin.cases 0 (fun i' => Fin.cases 0 (fun j' => crossprod i' j' / config.cfactor) j) i
    match potrf m crossprod with
    | .error info => .error (.ctorCholesky info)
    | .ok chol =>
      .ok { design := design, nCoefs := nCoefs, isNullModel := isNullModel,
            useFixedZ := useFixedZ, nObs := n, response := response, config := config,
            invSqrtDispersions := invSqrtDispersions,
            unscaledPriorPrec := unscaledPriorPrec, results := results,
            epsilon := epsilon,
            logScaledDesignWithoutInterceptCrossprodDeterminant :=
              logDetFromCholesky m chol }
  else
    -- unscaledPriorPrec(0, 0) = 0.0
    .ok { design := design, nCoefs := nCoefs, isNullModel := isNullModel,
          useFixedZ := useFixedZ, nObs := n, response := response, config := config,
          invSqrtDispersions := invSqrtDispersions,
          unscaledPriorPrec := fun i j =>
            if i = 0 ∧ j = 0 then 0 else u.unscaledPriorPrec i j,
          results := results, epsilon := epsilon,
          logScaledDesignWithoutInterceptCrossprodDeterminant :=
            u.logScaledDesignWithoutInterceptCrossprodDeterminant }

/-- The body of the `while` loop of `Iwls::startWithLastLinPred` (iwls.cpp 121-191)
in the round whose counter value is `iter`; returns the object with its new
`results` and the new value of the local `converged`. -/
def Iwls.iwlsRound {n k : Nat} (m : Libm K) (g : K) (iter : Nat) (o : Iwls K n k) :
    Except Failure (Iwls K n k × Bool) :=
  -- pseudo-observations and sqrt(weights) from the linear predictor
  let mu : AVector K n := fun i => o.config.link.linkinv (o.results.linPred i)
  let dmudEta : AVector K n := fun i => o.config.link.mu_eta (o.results.linPred i)
  let pseudoObs : AVector K n := fun i =>
    o.results.linPred i + (o.response i - mu i) / dmudEta i
  let sqrtWeights : AVector K n := fun i =>
    o.invSqrtDispersions i * (dmudEta i / m.sqrt (o.config.distribution.variance (mu i)))
  -- X'sqrt(W)
  let XtsqrtW : AMatrix K (k + 1) n := o.design.transpose * Matrix.diagonal sqrtWeights
  -- Q = tcrossprod(X'sqrt(W)) + 1/g * unscaledPriorPrec
  let Q := syrk XtsqrtW (1 / g) o.unscaledPriorPrec
  match potrf m Q with
  | .error info => .error (.cholesky info iter)
  | .ok qFactor =>
    let coefs_old := o.results.coefs
    let rhsObs : AVector K n := (Matrix.diagonal sqrtWeights).mulVec pseudoObs
    let rhs : AVector K (k + 1) := XtsqrtW.mulVec rhsObs
    let coefs := potrs qFactor rhs
    let linPred := o.design.mulVec coefs
    let converged : Bool :=
      if iter > 1 then decide (criterion coefs_old coefs < o.epsilon) else false
    .ok ({ o with results :=
            { coefs := coefs, qFactor := qFactor,
              logPrecisionDeterminant := o.results.logPrecisionDeterminant,
              linPred := linPred } }, converged)

/-- The state in which the `while` loop of `Iwls::startWithLastLinPred` is left:
the locals `iter` and `converged`, the object, and `rounds`, a counter the
source does not have, which counts the executions of the loop body. -/
structure LoopExit (K : Type) (n k : Nat) where
  iter : Nat
  converged : Bool
  rounds : Nat
  obj : Iwls K n k

/-- The loop `while ((iter++ < maxIter) && (! converged)) { ... }` (iwls.cpp 120-191),
entered with the given values of `iter` and `converged`.  The test compares the
value `iter` has before the increment and the increment happens whether or not
the test succeeds; `maxIter` is a `PosInt`, so the increment can only wrap in the
test that ends the loop. -/
def Iwls.whileLoop {n k : Nat} (m : Libm K) (maxIter : Nat) (g : K) (iter : Nat)
    (converged : Bool) (rounds : Nat) (o : Iwls K n k) : Except Failure (LoopExit K n k) :=
  if iter < maxIter ∧ converged = false then
    match o.iwlsRound m g (iter + 1) with
    | .error e => .error e
    | .ok (o', converged') => Iwls.whileLoop m maxIter g (iter + 1) converged' (rounds + 1) o'
  else
    .ok { iter := (iter + 1) % posIntModulus, converged := converged, rounds := rounds,
          obj := o }
termination_by maxIter - iter

/-- `Iwls::startWithLastLinPred(maxIter, g)` (iwls.cpp 111-202): the returned
`PosInt` and the object after the call. -/
def Iwls.startWithLastLinPred {n k : Nat} (m : Libm K) (maxIter : Nat) (g : K)
    (o : Iwls K n k) : Except Failure (Nat × Iwls K n k) :=
  match Iwls.whileLoop m maxIter g 0 false 0 o with
  | .error e => .error e
  | .ok x =>
    .ok (x.iter,
      { x.obj with results :=
          { x.obj.results with
            logPrecisionDeterminant := logDetFromCholesky m x.obj.results.qFactor } })

/-- `Iwls::startWithNewLinPred(maxIter, g, linPredStart)` (iwls.cpp 206-216). -/
def Iwls.startWithNewLinPred {n k : Nat} (m : Libm K) (maxIter : Nat) (g : K)
    (linPredStart : AVector K n) (o : Iwls K n k) : Except Failure (Nat × Iwls K n k) :=
  Iwls.startWithLastLinPred m maxIter g
    { o with results := { o.results with linPred := linPredStart } }

/-- `Iwls::startWithNewCoefs(maxIter, g, coefsStart)` (iwls.cpp 221-228). -/
def Iwls.startWithNewCoefs {n k : Nat} (m : Libm K) (maxIter : Nat) (g : K)
    (coefsStart : AVector K (k + 1)) (o : Iwls K n k) : Except Failure (Nat × Iwls K n k) :=
  Iwls.startWithNewLinPred m maxIter g (o.design.mulVec coefsStart) o

/-- The object after `j` rounds of the loop body at `g`, run one after the other
without looking at `converged`: the sequence of results the loop of
`startWithLastLinPred` walks along. -/
def Iwls.afterRounds {n k : Nat} (m : Libm K) (g : K) (o : Iwls K n k) :
    Nat → Except Failure (Iwls K n k)
  | 0 => .ok o
  | j + 1 =>
    match Iwls.afterRounds m g o j with
    | .error e => .error e
    | .ok o1 =>
      match o1.iwlsRound m g (j + 1) with
      | .error e => .error e
      | .ok (o2, _) => .ok o2

/-- Whether `criterion(coefficients after round j - 1, coefficients after round j)` is
below `epsilon` (false when one of the two rounds fails). -/
def Iwls.criterionBelowAt {n k : Nat} (m : Libm K) (g : K) (o : Iwls K n k) (j : Nat) :
    Bool :=
  match Iwls.afterRounds m g o (j - 1), Iwls.afterRounds m g o j with
  | .ok o1, .ok o2 => decide (criterion o1.results.coefs o2.results.coefs < o.epsilon)
  | _, _ => false

/-- `Iwls::computeLogUnPosteriorDens(sample)` (iwls.cpp 240-296). -/
def Iwls.computeLogUnPosteriorDens {n k : Nat} (m : Libm K) (o : Iwls K n k)
    (sample : Parameter K k) : K :=
  let linPredSample : AVector K n := o.design.mulVec sample.coefs
  let meansSample : AVector K n := fun i => o.config.link.linkinv (linPredSample i)
  let ret := o.config.distribution.loglik meansSample
  if !o.isNullModel then
    let g := m.exp sample.z
    let scaledBcoefsSample : AVector K n :=
      (Matrix.diagonal o.invSqrtDispersions).mulVec (fun i => linPredSample i - sample.coefs 0)
    let scaledBcoefsSampleNormSquared := dot scaledBcoefsSample scaledBcoefsSample
    let ret := ret + 0.5 * (o.logScaledDesignWithoutInterceptCrossprodDeterminant -
                      scaledBcoefsSampleNormSquared / (g * o.config.cfactor) -
                      ((o.nCoefs : K) - 1.0) *
                        (2.0 * m.lnSqrt2Pi + sample.z + m.log o.config.cfactor))
    if !o.useFixedZ then
      let logGPrior := o.config.gPrior.logDens g
      ret + (logGPrior + sample.z)
    else ret
  else ret

/-! ## Sampler data (sampleGlm.cpp 27-196) -/

/-- The struct `MarginalZ`: the log density of the z-marginal.  Its generator `gen`
draws from R's stream and is part of `RngSource`. -/
structure MarginalZ (K : Type) where
  logDens : K → K

/-- The struct `Options` (without `verbose` and `debug`, which only print). -/
structure Options where
  estimateMargLik : Bool
  isNullModel : Bool
  useFixedZ : Bool
  nSamples : Nat
  iterations : Nat
  burnin : Nat
  step : Nat
  deriving DecidableEq, Repr

/-- The constructor of `Options` (sampleGlm.cpp 45-59):
`nSamples(ceil((iterations - burnin) * 1.0 / step))`, where the difference is an
unsigned 32-bit subtraction, the quotient is exact and the ceiling is converted back to
`PosInt`. -/
def Options.create (estimateMargLik isNullModel useFixedZ : Bool)
    (iterations burnin step : Nat) : Options :=
  { estimateMargLik := estimateMargLik, isNullModel := isNullModel, useFixedZ := useFixedZ,
    nSamples :=
      ⌈(((iterations + posIntModulus - burnin) % posIntModulus : Nat) : ℚ) * 1.0 / (step : ℚ)⌉₊
        % posIntModulus,
    iterations := iterations, burnin := burnin, step := step }

/-- The class `Mcmc`: a sample, its unnormalised log posterior and the proposal that
produced it. -/
structure Mcmc (K : Type) (n k : Nat) where
  sample : Parameter K k
  logUnPosterior : K
  proposalInfo : IwlsResults K n k

/-- `Mcmc::computeLogProposalDens()` (sampleGlm.cpp 100-111). -/
def Mcmc.computeLogProposalDens {n k : Nat} (m : Libm K) (marginalz : MarginalZ K)
    (s : Mcmc K n k) : K :=
  let tmp : AVector K (k + 1) := fun i => s.sample.coefs i - s.proposalInfo.coefs i
  let tmp := trmv s.proposalInfo.qFactor tmp
  0.5 * (s.proposalInfo.logPrecisionDeterminant - dot tmp tmp) -
    m.lnSqrt2Pi * ((k + 1 : Nat) : K) +
    marginalz.logDens s.sample.z

/-- The struct `Samples`: `coefsSamples` has `nSamples` columns, `nSaved` is the
write cursor, the three sequences grow by `push_back`. -/
structure Samples (K : Type) (k : Nat) where
  nSamples : Nat
  coefsSamples : Nat → AVector K (k + 1)
  nSaved : Nat
  zSamples : List K
  numerator : List K
  denominator : List K

/-- The constructor `Samples(nCoefs, nSamples)`; `uninitCols` is the content of the
freshly allocated matrix. -/
def Samples.create {k : Nat} (nSamples : Nat) (uninitCols : Nat → AVector K (k + 1)) :
    Samples K k :=
  { nSamples := nSamples, coefsSamples := uninitCols, nSaved := 0, zSamples := [],
    numerator := [], denominator := [] }

/-- `Samples::storeParameters(sample)` (sampleGlm.cpp 153-158):
`coefsSamples.col(nSaved++) = sample.coefs; zSamples.push_back(sample.z)`.
Addressing a column beyond the last one is the fatal error. -/
def Samples.storeParameters {k : Nat} (s : Samples K k) (sample : Parameter K k) :
    Except Failure (Samples K k) :=
  if s.nSaved < s.nSamples then
    .ok { s with
          coefsSamples := Function.update s.coefsSamples s.nSaved sample.coefs,
          nSaved := s.nSaved + 1,
          zSamples := s.zSamples ++ [sample.z] }
  else .error (.storeBeyondCapacity s.nSaved)

/-- `Samples::storeMargLikTerms(num, denom)` (sampleGlm.cpp 161-166). -/
def Samples.storeMargLikTerms {k : Nat} (s : Samples K k) (num denom : K) : Samples K k :=
  { s with numerator := s.numerator ++ [num], denominator := s.denominator ++ [denom] }

/-! ## Random numbers (sampleGlm.cpp 202-255) -/

/-- The kind of a draw from R's random number stream. -/
inductive Draw where
  | zGen
  | normal
  | uniform
  deriving DecidableEq, Repr

/-- What R's stream delivers: the value of the draw taken at position `i` of the
stream by `marginalZ.gen(1)`, by `Rf_rnorm(0, 1)` and by `unif_rand()`. -/
structure RngSource (K : Type) where
  zGen : Nat → K
  rnorm : Nat → K
  unifRand : Nat → K

/-- The state of the stream: the kinds of the draws taken so far, oldest first. -/
structure Rng where
  trace : List Draw
  deriving DecidableEq, Repr

/-- `marginalZ.gen(1)`: one z-draw. -/
def drawZ (src : RngSource K) (rng : Rng) : K × Rng :=
  (src.zGen rng.trace.length, { trace := rng.trace ++ [Draw.zGen] })

/-- `drawNormalVariates(n, mean, sd)` (sampleGlm.cpp 203-220): `n` calls of
`Rf_rnorm(mean, sd)`, in the order of the index. -/
def drawNormalVariates (src : RngSource K) (n : Nat) (mean sd : K) (rng : Rng) :
    AVector K n × Rng :=
  (fun i => mean + sd * src.rnorm (rng.trace.length + i.val),
   { trace := rng.trace ++ List.replicate n Draw.normal })

/-- `drawNormalVector(mean, precisionCholeskyFactor)` (sampleGlm.cpp 223-240). -/
def drawNormalVector {p : Nat} (src : RngSource K) (mean : AVector K p)
    (precisionCholeskyFactor : AMatrix K p p) (rng : Rng) : AVector K p × Rng :=
  let (w, rng') := drawNormalVariates src p 0 1 rng
  let w := trs precisionCholeskyFactor w
  (fun i => w i + mean i, rng')

/-- `unif()` (sampleGlm.cpp 245-255): one call of `unif_rand()`. -/
def unif (src : RngSource K) (rng : Rng) : K × Rng :=
  (src.unifRand rng.trace.length, { trace := rng.trace ++ [Draw.uniform] })

/-! ## Sampler loop (sampleGlm.cpp 440-748) -/

/-- The variables of `cpp_sampleGlm` that change during the MCMC loop, and the
state of R's random number stream. -/
structure SamplerState (K : Type) (n k : Nat) where
  iwlsObject : Iwls K n k
  samples : Samples K k
  nAccepted : Nat
  now : Mcmc K n k
  old : Mcmc K n k
  rng : Rng

/-- The next term for the denominator of the marginal likelihood estimate
(sampleGlm.cpp 669-671). -/
def denominatorTerm (m : Libm K) (denominator_logUnPosterior
    highDensityPoint_logUnPosterior revDenom_logProposalDensity
    denominator_logProposalDensity : K) : K :=
  let denominatorTerm := denominator_logUnPosterior - highDensityPoint_logUnPosterior +
    revDenom_logProposalDensity - denominator_logProposalDensity
  m.exp (min 0.0 denominatorTerm)

/-- The next term for the numerator of the marginal likelihood estimate
(sampleGlm.cpp 699-701). -/
def numeratorTerm (m : Libm K) (revNum_logProposalDensity
    highDensityPoint_logUnPosterior now_logUnPosterior
    numerator_logProposalDensity : K) : K :=
  m.exp (min revNum_logProposalDensity
    (highDensityPoint_logUnPosterior - now_logUnPosterior + numerator_logProposalDensity))

/-- The proposal part of one iteration (sampleGlm.cpp 526-581): draws `z`, runs one
IWLS step from `now.sample.coefs`, draws the proposal coefficients, runs the reverse
IWLS step.  Returns the new state, `logPosteriorRatio` and `logProposalRatio`. -/
def proposalStep {n k : Nat} (m : Libm K) (src : RngSource K) (marginalZ : MarginalZ K)
    (s : SamplerState K n k) : Except Failure (SamplerState K n k × K × K) :=
  -- now.sample.z = marginalZ.gen(1)
  let (z, rng1) := drawZ src s.rng
  let now1 : Mcmc K n k := { s.now with sample := { s.now.sample with z := z } }
  match s.iwlsObject.startWithNewCoefs m 1 (m.exp now1.sample.z) now1.sample.coefs with
  | .error e => .error e
  | .ok (_, iwls1) =>
    let now2 : Mcmc K n k := { now1 with proposalInfo := iwls1.results }
    let (coefs, rng2) :=
      drawNormalVector src now2.proposalInfo.coefs now2.proposalInfo.qFactor rng1
    let now3 : Mcmc K n k := { now2 with sample := { now2.sample with coefs := coefs } }
    let now4 : Mcmc K n k :=
      { now3 with logUnPosterior := iwls1.computeLogUnPosteriorDens m now3.sample }
    -- Mcmc reverse(old)
    match iwls1.startWithNewCoefs m 1 (m.exp s.old.sample.z) now4.sample.coefs with
    | .error e => .error e
    | .ok (_, iwls2) =>
      let reverse : Mcmc K n k := { s.old with proposalInfo := iwls2.results }
      let logProposalRatioNumerator := reverse.computeLogProposalDens m marginalZ
      let logProposalRatioDenominator := now4.computeLogProposalDens m marginalZ
      let logProposalRatio := logProposalRatioNumerator - logProposalRatioDenominator
      let logPosteriorRatio := now4.logUnPosterior - s.old.logUnPosterior
      .ok ({ s with iwlsObject := iwls2, now := now4, rng := rng2 },
           logPosteriorRatio, logProposalRatio)

/-- The accept/reject part of one iteration (sampleGlm.cpp 587-598). -/
def acceptReject {n k : Nat} (m : Libm K) (src : RngSource K)
    (logPosteriorRatio logProposalRatio : K) (s : SamplerState K n k) : SamplerState K n k :=
  let acceptanceProb := m.exp (logPosteriorRatio + logProposalRatio)
  let (u, rng1) := unif src s.rng
  if u < acceptanceProb then
    { s with old := s.now, nAccepted := s.nAccepted + 1, rng := rng1 }
  else
    { s with now := s.old, rng := rng1 }

/-- The marginal likelihood terms of a recorded iteration (sampleGlm.cpp 636-707). -/
def margLikStep {n k : Nat} (m : Libm K) (src : RngSource K) (marginalZ : MarginalZ K)
    (highDensityPoint : Mcmc K n k) (s : SamplerState K n k) :
    Except Failure (SamplerState K n k) :=
  -- Mcmc denominator(highDensityPoint); denominator.sample.z = marginalZ.gen(1)
  let (z, rng1) := drawZ src s.rng
  let den1 : Mcmc K n k :=
    { highDensityPoint with sample := { highDensityPoint.sample with z := z } }
  match s.iwlsObject.startWithNewLinPred m 1 (m.exp den1.sample.z)
      highDensityPoint.proposalInfo.linPred with
  | .error e => .error e
  | .ok (_, iwls1) =>
    let den2 : Mcmc K n k := { den1 with proposalInfo := iwls1.results }
    let (coefs, rng2) :=
      drawNormalVector src den2.proposalInfo.coefs den2.proposalInfo.qFactor rng1
    let den3 : Mcmc K n k := { den2 with sample := { den2.sample with coefs := coefs } }
    let denominator : Mcmc K n k :=
      { den3 with logUnPosterior := iwls1.computeLogUnPosteriorDens m den3.sample }
    let denominator_logProposalDensity := denominator.computeLogProposalDens m marginalZ
    -- Mcmc revDenom(highDensityPoint)
    match iwls1.startWithNewCoefs m 1 (m.exp highDensityPoint.sample.z)
        denominator.sample.coefs with
    | .error e => .error e
    | .ok (_, iwls2) =>
      let revDenom : Mcmc K n k := { highDensityPoint with proposalInfo := iwls2.results }
      let revDenom_logProposalDensity := revDenom.computeLogProposalDens m marginalZ
      let denomTerm := denominatorTerm m denominator.logUnPosterior
        highDensityPoint.logUnPosterior revDenom_logProposalDensity
        denominator_logProposalDensity
      -- Mcmc numerator(now)
      match iwls2.startWithNewLinPred m 1 (m.exp s.now.sample.z)
          highDensityPoint.proposalInfo.linPred with
      | .error e => .error e
      | .ok (_, iwls3) =>
        let numerator : Mcmc K n k := { s.now with proposalInfo := iwls3.results }
        let numerator_logProposalDensity := numerator.computeLogProposalDens m marginalZ
        -- Mcmc revNum(highDensityPoint)
        match iwls3.startWithNewCoefs m 1 (m.exp highDensityPoint.sample.z)
            s.now.sample.coefs with
        | .error e => .error e
        | .ok (_, iwls4) =>
          let revNum : Mcmc K n k := { highDensityPoint with proposalInfo := iwls4.results }
          let revNum_logProposalDensity := revNum.computeLogProposalDens m marginalZ
          let numTerm := numeratorTerm m revNum_logProposalDensity
            highDensityPoint.logUnPosterior s.now.logUnPosterior numerator_logProposalDensity
          .ok { s with iwlsObject := iwls4, rng := rng2,
                       samples := s.samples.storeMargLikTerms numTerm denomTerm }

/-- The test that decides whether iteration `i_iter` is recorded
(sampleGlm.cpp 606-607):
`(i_iter > options.burnin) && (((i_iter - options.burnin) % options.step) == 0)`. -/
def isRecorded (options : Options) (i_iter : Nat) : Bool :=
  decide (i_iter > options.burnin) && decide ((i_iter - options.burnin) % options.step = 0)

/-- The number of recorded iterations among `i_iter, ..., options.iterations`. -/
def recordedCount (options : Options) (i_iter : Nat) : Nat :=
  (List.range' i_iter (options.iterations + 1 - i_iter)).countP (isRecorded options)

/-- The storing part of iteration `i_iter` (sampleGlm.cpp 606-710). -/
def storeStep {n k : Nat} (m : Libm K) (src : RngSource K) (marginalZ : MarginalZ K)
    (options : Options) (highDensityPoint : Mcmc K n k) (i_iter : Nat)
    (s : SamplerState K n k) : Except Failure (SamplerState K n k) :=
  if isRecorded options i_iter then
    match s.samples.storeParameters s.now.sample with
    | .error e => .error e
    | .ok samples1 =>
      let s1 : SamplerState K n k := { s with samples := samples1 }
      if options.estimateMargLik then margLikStep m src marginalZ highDensityPoint s1
      else .ok s1
  else .ok s

/-- The body of the MCMC loop for iteration `i_iter` (sampleGlm.cpp 515-729). -/
def mcmcIteration {n k : Nat} (m : Libm K) (src : RngSource K) (marginalZ : MarginalZ K)
    (options : Options) (highDensityPoint : Mcmc K n k) (i_iter : Nat)
    (s : SamplerState K n k) : Except Failure (SamplerState K n k) :=
  match proposalStep m src marginalZ s with
  | .error e => .error e
  | .ok (s1, logPosteriorRatio, logProposalRatio) =>
    storeStep m src marginalZ options highDensityPoint i_iter
      (acceptReject m src logPosteriorRatio logProposalRatio s1)

/-- The loop `for(PosInt i_iter = 1; i_iter <= options.iterations; ++i_iter)`
(sampleGlm.cpp 514-730), entered with the given value of `i_iter`. -/
def mcmcLoop {n k : Nat} (m : Libm K) (src : RngSource K) (marginalZ : MarginalZ K)
    (options : Options) (highDensityPoint : Mcmc K n k) (i_iter : Nat)
    (s : SamplerState K n k) : Except Failure (SamplerState K n k) :=
  if i_iter ≤ options.iterations then
    match mcmcIteration m src marginalZ options highDensityPoint i_iter s with
    | .error e => .error e
    | .ok s1 => mcmcLoop m src marginalZ options highDensityPoint (i_iter + 1) s1
  else .ok s
termination_by options.iterations + 1 - i_iter

/-- The list `cpp_sampleGlm` returns. -/
structure SampleGlmResult (K : Type) (k : Nat) where
  samples : Samples K k
  nAccepted : Nat
  highDensityPointLogUnPosterior : K

/-- The state in which `cpp_sampleGlm` enters the MCMC loop (sampleGlm.cpp 444-500),
with the high density point.  `startZ` is `fixedZ` or the mode `zMode` of the model
information, `eps` the constant `EPS`. -/
def samplerInit {n k : Nat} (m : Libm K) (design : AMatrix K n (k + 1))
    (response : AVector K n) (config : GlmModelConfig K n) (options : Options)
    (startZ eps : K) (u : Uninit K k) (uninitCols : Nat → AVector K (k + 1)) :
    Except Failure (SamplerState K n k × Mcmc K n k) :=
  match Iwls.create m design response config config.linPredStart options.useFixedZ eps u with
  | .error e => .error e
  | .ok iwlsObject =>
    let samples : Samples K k := Samples.create options.nSamples uninitCols
    match iwlsObject.startWithNewLinPred m 30 (m.exp startZ) config.linPredStart with
    | .error e => .error e
    | .ok (_, iwls1) =>
      let sample : Parameter K k := { coefs := iwls1.results.coefs, z := startZ }
      let now : Mcmc K n k :=
        { sample := sample,
          logUnPosterior := iwls1.computeLogUnPosteriorDens m sample,
          proposalInfo := iwls1.results }
      .ok ({ iwlsObject := iwls1, samples := samples, nAccepted := 0, now := now, old := now,
             rng := { trace := [] } }, now)

/-- The function `cpp_sampleGlm` from the unpacked arguments on (sampleGlm.cpp 440-748). -/
def cpp_sampleGlm {n k : Nat} (m : Libm K) (src : RngSource K) (marginalZ : MarginalZ K)
    (design : AMatrix K n (k + 1)) (response : AVector K n) (config : GlmModelConfig K n)
    (options : Options) (startZ eps : K) (u : Uninit K k)
    (uninitCols : Nat → AVector K (k + 1)) : Except Failure (SampleGlmResult K k) :=
  match samplerInit m design response config options startZ eps u uninitCols with
  | .error e => .error e
  | .ok (s0, highDensityPoint) =>
    match mcmcLoop m src marginalZ options highDensityPoint 1 s0 with
    | .error e => .error e
    | .ok s =>
      .ok { samples := s.samples, nAccepted := s.nAccepted,
            highDensityPointLogUnPosterior := highDensityPoint.logUnPosterior }

/-! ## The end-to-end scenario of the specification -/

/-- Modelled from the spec: the "canonical link" of a Bernoulli response, the logit
link `linkinv(eta) = exp(eta) / (1 + exp(eta))` with derivative
`mu_eta(eta) = exp(eta) / (1 + exp(eta))^2` (the link classes are not among the
sources). -/
def logitLink (m : Libm K) : Link K :=
  { linkinv := fun eta => m.exp eta / (1 + m.exp eta),
    mu_eta := fun eta => m.exp eta / (1 + m.exp eta) ^ 2 }

/-- Modelled from the spec: the distribution of a "Bernoulli response" `y` (the
distribution classes are not among the sources): variance `mu * (1 - mu)` and
log-likelihood `sum_i y_i * log(mu_i) + (1 - y_i) * log(1 - mu_i)`. -/
def bernoulli {n : Nat} (m : Libm K) (y : AVector K n) : Distribution K n :=
  { variance := fun mu => mu * (1 - mu),
    loglik := fun means => ∑ i, (y i * m.log (means i) + (1 - y i) * m.log (1 - means i)) }

/-- The response of the scenario: `y = [0, 1, 1, 0]`. -/
def scenarioResponse : AVector K 4 := ![0, 1, 1, 0]

/-- A design matrix all of whose entries are 1. -/
def onesDesign {n c : Nat} : AMatrix K n c := fun _ _ => 1

/-- The design of the scenario: 4 observations, intercept only. -/
def scenarioDesign : AMatrix K 4 1 := fun _ _ => 1

/-- A model configuration with unit dispersions, `cfactor = 1`, logit link, Bernoulli
response `y`, a g-prior with constant log density and an all-zero starting linear
predictor. -/
def bernoulliConfig {n : Nat} (m : Libm K) (y : AVector K n) : GlmModelConfig K n :=
  { dispersions := fun _ => 1, cfactor := 1, link := logitLink m,
    distribution := bernoulli m y, gPrior := { logDens := fun _ => 0 },
    linPredStart := fun _ => 0 }

/-- The model configuration of the scenario: unit dispersions, logit link, Bernoulli
response, all-zero starting linear predictor. -/
def scenarioConfig (m : Libm K) : GlmModelConfig K 4 :=
  bernoulliConfig m scenarioResponse

/-- The `Iwls` object the constructor builds for the scenario, holding the results
`r`; `logDet0` is the content of the member the null model leaves without a value. -/
def scenarioIwls (m : Libm K) (useFixedZ : Bool) (epsilon : K) (logDet0 : K)
    (r : IwlsResults K 4 0) : Iwls K 4 0 :=
  { design := scenarioDesign, nCoefs := 1, isNullModel := true, useFixedZ := useFixedZ,
    nObs := 4, response := scenarioResponse, config := scenarioConfig m,
    invSqrtDispersions := fun _ => 1 / m.sqrt 1, unscaledPriorPrec := fun _ _ => 0,
    results := r, epsilon := epsilon,
    logScaledDesignWithoutInterceptCrossprodDeterminant := logDet0 }

/-- An `Mcmc` state of dimension 1 with sample `(1, 0)`, proposal mean 0 and
precision factor 1. -/
def unitMcmc : Mcmc K 1 0 :=
  { sample := { coefs := fun _ => 1, z := 0 }, logUnPosterior := 0,
    proposalInfo := { coefs := fun _ => 0, qFactor := fun _ _ => 1,
                      logPrecisionDeterminant := 0, linPred := fun _ => 0 } }

/-- A state of the sampler of the scenario between the proposal part and the
accept/reject part of an iteration: `old` holds the coefficient 0, the proposal `now`
the coefficient 1, nothing is stored and nothing accepted so far. -/
def scenarioProposalState (m : Libm K) : SamplerState K 4 0 :=
  { iwlsObject := scenarioIwls m false 0.01 0
      { coefs := fun _ => 0, qFactor := fun _ _ => 1, logPrecisionDeterminant := 0,
        linPred := fun _ => 0 },
    samples := Samples.create 1 (fun _ _ => 0),
    nAccepted := 0,
    now := { sample := { coefs := fun _ => 1, z := 0 }, logUnPosterior := 0,
             proposalInfo := { coefs := fun _ => 0, qFactor := fun _ _ => 1,
                               logPrecisionDeterminant := 0, linPred := fun _ => 0 } },
    old := { sample := { coefs := fun _ => 0, z := 0 }, logUnPosterior := 0,
             proposalInfo := { coefs := fun _ => 0, qFactor := fun _ _ => 1,
                               logPrecisionDeterminant := 0, linPred := fun _ => 0 } },
    rng := { trace := [Draw.zGen, Draw.normal] } }

/-- Freshly allocated members filled with zeros. -/
def zeroUninit (k : Nat) : Uninit K k :=
  { coefs := fun _ => 0, qFactor := fun _ _ => 0, logPrecisionDeterminant := 0,
    unscaledPriorPrec := fun _ _ => 0,
    logScaledDesignWithoutInterceptCrossprodDeterminant := 0 }

/-- A random number stream all of whose draws are 0. -/
def zeroSource : RngSource K :=
  { zGen := fun _ => 0, rnorm := fun _ => 0, unifRand := fun _ => 0 }

/-- A z-marginal with constant log density 0. -/
def flatMarginalZ : MarginalZ K := { logDens := fun _ => 0 }

/-! # Theorems -/

/-! ## Bridge terms and the accept/reject step -/

/-- The real exponential is within the range `Libm.ExpInRange` asks for. -/
theorem Libm.expInRange_real (sqrt log : ℝ → ℝ) (lnSqrt2Pi : ℝ) :
    Libm.ExpInRange ⟨sqrt, Real.exp, log, lnSqrt2Pi⟩ :=
  ⟨fun x => (Real.exp_pos x).le, fun _ hx => Real.exp_le_one_iff.mpr hx,
    fun _ hx => Real.one_le_exp hx⟩

/-- The underflow keeps `exp` within the range. -/
theorem Libm.withUnderflow_expInRange (m : Libm K) (h : m.ExpInRange) :
    m.withUnderflow.ExpInRange := by
  obtain ⟨h1, h2, h3⟩ := h
  refine ⟨fun x => ?_, fun x hx => ?_, fun x hx => ?_⟩
  · show 0 ≤ (if x < -746 then 0 else m.exp x)
    split
    · exact le_refl _
    · exact h1 x
  · show (if x < -746 then 0 else m.exp x) ≤ 1
    split
    · exact zero_le_one
    · exact h2 x hx
  · show 1 ≤ (if x < -746 then 0 else m.exp x)
    rw [if_neg (not_lt.mpr (by linarith))]
    exact h3 x hx

/-- With the underflow `exp(-999)` is 0. -/
theorem Libm.withUnderflow_exp_underflow (m : Libm K) (x : K) (hx : x < -746) :
    m.withUnderflow.exp x = 0 := by
  show (if x < -746 then 0 else m.exp x) = 0
  rw [if_pos hx]

/-- C8, as stated, fails on doubles: with `denominator.logUnPosterior = -999` and the
three other inputs 0 the argument of `exp` is `min(0, -999) = -999`, where `exp`
underflows; the denominator term is 0, which is not in `(0, 1]`. -/
theorem denominatorTerm_underflow_not_mem_Ioc :
    ¬ (denominatorTerm
        (Libm.withUnderflow
          ⟨Real.sqrt, Real.exp, Real.log, Real.log (Real.sqrt (2 * Real.pi))⟩)
        (-999) 0 0 0 ∈ Set.Ioc (0 : ℝ) 1) := by
  have h : denominatorTerm
      (Libm.withUnderflow
        ⟨Real.sqrt, Real.exp, Real.log, Real.log (Real.sqrt (2 * Real.pi))⟩)
      (-999) 0 0 0 = 0 := by
    simp only [denominatorTerm]
    apply Libm.withUnderflow_exp_underflow
    norm_num
  rw [h]
  simp

/-- C8, amended. For every `exp` with values in the range of `Libm.ExpInRange` (the
exponential on doubles, underflow included) the denominator term of the marginal
likelihood estimate,
`exp(min(0, (denominator.logUnPosterior - highDensityPoint.logUnPosterior) +
revDenom_logProposalDensity - denominator_logProposalDensity))`, lies in the closed
interval `[0, 1]` for all values of its four inputs; it is 1 when the argument of the
minimum is not negative, and it lies in `(0, 1]` exactly when `exp` is not 0 at the
minimum. -/
theorem denominatorTerm_mem_Icc (m : Libm K) (hexp : m.ExpInRange)
    (denominator_logUnPosterior highDensityPoint_logUnPosterior
      revDenom_logProposalDensity denominator_logProposalDensity : K) :
    denominatorTerm m denominator_logUnPosterior highDensityPoint_logUnPosterior
        revDenom_logProposalDensity denominator_logProposalDensity ∈ Set.Icc (0 : K) 1 ∧
    (0 ≤ denominator_logUnPosterior - highDensityPoint_logUnPosterior +
        revDenom_logProposalDensity - denominator_logProposalDensity →
      denominatorTerm m denominator_logUnPosterior highDensityPoint_logUnPosterior
        revDenom_logProposalDensity denominator_logProposalDensity = 1) ∧
    (denominatorTerm m denominator_logUnPosterior highDensityPoint_logUnPosterior
        revDenom_logProposalDensity denominator_logProposalDensity ∈ Set.Ioc (0 : K) 1 ↔
      m.exp (min 0 (denominator_logUnPosterior - highDensityPoint_logUnPosterior +
        revDenom_logProposalDensity - denominator_logProposalDensity)) ≠ 0) := by
  obtain ⟨h1, h2, h3⟩ := hexp
  have hz : (0.0 : K) = 0 := by norm_num
  simp only [denominatorTerm, hz, Set.mem_Icc, Set.mem_Ioc]
  have hmin : min 0 (denominator_logUnPosterior - highDensityPoint_logUnPosterior +
      revDenom_logProposalDensity - denominator_logProposalDensity) ≤ 0 := min_le_left _ _
  refine ⟨⟨h1 _, h2 _ hmin⟩, ?_, ?_, ?_⟩
  · intro h
    rw [min_eq_left h]
    exact le_antisymm (h2 0 le_rfl) (h3 0 le_rfl)
  · intro h
    exact h.1.ne'
  · intro hne
    exact ⟨lt_of_le_of_ne (h1 _) (Ne.symm hne), h2 _ hmin⟩

/-- C8, amended, on doubles with underflow at the inputs `(-999, 0, 0, 0)`, and with
the real exponential at the inputs `(1, 0, 0, 0)`. -/
theorem denominatorTerm_mem_Icc_witness :
    denominatorTerm
        (Libm.withUnderflow
          ⟨Real.sqrt, Real.exp, Real.log, Real.log (Real.sqrt (2 * Real.pi))⟩)
        (-999) 0 0 0 ∈ Set.Icc (0 : ℝ) 1 ∧
    denominatorTerm ⟨Real.sqrt, Real.exp, Real.log, Real.log (Real.sqrt (2 * Real.pi))⟩
        1 0 0 0 = (1 : ℝ) :=
  ⟨(denominatorTerm_mem_Icc _
      (Libm.withUnderflow_expInRange _ (Libm.expInRange_real _ _ _)) (-999) 0 0 0).1,
    (denominatorTerm_mem_Icc _ (Libm.expInRange_real _ _ _) 1 0 0 0).2.1 (by norm_num)⟩

/-- C3, as stated, fails: with `revNum_logProposalDensity = 1`, both log posteriors 0
and `numerator_logProposalDensity = 1` the numerator term is `exp(1)`, which is not
in `(0, 1]`. -/
theorem numeratorTerm_not_mem_Ioc :
    ¬ (numeratorTerm ⟨Real.sqrt, Real.exp, Real.log, Real.log (Real.sqrt (2 * Real.pi))⟩
        1 0 0 1 ∈ Set.Ioc (0 : ℝ) 1) := by
  simp only [numeratorTerm, Set.mem_Ioc, not_and, not_le]
  intro _
  norm_num

/-- C3, amended. For every `exp` with values in the range of `Libm.ExpInRange` (the
exponential on doubles, underflow included) the numerator term of the marginal
likelihood estimate is not negative; it is at most 1 when one of the two arguments of
the minimum is at most 0, and at least 1 when both are at least 0; and it is at most
`exp(revNum_logProposalDensity)` when `exp` is monotone. -/
theorem numeratorTerm_bounds (m : Libm K) (hexp : m.ExpInRange)
    (revNum_logProposalDensity highDensityPoint_logUnPosterior now_logUnPosterior
      numerator_logProposalDensity : K) :
    0 ≤ numeratorTerm m revNum_logProposalDensity highDensityPoint_logUnPosterior
        now_logUnPosterior numerator_logProposalDensity ∧
    ((revNum_logProposalDensity ≤ 0 ∨
        highDensityPoint_logUnPosterior - now_logUnPosterior +
          numerator_logProposalDensity ≤ 0) →
      numeratorTerm m revNum_logProposalDensity highDensityPoint_logUnPosterior
        now_logUnPosterior numerator_logProposalDensity ≤ 1) ∧
    (0 ≤ revNum_logProposalDensity →
      0 ≤ highDensityPoint_logUnPosterior - now_logUnPosterior +
          numerator_logProposalDensity →
      1 ≤ numeratorTerm m revNum_logProposalDensity highDensityPoint_logUnPosterior
        now_logUnPosterior numerator_logProposalDensity) ∧
    ((∀ x y, x ≤ y → m.exp x ≤ m.exp y) →
      numeratorTerm m revNum_logProposalDensity highDensityPoint_logUnPosterior
        now_logUnPosterior numerator_logProposalDensity ≤ m.exp revNum_logProposalDensity) := by
  obtain ⟨h1, h2, h3⟩ := hexp
  simp only [numeratorTerm]
  refine ⟨h1 _, fun h => h2 _ (min_le_iff.mpr h), fun ha hb => h3 _ (le_min ha hb),
    fun hmono => hmono _ _ (min_le_left _ _)⟩

/-- C3, amended, on doubles with underflow: at the inputs `(-999, 0, 0, 0)` the
numerator term is between 0 and 1 (it is 0), at the inputs `(1, 0, 0, 1)` it is at
least 1. -/
theorem numeratorTerm_bounds_witness :
    (0 : ℝ) ≤ numeratorTerm
        (Libm.withUnderflow
          ⟨Real.sqrt, Real.exp, Real.log, Real.log (Real.sqrt (2 * Real.pi))⟩)
        (-999) 0 0 0 ∧
    numeratorTerm
        (Libm.withUnderflow
          ⟨Real.sqrt, Real.exp, Real.log, Real.log (Real.sqrt (2 * Real.pi))⟩)
        (-999) 0 0 0 ≤ (1 : ℝ) ∧
    (1 : ℝ) ≤ numeratorTerm
        (Libm.withUnderflow
          ⟨Real.sqrt, Real.exp, Real.log, Real.log (Real.sqrt (2 * Real.pi))⟩)
        1 0 0 1 :=
  ⟨(numeratorTerm_bounds _
      (Libm.withUnderflow_expInRange _ (Libm.expInRange_real _ _ _)) (-999) 0 0 0).1,
    (numeratorTerm_bounds _
      (Libm.withUnderflow_expInRange _ (Libm.expInRange_real _ _ _)) (-999) 0 0 0).2.1
      (Or.inl (by norm_num)),
    (numeratorTerm_bounds _
      (Libm.withUnderflow_expInRange _ (Libm.expInRange_real _ _ _)) 1 0 0 1).2.2.1
      (by norm_num) (by norm_num)⟩

/-- The accept/reject step when the uniform draw is 0: the test is
`0 < acceptanceProb`. -/
theorem acceptReject_of_draw_zero {n k : Nat} (m : Libm K) (src : RngSource K)
    (logPosteriorRatio logProposalRatio : K) (s : SamplerState K n k)
    (hdraw : (unif src s.rng).1 = 0) :
    acceptReject m src logPosteriorRatio logProposalRatio s =
      if 0 < m.exp (logPosteriorRatio + logProposalRatio) then
        { s with old := s.now, nAccepted := s.nAccepted + 1, rng := (unif src s.rng).2 }
      else
        { s with now := s.old, rng := (unif src s.rng).2 } := by
  unfold acceptReject
  simp only []
  rw [hdraw]

/-- C9, as stated, fails on doubles: with `logPosteriorRatio = -999` and
`logProposalRatio = 0` the acceptance probability `exp(-999)` underflows to 0, the test
`0 < 0` fails and the proposal is rejected although the uniform draw is 0: `now` is
reset to `old`, `old` does not become the proposal and the accepted-count does not
increase. -/
theorem acceptReject_uniform_zero_rejected :
    (unif zeroSource
        (scenarioProposalState
          (Libm.withUnderflow
            ⟨Real.sqrt, Real.exp, Real.log, Real.log (Real.sqrt (2 * Real.pi))⟩)).rng).1 =
      (0 : ℝ) ∧
    (acceptReject
        (Libm.withUnderflow
          ⟨Real.sqrt, Real.exp, Real.log, Real.log (Real.sqrt (2 * Real.pi))⟩)
        zeroSource (-999) 0
        (scenarioProposalState
          (Libm.withUnderflow
            ⟨Real.sqrt, Real.exp, Real.log, Real.log (Real.sqrt (2 * Real.pi))⟩))).now =
      (scenarioProposalState
        (Libm.withUnderflow
          ⟨Real.sqrt, Real.exp, Real.log, Real.log (Real.sqrt (2 * Real.pi))⟩)).old ∧
    (acceptReject
        (Libm.withUnderflow
          ⟨Real.sqrt, Real.exp, Real.log, Real.log (Real.sqrt (2 * Real.pi))⟩)
        zeroSource (-999) 0
        (scenarioProposalState
          (Libm.withUnderflow
            ⟨Real.sqrt, Real.exp, Real.log, Real.log (Real.sqrt (2 * Real.pi))⟩))).old ≠
      (scenarioProposalState
        (Libm.withUnderflow
          ⟨Real.sqrt, Real.exp, Real.log, Real.log (Real.sqrt (2 * Real.pi))⟩)).now ∧
    (acceptReject
        (Libm.withUnderflow
          ⟨Real.sqrt, Real.exp, Real.log, Real.log (Real.sqrt (2 * Real.pi))⟩)
        zeroSource (-999) 0
        (scenarioProposalState
          (Libm.withUnderflow
            ⟨Real.sqrt, Real.exp, Real.log, Real.log (Real.sqrt (2 * Real.pi))⟩))).nAccepted ≠
      (scenarioProposalState
        (Libm.withUnderflow
          ⟨Real.sqrt, Real.exp, Real.log, Real.log (Real.sqrt (2 * Real.pi))⟩)).nAccepted + 1 := by
  have hexp : (Libm.withUnderflow
      ⟨Real.sqrt, Real.exp, Real.log, Real.log (Real.sqrt (2 * Real.pi))⟩).exp (-999 + 0) =
      (0 : ℝ) := Libm.withUnderflow_exp_underflow _ _ (by norm_num)
  rw [acceptReject_of_draw_zero _ zeroSource (-999) 0
    (scenarioProposalState
      (Libm.withUnderflow
        ⟨Real.sqrt, Real.exp, Real.log, Real.log (Real.sqrt (2 * Real.pi))⟩)) rfl,
    hexp, if_neg (lt_irrefl _)]
  refine ⟨rfl, rfl, ?_, ?_⟩
  · intro h
    have h1 := congrArg (fun x : Mcmc ℝ 4 0 => x.sample.coefs 0) h
    simp [scenarioProposalState] at h1
  · simp [scenarioProposalState]

/-- C9, amended. In the accept/reject step, when the uniform draw equals 0 the proposal
is accepted exactly when the acceptance probability
`exp(logPosteriorRatio + logProposalRatio)` is positive: then `old` becomes `now`, `now`
is kept and the accepted-count increases by one; when the probability is 0 (`exp` has
underflowed) the proposal is rejected, `now` is reset to `old` and the accepted-count is
unchanged.  For an `exp` within the range of `Libm.ExpInRange` the proposal is accepted
whenever `logPosteriorRatio + logProposalRatio >= 0`. -/
theorem acceptReject_uniform_zero {n k : Nat} (m : Libm K) (src : RngSource K)
    (logPosteriorRatio logProposalRatio : K) (s : SamplerState K n k)
    (hdraw : (unif src s.rng).1 = 0) :
    (0 < m.exp (logPosteriorRatio + logProposalRatio) →
      (acceptReject m src logPosteriorRatio logProposalRatio s).old = s.now ∧
      (acceptReject m src logPosteriorRatio logProposalRatio s).now = s.now ∧
      (acceptReject m src logPosteriorRatio logProposalRatio s).nAccepted =
        s.nAccepted + 1) ∧
    (¬ 0 < m.exp (logPosteriorRatio + logProposalRatio) →
      (acceptReject m src logPosteriorRatio logProposalRatio s).old = s.old ∧
      (acceptReject m src logPosteriorRatio logProposalRatio s).now = s.old ∧
      (acceptReject m src logPosteriorRatio logProposalRatio s).nAccepted = s.nAccepted) ∧
    (m.ExpInRange → 0 ≤ logPosteriorRatio + logProposalRatio →
      (acceptReject m src logPosteriorRatio logProposalRatio s).old = s.now ∧
      (acceptReject m src logPosteriorRatio logProposalRatio s).now = s.now ∧
      (acceptReject m src logPosteriorRatio logProposalRatio s).nAccepted =
        s.nAccepted + 1) := by
  rw [acceptReject_of_draw_zero m src _ _ s hdraw]
  refine ⟨fun h => ?_, fun h => ?_, fun hexp h => ?_⟩
  · rw [if_pos h]
    exact ⟨rfl, rfl, rfl⟩
  · rw [if_neg h]
    exact ⟨rfl, rfl, rfl⟩
  · rw [if_pos (lt_of_lt_of_le zero_lt_one (hexp.2.2 _ h))]
    exact ⟨rfl, rfl, rfl⟩

/-- C9, amended, on doubles with underflow, with a stream whose draws are all 0, at
`logPosteriorRatio = -1` and `logProposalRatio = -2`: the acceptance probability
`exp(-3)` is positive and the proposal is accepted. -/
theorem acceptReject_uniform_zero_witness :
    (unif zeroSource
        (scenarioProposalState
          (Libm.withUnderflow
            ⟨Real.sqrt, Real.exp, Real.log, Real.log (Real.sqrt (2 * Real.pi))⟩)).rng).1 =
      (0 : ℝ) ∧
    (acceptReject
        (Libm.withUnderflow
          ⟨Real.sqrt, Real.exp, Real.log, Real.log (Real.sqrt (2 * Real.pi))⟩)
        zeroSource (-1) (-2)
        (scenarioProposalState
          (Libm.withUnderflow
            ⟨Real.sqrt, Real.exp, Real.log, Real.log (Real.sqrt (2 * Real.pi))⟩))).old =
      (scenarioProposalState
        (Libm.withUnderflow
          ⟨Real.sqrt, Real.exp, Real.log, Real.log (Real.sqrt (2 * Real.pi))⟩)).now ∧
    (acceptReject
        (Libm.withUnderflow
          ⟨Real.sqrt, Real.exp, Real.log, Real.log (Real.sqrt (2 * Real.pi))⟩)
        zeroSource (-1) (-2)
        (scenarioProposalState
          (Libm.withUnderflow
            ⟨Real.sqrt, Real.exp, Real.log, Real.log (Real.sqrt (2 * Real.pi))⟩))).nAccepted =
      1 := by
  have hpos : (0 : ℝ) < (Libm.withUnderflow
      ⟨Real.sqrt, Real.exp, Real.log, Real.log (Real.sqrt (2 * Real.pi))⟩).exp (-1 + -2) := by
    show (0 : ℝ) < (if (-1 + -2 : ℝ) < -746 then 0 else Real.exp (-1 + -2))
    rw [if_neg (by norm_num)]
    exact Real.exp_pos _
  obtain ⟨h1, -, h3⟩ := (acceptReject_uniform_zero _ zeroSource (-1) (-2)
    (scenarioProposalState
      (Libm.withUnderflow
        ⟨Real.sqrt, Real.exp, Real.log, Real.log (Real.sqrt (2 * Real.pi))⟩)) rfl).1 hpos
  exact ⟨rfl, h1, h3⟩

/-! ## The unnormalised log posterior -/

/-- The members the constructor sets from its arguments. -/
theorem Iwls.create_fields {n k : Nat} {m : Libm K}
    {design : AMatrix K n (k + 1)} {response : AVector K n} {config : GlmModelConfig K n}
    {linPredStart : AVector K n} {useFixedZ : Bool} {epsilon : K} {u : Uninit K k}
    {o : Iwls K n k}
    (hcreate : Iwls.create m design response config linPredStart useFixedZ epsilon u = .ok o) :
    o.design = design ∧ o.nCoefs = k + 1 ∧ o.isNullModel = decide (k + 1 = 1) ∧
      o.useFixedZ = useFixedZ ∧ o.response = response ∧ o.config = config ∧
      o.invSqrtDispersions = (fun i => 1 / m.sqrt (config.dispersions i)) ∧
      o.epsilon = epsilon ∧ o.results.linPred = linPredStart := by
  simp only [Iwls.create] at hcreate
  split at hcreate
  · split at hcreate
    · exact absurd hcreate (by simp)
    · simp only [Except.ok.injEq] at hcreate
      subst hcreate
      exact ⟨rfl, rfl, rfl, rfl, rfl, rfl, rfl, rfl, rfl⟩
  · simp only [Except.ok.injEq] at hcreate
    subst hcreate
    exact ⟨rfl, rfl, rfl, rfl, rfl, rfl, rfl, rfl, rfl⟩

/-- The squared norm in the prior part of the posterior is the quadratic form of
`B' D^-1 B` when column 0 of the design is all ones. -/
theorem scaledBcoefs_normSquared {n k : Nat} (design : AMatrix ℝ n (k + 1))
    (dispersions : AVector ℝ n) (coefs : AVector ℝ (k + 1))
    (hones : ∀ i, design i 0 = 1) (hdisp : ∀ i, 0 < dispersions i) :
    dot ((Matrix.diagonal (fun i => 1 / Real.sqrt (dispersions i))).mulVec
          (fun i => design.mulVec coefs i - coefs 0))
        ((Matrix.diagonal (fun i => 1 / Real.sqrt (dispersions i))).mulVec
          (fun i => design.mulVec coefs i - coefs 0)) =
      Matrix.dotProduct (fun j => coefs (Fin.succ j))
        (((design.submatrix id Fin.succ).transpose *
            Matrix.diagonal (fun i => (dispersions i)⁻¹) *
            design.submatrix id Fin.succ).mulVec (fun j => coefs (Fin.succ j))) := by
  have hB : ∀ i, design.mulVec coefs i - coefs 0 =
      (design.submatrix id Fin.succ).mulVec (fun j => coefs (Fin.succ j)) i := by
    intro i
    simp [Matrix.mulVec, Matrix.dotProduct, Fin.sum_univ_succ, hones i]
  rw [← Matrix.mulVec_mulVec, ← Matrix.mulVec_mulVec, Matrix.dotProduct_mulVec,
    Matrix.vecMul_transpose]
  simp only [dot, Matrix.dotProduct, Matrix.mulVec_diagonal, hB]
  refine Finset.sum_congr rfl fun i _ => ?_
  have hs : 1 / Real.sqrt (dispersions i) * (1 / Real.sqrt (dispersions i)) =
      (dispersions i)⁻¹ := by
    rw [one_div, ← mul_inv, Real.mul_self_sqrt (hdisp i).le]
  rw [← hs]; ring

/-- C5. For a non-null model whose design column 0 is all ones, with `z` held fixed and
`logScaledDesignWithoutInterceptCrossprodDeterminant = log det(B' D^-1 B)`,
`computeLogUnPosteriorDens(coefs, z)` minus the log-likelihood of `linkinv(design*coefs)`
is `0.5*log det(B'D^-1B) - (k/2)*log(2*pi*g*cfactor) - coefs_B' B'D^-1B coefs_B / (2*g*cfactor)`
with `g = exp(z)`, `B` the design without the intercept column, `D = diag(dispersions)`
and `k = nCoefs - 1`: the normalised log density of `N(0, g*cfactor*(B' D^-1 B)^-1)` at
the non-intercept coefficients.  Dispersions and `cfactor` are positive. -/
theorem computeLogUnPosteriorDens_fixedZ {n k : Nat} (design : AMatrix ℝ n (k + 1))
    (response : AVector ℝ n) (config : GlmModelConfig ℝ n) (linPredStart : AVector ℝ n)
    (epsilon : ℝ) (u : Uninit ℝ k) (o : Iwls ℝ n k) (coefs : AVector ℝ (k + 1)) (z : ℝ)
    (hcreate : Iwls.create ⟨Real.sqrt, Real.exp, Real.log, Real.log (Real.sqrt (2 * Real.pi))⟩
      design response config linPredStart true epsilon u = .ok o)
    (hnonnull : o.isNullModel = false)
    (hones : ∀ i, design i 0 = 1)
    (hdisp : ∀ i, 0 < config.dispersions i)
    (hcfactor : 0 < config.cfactor)
    (hdet : o.logScaledDesignWithoutInterceptCrossprodDeterminant =
      Real.log ((design.submatrix id Fin.succ).transpose *
            Matrix.diagonal (fun i => (config.dispersions i)⁻¹) *
            design.submatrix id Fin.succ).det) :
    o.computeLogUnPosteriorDens
        ⟨Real.sqrt, Real.exp, Real.log, Real.log (Real.sqrt (2 * Real.pi))⟩ ⟨coefs, z⟩ -
      config.distribution.loglik (fun i => config.link.linkinv (design.mulVec coefs i)) =
    0.5 * Real.log ((design.submatrix id Fin.succ).transpose *
            Matrix.diagonal (fun i => (config.dispersions i)⁻¹) *
            design.submatrix id Fin.succ).det -
      ((k : ℝ) / 2) * Real.log (2 * Real.pi * Real.exp z * config.cfactor) -
      Matrix.dotProduct (fun j => coefs (Fin.succ j))
        (((design.submatrix id Fin.succ).transpose *
            Matrix.diagonal (fun i => (config.dispersions i)⁻¹) *
            design.submatrix id Fin.succ).mulVec (fun j => coefs (Fin.succ j))) /
        (2 * Real.exp z * config.cfactor) := by
  have hq := scaledBcoefs_normSquared design config.dispersions coefs hones hdisp
  have hlog : Real.log (2 * Real.pi * Real.exp z * config.cfactor) =
      2 * Real.log (Real.sqrt (2 * Real.pi)) + z + Real.log config.cfactor := by
    have h2pi : (0 : ℝ) < 2 * Real.pi := by positivity
    rw [Real.log_mul (mul_pos h2pi (Real.exp_pos z)).ne' hcfactor.ne',
      Real.log_mul h2pi.ne' (Real.exp_pos z).ne', Real.log_exp,
      Real.log_sqrt h2pi.le]
    ring
  obtain ⟨hd, hn, -, hfz, -, hcfg, hisd, -, -⟩ := Iwls.create_fields hcreate
  unfold Iwls.computeLogUnPosteriorDens
  simp only [hd, hn, hfz, hcfg, hisd, hnonnull, hq, hdet, hlog, Bool.not_false, Bool.not_true,
    if_true, Bool.false_eq_true, if_false]
  push_cast
  ring

/-- C10. Null-model invariant: when `nCoefs == 1` the constructor succeeds and
`computeLogUnPosteriorDens(sample)` is exactly the log-likelihood of the means
`linkinv(design*coefs)`, whatever `sample.z` and `useFixedZ` are. -/
theorem computeLogUnPosteriorDens_nullModel {n : Nat}
    (m : Libm K) (design : AMatrix K n 1) (response : AVector K n)
    (config : GlmModelConfig K n) (linPredStart : AVector K n) (useFixedZ : Bool)
    (epsilon : K) (u : Uninit K 0) :
    ∃ o : Iwls K n 0,
      Iwls.create m design response config linPredStart useFixedZ epsilon u = .ok o ∧
      o.nCoefs = 1 ∧
      ∀ sample : Parameter K 0,
        o.computeLogUnPosteriorDens m sample =
          config.distribution.loglik
            (fun i => config.link.linkinv ((design.mulVec sample.coefs) i)) := by
  refine ⟨_, rfl, rfl, ?_⟩
  intro sample
  rfl

/-! ## The IWLS loop -/

/-- The loop counter and the number of rounds advance together: a loop entered with
`iter <= maxIter` runs `e` rounds, leaves `iter + e + 1` in the counter and
`iter + e <= maxIter`. -/
theorem Iwls.whileLoop_rounds {n k : Nat} (m : Libm K) (maxIter : Nat) (g : K) :
    ∀ (d iter : Nat) (converged : Bool) (rounds : Nat) (o : Iwls K n k) (x : LoopExit K n k),
      maxIter - iter = d → iter ≤ maxIter →
      Iwls.whileLoop m maxIter g iter converged rounds o = .ok x →
      ∃ e, x.rounds = rounds + e ∧ x.iter = (iter + e + 1) % posIntModulus ∧
        iter + e ≤ maxIter := by
  intro d
  induction d with
  | zero =>
    intro iter converged rounds o x hd hle hrun
    rw [Iwls.whileLoop] at hrun
    have : ¬ (iter < maxIter ∧ converged = false) := by omega
    rw [if_neg this] at hrun
    simp only [Except.ok.injEq] at hrun
    subst hrun
    exact ⟨0, rfl, rfl, by omega⟩
  | succ d ih =>
    intro iter converged rounds o x hd hle hrun
    rw [Iwls.whileLoop] at hrun
    split at hrun
    · split at hrun
      · exact absurd hrun (by simp)
      · rename_i o1 c1 hround
        obtain ⟨e, h1, h2, h3⟩ := ih (iter + 1) c1 (rounds + 1) o1 x (by omega) (by omega) hrun
        exact ⟨e + 1, by omega, by rw [h2]; congr 1; omega, by omega⟩
    · simp only [Except.ok.injEq] at hrun
      subst hrun
      exact ⟨0, rfl, rfl, by omega⟩

/-- The first round never reports convergence. -/
theorem Iwls.iwlsRound_one_not_converged {n k : Nat} (m : Libm K) (g : K) (o o1 : Iwls K n k)
    (c : Bool) (hround : o.iwlsRound m g 1 = .ok (o1, c)) : c = false := by
  unfold Iwls.iwlsRound at hround
  simp only [] at hround
  split at hround
  · exact absurd hround (by simp)
  · simp only [gt_iff_lt, lt_self_iff_false, if_false, Except.ok.injEq, Prod.mk.injEq] at hround
    exact hround.2.symm

/-- The Cholesky factor of a positive 1 x 1 matrix. -/
theorem potrf_one (m : Libm K) (A : AMatrix K 1 1) (h : 0 < A 0 0) :
    potrf m A = .ok (fun _ _ => m.sqrt (A 0 0)) := by
  have h1 : List.finRange 1 = [0] := rfl
  simp only [potrf, h1, potrfColumns, potrfColumn]
  have : (Finset.univ.filter (fun t : Fin 1 => t < 0)) = ∅ := by decide
  simp [this, not_le.mpr h]
  funext i c
  simp [Subsingleton.elim c 0, Subsingleton.elim i 0]

/-- The forward-backward solve against a 1 x 1 factor. -/
theorem potrs_one (L : AMatrix K 1 1) (b : AVector K 1) :
    potrs L b = fun _ => b 0 / L 0 0 / L 0 0 := by
  have h1 : List.finRange 1 = [0] := rfl
  have e1 : (Finset.univ.filter (fun t : Fin 1 => t < 0)) = ∅ := by decide
  have e2 : (Finset.univ.filter (fun t : Fin 1 => 0 < t)) = ∅ := by decide
  funext i
  simp [potrs, backSolveTrans, forwardSolve, h1, e1, e2, Subsingleton.elim i 0]

/-- An entry of the precision matrix `Q = X' W X + 1/g * unscaledPriorPrec`. -/
theorem syrk_XtsqrtW_apply {n p : Nat} (design : AMatrix K n p) (sqrtWeights : AVector K n)
    (beta : K) (C : AMatrix K p p) (a b : Fin p) :
    syrk (design.transpose * Matrix.diagonal sqrtWeights) beta C a b =
      ∑ i, (design i a * sqrtWeights i) * (design i b * sqrtWeights i) + beta * C a b := by
  rw [syrk, Matrix.add_apply, Matrix.mul_apply]
  simp only [Matrix.transpose_apply, Matrix.mul_diagonal, Matrix.smul_apply, smul_eq_mul]

/-! ## The scenario: IWLS -/

/-- The constructor builds the scenario object. -/
theorem scenario_create (m : Libm K) (useFixedZ : Bool) (epsilon : K) (u : Uninit K 0) :
    Iwls.create m scenarioDesign scenarioResponse (scenarioConfig m)
        (scenarioConfig m).linPredStart useFixedZ epsilon u =
      .ok (scenarioIwls m useFixedZ epsilon u.logScaledDesignWithoutInterceptCrossprodDeterminant
        { coefs := u.coefs, qFactor := u.qFactor,
          logPrecisionDeterminant := u.logPrecisionDeterminant, linPred := fun _ => 0 }) := by
  have hu : (fun i j : Fin 1 => if i = 0 ∧ j = 0 then (0 : K) else u.unscaledPriorPrec i j) =
      fun _ _ => 0 := by
    funext i j
    simp [Subsingleton.elim i 0, Subsingleton.elim j 0]
  simp only [Iwls.create, scenarioIwls, hu]
  rfl

/-- The square-root weight of an observation of the scenario is positive. -/
theorem scenario_sqrtWeight_pos (eta : ℝ) :
    0 < 1 / Real.sqrt 1 * (Real.exp eta / (1 + Real.exp eta) ^ 2 /
      Real.sqrt (Real.exp eta / (1 + Real.exp eta) * (1 - Real.exp eta / (1 + Real.exp eta)))) := by
  have he := Real.exp_pos eta
  have h1 : 1 - Real.exp eta / (1 + Real.exp eta) = 1 / (1 + Real.exp eta) := by
    field_simp
  rw [h1, Real.sqrt_one]
  have : 0 < Real.exp eta / (1 + Real.exp eta) * (1 / (1 + Real.exp eta)) := by positivity
  have := Real.sqrt_pos.mpr this
  positivity

/-- In the scenario a round of IWLS never fails, whatever the current results. -/
theorem scenario_iwlsRound_ok (logf : ℝ → ℝ) (c0 : ℝ) (useFixedZ : Bool)
    (epsilon logDet0 g : ℝ) (iter : Nat) (r : IwlsResults ℝ 4 0) :
    ∃ (r1 : IwlsResults ℝ 4 0) (c : Bool),
      (scenarioIwls ⟨Real.sqrt, Real.exp, logf, c0⟩ useFixedZ epsilon logDet0 r).iwlsRound
          ⟨Real.sqrt, Real.exp, logf, c0⟩ g iter =
        .ok (scenarioIwls ⟨Real.sqrt, Real.exp, logf, c0⟩ useFixedZ epsilon logDet0 r1, c) := by
  unfold Iwls.iwlsRound
  simp only []
  rw [potrf_one]
  · exact ⟨_, _, rfl⟩
  · rw [syrk_XtsqrtW_apply]
    refine add_pos_of_pos_of_nonneg (Finset.sum_pos (fun i _ => ?_) Finset.univ_nonempty) ?_
    · have h : (0 : ℝ) < 1 * _ := mul_pos one_pos (scenario_sqrtWeight_pos (r.linPred i))
      exact mul_pos h h
    · simp [scenarioIwls]

/-- In the scenario the IWLS loop never fails. -/
theorem scenario_whileLoop_ok (logf : ℝ → ℝ) (c0 : ℝ) (useFixedZ : Bool)
    (epsilon logDet0 g : ℝ) (maxIter : Nat) :
    ∀ (d iter : Nat) (converged : Bool) (rounds : Nat) (r : IwlsResults ℝ 4 0),
      maxIter - iter = d →
      ∃ (x : LoopExit ℝ 4 0) (r1 : IwlsResults ℝ 4 0),
        Iwls.whileLoop ⟨Real.sqrt, Real.exp, logf, c0⟩ maxIter g iter converged rounds
            (scenarioIwls ⟨Real.sqrt, Real.exp, logf, c0⟩ useFixedZ epsilon logDet0 r) = .ok x ∧
          x.obj = scenarioIwls ⟨Real.sqrt, Real.exp, logf, c0⟩ useFixedZ epsilon logDet0 r1 := by
  intro d
  induction d with
  | zero =>
    intro iter converged rounds r hd
    rw [Iwls.whileLoop]
    have : ¬ (iter < maxIter ∧ converged = false) := by omega
    rw [if_neg this]
    exact ⟨_, r, rfl, rfl⟩
  | succ d ih =>
    intro iter converged rounds r hd
    rw [Iwls.whileLoop]
    split
    · obtain ⟨r1, c, hround⟩ :=
        scenario_iwlsRound_ok logf c0 useFixedZ epsilon logDet0 g (iter + 1) r
      rw [hround]
      exact ih (iter + 1) c (rounds + 1) r1 (by omega)
    · exact ⟨_, r, rfl, rfl⟩

/-- In the scenario `startWithLastLinPred` never fails. -/
theorem scenario_startWithLastLinPred_ok (logf : ℝ → ℝ) (c0 : ℝ) (useFixedZ : Bool)
    (epsilon logDet0 g : ℝ) (maxIter : Nat) (r : IwlsResults ℝ 4 0) :
    ∃ (ret : Nat) (r1 : IwlsResults ℝ 4 0),
      Iwls.startWithLastLinPred ⟨Real.sqrt, Real.exp, logf, c0⟩ maxIter g
          (scenarioIwls ⟨Real.sqrt, Real.exp, logf, c0⟩ useFixedZ epsilon logDet0 r) =
        .ok (ret, scenarioIwls ⟨Real.sqrt, Real.exp, logf, c0⟩ useFixedZ epsilon logDet0 r1) := by
  obtain ⟨x, r1, hx, hobj⟩ :=
    scenario_whileLoop_ok logf c0 useFixedZ epsilon logDet0 g maxIter _ 0 false 0 r rfl
  unfold Iwls.startWithLastLinPred
  rw [hx]
  simp only [hobj]
  exact ⟨_, _, rfl⟩

/-- In the scenario `startWithNewLinPred` never fails. -/
theorem scenario_startWithNewLinPred_ok (logf : ℝ → ℝ) (c0 : ℝ) (useFixedZ : Bool)
    (epsilon logDet0 g : ℝ) (maxIter : Nat) (linPredStart : AVector ℝ 4)
    (r : IwlsResults ℝ 4 0) :
    ∃ (ret : Nat) (r1 : IwlsResults ℝ 4 0),
      Iwls.startWithNewLinPred ⟨Real.sqrt, Real.exp, logf, c0⟩ maxIter g linPredStart
          (scenarioIwls ⟨Real.sqrt, Real.exp, logf, c0⟩ useFixedZ epsilon logDet0 r) =
        .ok (ret, scenarioIwls ⟨Real.sqrt, Real.exp, logf, c0⟩ useFixedZ epsilon logDet0 r1) :=
  scenario_startWithLastLinPred_ok logf c0 useFixedZ epsilon logDet0 g maxIter
    { r with linPred := linPredStart }

/-- In the scenario `startWithNewCoefs` never fails. -/
theorem scenario_startWithNewCoefs_ok (logf : ℝ → ℝ) (c0 : ℝ) (useFixedZ : Bool)
    (epsilon logDet0 g : ℝ) (maxIter : Nat) (coefsStart : AVector ℝ 1)
    (r : IwlsResults ℝ 4 0) :
    ∃ (ret : Nat) (r1 : IwlsResults ℝ 4 0),
      Iwls.startWithNewCoefs ⟨Real.sqrt, Real.exp, logf, c0⟩ maxIter g coefsStart
          (scenarioIwls ⟨Real.sqrt, Real.exp, logf, c0⟩ useFixedZ epsilon logDet0 r) =
        .ok (ret, scenarioIwls ⟨Real.sqrt, Real.exp, logf, c0⟩ useFixedZ epsilon logDet0 r1) :=
  scenario_startWithNewLinPred_ok logf c0 useFixedZ epsilon logDet0 g maxIter _ r

/-- In the scenario, a round of IWLS with `g = 1` that starts from the all-zero linear
predictor returns the coefficient 0, the factor 1 and the all-zero linear predictor. -/
theorem scenario_iwlsRound_zero (logf : ℝ → ℝ) (c0 : ℝ) (useFixedZ : Bool)
    (epsilon logDet0 : ℝ) (iter : Nat) (r : IwlsResults ℝ 4 0) (h0 : r.linPred = fun _ => 0) :
    (scenarioIwls ⟨Real.sqrt, Real.exp, logf, c0⟩ useFixedZ epsilon logDet0 r).iwlsRound
          ⟨Real.sqrt, Real.exp, logf, c0⟩ 1 iter =
        .ok (scenarioIwls ⟨Real.sqrt, Real.exp, logf, c0⟩ useFixedZ epsilon logDet0
              { coefs := fun _ => 0, qFactor := fun _ _ => 1,
                logPrecisionDeterminant := r.logPrecisionDeterminant, linPred := fun _ => 0 },
             if iter > 1 then decide (criterion r.coefs (fun _ => 0) < epsilon) else false) := by
  have hs : Real.sqrt (1 / 4) = 1 / 2 := by
    rw [show (1 / 4 : ℝ) = (1 / 2) ^ 2 by norm_num, Real.sqrt_sq (by norm_num)]
  have hQ : syrk ((scenarioDesign : AMatrix ℝ 4 1).transpose * Matrix.diagonal
      (fun _ : Fin 4 => (1 / 2 : ℝ))) 1 (fun _ _ => 0) 0 0 = 1 := by
    rw [syrk_XtsqrtW_apply]
    simp [scenarioDesign, Fin.sum_univ_four]
    norm_num
  have hsum : ∑ x : Fin 4, (scenarioDesign : AMatrix ℝ 4 1) x 0 * 2⁻¹ *
      (2⁻¹ * ((scenarioResponse x - 2⁻¹) * 4)) = 0 := by
    simp [Fin.sum_univ_four, scenarioDesign, scenarioResponse]
    norm_num
  unfold Iwls.iwlsRound
  simp only [scenarioIwls, scenarioConfig, bernoulliConfig, logitLink, bernoulli, h0,
    Real.exp_zero]
  norm_num [hs]
  rw [potrf_one _ _ (by rw [hQ]; exact one_pos)]
  simp only [hQ, Real.sqrt_one, potrs_one]
  simp [Matrix.mulVec, Matrix.dotProduct, hsum]
  funext i
  simp [Matrix.mulVec, Matrix.dotProduct]

/-- The criterion of two all-zero vectors of length 1 is 0. -/
theorem criterion_zero_one : criterion (fun _ : Fin 1 => (0 : K)) (fun _ => 0) = 0 := by
  have h1 : List.finRange 1 = [0] := rfl
  simp [criterion, h1, criterionStep]

/-- The scenario loop with `maxIter >= 2` and `g = 1`, from the all-zero linear
predictor: two rounds, left because `converged` is true. -/
theorem scenario_whileLoop_zero (logf : ℝ → ℝ) (c0 : ℝ) (useFixedZ : Bool)
    (epsilon logDet0 : ℝ) (heps : 0 < epsilon) (maxIter : Nat) (hmax : 2 ≤ maxIter)
    (r : IwlsResults ℝ 4 0) (h0 : r.linPred = fun _ => 0) :
    Iwls.whileLoop ⟨Real.sqrt, Real.exp, logf, c0⟩ maxIter 1 0 false 0
        (scenarioIwls ⟨Real.sqrt, Real.exp, logf, c0⟩ useFixedZ epsilon logDet0 r) =
      .ok { iter := 3, converged := true, rounds := 2,
            obj := scenarioIwls ⟨Real.sqrt, Real.exp, logf, c0⟩ useFixedZ epsilon logDet0
              { coefs := fun _ => 0, qFactor := fun _ _ => 1,
                logPrecisionDeterminant := r.logPrecisionDeterminant,
                linPred := fun _ => 0 } } := by
  rw [Iwls.whileLoop, if_pos ⟨by omega, rfl⟩, scenario_iwlsRound_zero _ _ _ _ _ _ _ h0]
  simp only [gt_iff_lt, lt_self_iff_false, if_false, zero_add]
  rw [Iwls.whileLoop, if_pos ⟨by omega, rfl⟩, scenario_iwlsRound_zero _ _ _ _ _ _ _ rfl]
  simp only [criterion_zero_one, heps, decide_True, Nat.one_lt_ofNat, if_true, gt_iff_lt]
  rw [Iwls.whileLoop, if_neg (by simp)]
  rfl

/-- What `startWithLastLinPred` returns when its loop is left in the state `x`. -/
theorem Iwls.startWithLastLinPred_of_whileLoop {n k : Nat} (m : Libm K) (maxIter : Nat)
    (g : K) (o : Iwls K n k) (x : LoopExit K n k)
    (hloop : Iwls.whileLoop m maxIter g 0 false 0 o = .ok x) :
    Iwls.startWithLastLinPred m maxIter g o =
      .ok (x.iter,
        { x.obj with results :=
            { x.obj.results with
              logPrecisionDeterminant := logDetFromCholesky m x.obj.results.qFactor } }) := by
  unfold Iwls.startWithLastLinPred
  rw [hloop]

/-- C6. End-to-end scenario: intercept-only null model, 4 observations, Bernoulli
response `y = [0,1,1,0]`, logit link, unit dispersions, tolerance `epsilon > 0`,
all-zero starting linear predictor.  The IWLS run with `maxIter = 30` and `g = 1`
leaves the loop with `converged` true (the criterion fell below `epsilon`; the cap was
not hit), after more than 1 and at most 30 rounds, and the coefficient is within
`epsilon` of `logit(0.5) = log(0.5 / (1 - 0.5))`. -/
theorem scenario_converges (epsilon : ℝ) (heps : 0 < epsilon) (useFixedZ : Bool)
    (u : Uninit ℝ 0) :
    ∃ (o : Iwls ℝ 4 0) (x : LoopExit ℝ 4 0) (o1 : Iwls ℝ 4 0),
      Iwls.create ⟨Real.sqrt, Real.exp, Real.log, Real.log (Real.sqrt (2 * Real.pi))⟩
          scenarioDesign scenarioResponse
          (scenarioConfig ⟨Real.sqrt, Real.exp, Real.log, Real.log (Real.sqrt (2 * Real.pi))⟩)
          (fun _ => 0) useFixedZ epsilon u = .ok o ∧
      Iwls.whileLoop ⟨Real.sqrt, Real.exp, Real.log, Real.log (Real.sqrt (2 * Real.pi))⟩
          30 1 0 false 0 o = .ok x ∧
      x.converged = true ∧ 1 < x.rounds ∧ x.rounds ≤ 30 ∧ x.rounds < 30 ∧
      Iwls.startWithLastLinPred
          ⟨Real.sqrt, Real.exp, Real.log, Real.log (Real.sqrt (2 * Real.pi))⟩ 30 1 o =
        .ok (x.iter, o1) ∧
      |o1.results.coefs 0 - Real.log (0.5 / (1 - 0.5))| < epsilon := by
  have hloop := scenario_whileLoop_zero Real.log (Real.log (Real.sqrt (2 * Real.pi)))
    useFixedZ epsilon u.logScaledDesignWithoutInterceptCrossprodDeterminant heps 30
    (by norm_num)
    { coefs := u.coefs, qFactor := u.qFactor,
      logPrecisionDeterminant := u.logPrecisionDeterminant, linPred := fun _ => 0 } rfl
  have hstart := Iwls.startWithLastLinPred_of_whileLoop _ _ _ _ _ hloop
  refine ⟨_, _, _, scenario_create _ useFixedZ epsilon u, hloop, rfl, by norm_num,
    by norm_num, by norm_num, hstart, ?_⟩
  show |(0 : ℝ) - Real.log (0.5 / (1 - 0.5))| < epsilon
  have h1 : (0.5 : ℝ) / (1 - 0.5) = 1 := by norm_num
  rw [h1, Real.log_one, sub_zero, abs_zero]
  exact heps

/-- C6 at `epsilon = 1/100`. -/
theorem scenario_converges_witness :
    ∃ (o : Iwls ℝ 4 0) (x : LoopExit ℝ 4 0) (o1 : Iwls ℝ 4 0),
      Iwls.create ⟨Real.sqrt, Real.exp, Real.log, Real.log (Real.sqrt (2 * Real.pi))⟩
          scenarioDesign scenarioResponse
          (scenarioConfig ⟨Real.sqrt, Real.exp, Real.log, Real.log (Real.sqrt (2 * Real.pi))⟩)
          (fun _ => 0) false (1 / 100) (zeroUninit 0) = .ok o ∧
      Iwls.whileLoop ⟨Real.sqrt, Real.exp, Real.log, Real.log (Real.sqrt (2 * Real.pi))⟩
          30 1 0 false 0 o = .ok x ∧
      x.converged = true ∧ 1 < x.rounds ∧ x.rounds ≤ 30 ∧ x.rounds < 30 ∧
      Iwls.startWithLastLinPred
          ⟨Real.sqrt, Real.exp, Real.log, Real.log (Real.sqrt (2 * Real.pi))⟩ 30 1 o =
        .ok (x.iter, o1) ∧
      |o1.results.coefs 0 - Real.log (0.5 / (1 - 0.5))| < 1 / 100 :=
  scenario_converges (1 / 100) (by norm_num) false (zeroUninit 0)

/-- C1, evaluated on the scenario with `maxIter = 1`: the loop body is executed once
and `startWithLastLinPred(1, 1)` returns 2. -/
theorem startWithLastLinPred_one_returns_two (epsilon : ℝ) (useFixedZ : Bool)
    (u : Uninit ℝ 0) :
    ∃ (o : Iwls ℝ 4 0) (x : LoopExit ℝ 4 0) (o1 : Iwls ℝ 4 0),
      Iwls.create ⟨Real.sqrt, Real.exp, Real.log, Real.log (Real.sqrt (2 * Real.pi))⟩
          scenarioDesign scenarioResponse
          (scenarioConfig ⟨Real.sqrt, Real.exp, Real.log, Real.log (Real.sqrt (2 * Real.pi))⟩)
          (fun _ => 0) useFixedZ epsilon u = .ok o ∧
      Iwls.whileLoop ⟨Real.sqrt, Real.exp, Real.log, Real.log (Real.sqrt (2 * Real.pi))⟩
          1 1 0 false 0 o = .ok x ∧
      x.rounds = 1 ∧
      Iwls.startWithLastLinPred
          ⟨Real.sqrt, Real.exp, Real.log, Real.log (Real.sqrt (2 * Real.pi))⟩ 1 1 o =
        .ok (2, o1) := by
  have hloop : Iwls.whileLoop
      ⟨Real.sqrt, Real.exp, Real.log, Real.log (Real.sqrt (2 * Real.pi))⟩ 1 1 0 false 0
      (scenarioIwls ⟨Real.sqrt, Real.exp, Real.log, Real.log (Real.sqrt (2 * Real.pi))⟩
        useFixedZ epsilon u.logScaledDesignWithoutInterceptCrossprodDeterminant
        { coefs := u.coefs, qFactor := u.qFactor,
          logPrecisionDeterminant := u.logPrecisionDeterminant, linPred := fun _ => 0 }) =
      .ok { iter := 2, converged := false, rounds := 1,
            obj := scenarioIwls
              ⟨Real.sqrt, Real.exp, Real.log, Real.log (Real.sqrt (2 * Real.pi))⟩
              useFixedZ epsilon u.logScaledDesignWithoutInterceptCrossprodDeterminant
              { coefs := fun _ => 0, qFactor := fun _ _ => 1,
                logPrecisionDeterminant := u.logPrecisionDeterminant,
                linPred := fun _ => 0 } } := by
    rw [Iwls.whileLoop, if_pos ⟨by omega, rfl⟩, scenario_iwlsRound_zero _ _ _ _ _ _ _ rfl]
    simp only [gt_iff_lt, lt_self_iff_false, if_false, zero_add]
    rw [Iwls.whileLoop, if_neg (by simp)]
    rfl
  exact ⟨_, _, _, scenario_create _ useFixedZ epsilon u, hloop, rfl,
    Iwls.startWithLastLinPred_of_whileLoop _ _ _ _ _ hloop⟩

/-- C7. The `converged` flag is false after the first round whatever the criterion,
and every non-failing run with `maxIter >= 2` executes at least two rounds. -/
theorem Iwls.whileLoop_two_rounds {n k : Nat} (m : Libm K) (maxIter : Nat) (g : K)
    (o : Iwls K n k) (x : LoopExit K n k) (hmax : 2 ≤ maxIter)
    (hrun : Iwls.whileLoop m maxIter g 0 false 0 o = .ok x) :
    (∀ (o1 : Iwls K n k) (c : Bool), o.iwlsRound m g 1 = .ok (o1, c) → c = false) ∧
      2 ≤ x.rounds := by
  refine ⟨fun o1 c h => Iwls.iwlsRound_one_not_converged m g o o1 c h, ?_⟩
  rw [Iwls.whileLoop, if_pos ⟨by omega, rfl⟩] at hrun
  split at hrun
  · exact absurd hrun (by simp)
  · rename_i o1 c1 hround
    have hc1 := Iwls.iwlsRound_one_not_converged m g o o1 c1 hround
    subst hc1
    rw [Iwls.whileLoop, if_pos ⟨by omega, rfl⟩] at hrun
    split at hrun
    · exact absurd hrun (by simp)
    · rename_i o2 c2 hround2
      obtain ⟨e, h1, -, -⟩ :=
        Iwls.whileLoop_rounds m maxIter g _ (0 + 1 + 1) c2 (0 + 1 + 1) o2 x rfl (by omega) hrun
      omega

/-- C7 on the scenario with `maxIter = 30`, `g = 1` and tolerance `1/100`. -/
theorem Iwls.whileLoop_two_rounds_witness :
    ∃ x : LoopExit ℝ 4 0,
      Iwls.whileLoop ⟨Real.sqrt, Real.exp, Real.log, Real.log (Real.sqrt (2 * Real.pi))⟩
          30 1 0 false 0
          (scenarioIwls ⟨Real.sqrt, Real.exp, Real.log, Real.log (Real.sqrt (2 * Real.pi))⟩
            false (1 / 100) 0
            { coefs := fun _ => 0, qFactor := fun _ _ => 0, logPrecisionDeterminant := 0,
              linPred := fun _ => 0 }) = .ok x ∧
      2 ≤ x.rounds :=
  ⟨_, scenario_whileLoop_zero _ _ false (1 / 100) 0 (by norm_num) 30 (by norm_num) _ rfl,
    (Iwls.whileLoop_two_rounds _ 30 1 _ _ (by norm_num)
      (scenario_whileLoop_zero _ _ false (1 / 100) 0 (by norm_num) 30 (by norm_num) _ rfl)).2⟩

/-! ## The sampler loop: draws and stored samples -/

/-- The proposal part of an iteration takes the z-draw and then the `nCoefs` normal
draws, and leaves the sample store, the accepted-count and `old` alone. -/
theorem proposalStep_spec {n k : Nat} (m : Libm K) (src : RngSource K)
    (marginalZ : MarginalZ K) (s s1 : SamplerState K n k) (a b : K)
    (h : proposalStep m src marginalZ s = .ok (s1, a, b)) :
    s1.rng.trace = s.rng.trace ++ ([Draw.zGen] ++ List.replicate (k + 1) Draw.normal) ∧
      s1.samples = s.samples ∧ s1.nAccepted = s.nAccepted ∧ s1.old = s.old := by
  unfold proposalStep at h
  simp only [drawZ, drawNormalVector, drawNormalVariates] at h
  split at h
  · exact absurd h (by simp)
  · split at h
    · exact absurd h (by simp)
    · simp only [Except.ok.injEq, Prod.mk.injEq] at h
      obtain ⟨h1, -, -⟩ := h
      subst h1
      simp

/-- The accept/reject part of an iteration takes one uniform draw and leaves the
sample store and the IWLS object alone. -/
theorem acceptReject_spec {n k : Nat} (m : Libm K) (src : RngSource K) (a b : K)
    (s : SamplerState K n k) :
    (acceptReject m src a b s).rng.trace = s.rng.trace ++ [Draw.uniform] ∧
      (acceptReject m src a b s).samples = s.samples ∧
      (acceptReject m src a b s).iwlsObject = s.iwlsObject := by
  unfold acceptReject
  simp only [unif]
  split <;> simp

/-- The marginal likelihood terms take a z-draw and then `nCoefs` normal draws, and
leave the write cursor and the capacity of the sample store alone. -/
theorem margLikStep_spec {n k : Nat} (m : Libm K) (src : RngSource K)
    (marginalZ : MarginalZ K) (highDensityPoint : Mcmc K n k) (s s1 : SamplerState K n k)
    (h : margLikStep m src marginalZ highDensityPoint s = .ok s1) :
    s1.rng.trace = s.rng.trace ++ ([Draw.zGen] ++ List.replicate (k + 1) Draw.normal) ∧
      s1.samples.nSaved = s.samples.nSaved ∧ s1.samples.nSamples = s.samples.nSamples := by
  unfold margLikStep at h
  simp only [drawZ, drawNormalVector, drawNormalVariates] at h
  split at h
  · exact absurd h (by simp)
  · split at h
    · exact absurd h (by simp)
    · split at h
      · exact absurd h (by simp)
      · split at h
        · exact absurd h (by simp)
        · simp only [Except.ok.injEq] at h
          subst h
          simp [Samples.storeMargLikTerms]

/-- The storing part of an iteration: draws only for the marginal likelihood terms of
a recorded iteration, and the write cursor advances exactly on a recorded iteration. -/
theorem storeStep_spec {n k : Nat} (m : Libm K) (src : RngSource K)
    (marginalZ : MarginalZ K) (options : Options) (highDensityPoint : Mcmc K n k)
    (i_iter : Nat) (s s1 : SamplerState K n k)
    (h : storeStep m src marginalZ options highDensityPoint i_iter s = .ok s1) :
    s1.rng.trace = s.rng.trace ++
        (if isRecorded options i_iter = true ∧ options.estimateMargLik = true then
          [Draw.zGen] ++ List.replicate (k + 1) Draw.normal else []) ∧
      s1.samples.nSaved = s.samples.nSaved + (if isRecorded options i_iter then 1 else 0) ∧
      s1.samples.nSamples = s.samples.nSamples := by
  unfold storeStep at h
  split at h
  · rename_i hrec
    split at h
    · exact absurd h (by simp)
    · rename_i samples1 hstore
      have hs : samples1.nSaved = s.samples.nSaved + 1 ∧
          samples1.nSamples = s.samples.nSamples := by
        unfold Samples.storeParameters at hstore
        split at hstore
        · simp only [Except.ok.injEq] at hstore
          subst hstore
          exact ⟨rfl, rfl⟩
        · exact absurd hstore (by simp)
      split at h
      · rename_i hml
        obtain ⟨h1, h2, h3⟩ := margLikStep_spec m src marginalZ highDensityPoint _ s1 h
        simp only [hrec, hml, and_self, if_true]
        exact ⟨h1, by rw [h2]; exact hs.1, by rw [h3]; exact hs.2⟩
      · rename_i hml
        simp only [Except.ok.injEq] at h
        subst h
        simp only [hrec, hml, if_true, and_false, if_false, List.append_nil, Bool.false_eq_true]
        exact ⟨trivial, hs.1, hs.2⟩
  · rename_i hrec
    simp only [Except.ok.injEq] at h
    subst h
    simp [hrec]

/-- The draws of one iteration, in the order in which they are taken. -/
theorem mcmcIteration_trace {n k : Nat} (m : Libm K) (src : RngSource K)
    (marginalZ : MarginalZ K) (options : Options) (highDensityPoint : Mcmc K n k)
    (i_iter : Nat) (s s1 : SamplerState K n k)
    (h : mcmcIteration m src marginalZ options highDensityPoint i_iter s = .ok s1) :
    s1.rng.trace = s.rng.trace ++
      ([Draw.zGen] ++ List.replicate (k + 1) Draw.normal ++ [Draw.uniform] ++
        (if isRecorded options i_iter = true ∧ options.estimateMargLik = true then
          [Draw.zGen] ++ List.replicate (k + 1) Draw.normal else [])) := by
  unfold mcmcIteration at h
  split at h
  · exact absurd h (by simp)
  · rename_i s0 a b hprop
    obtain ⟨hp, -, -, -⟩ := proposalStep_spec m src marginalZ s s0 a b hprop
    obtain ⟨ha, -, -⟩ := acceptReject_spec m src a b s0
    obtain ⟨hs, -, -⟩ := storeStep_spec m src marginalZ options highDensityPoint i_iter _ s1 h
    rw [hs, ha, hp]
    simp only [List.append_assoc]

/-- The write cursor after an iteration. -/
theorem mcmcIteration_nSaved {n k : Nat} (m : Libm K) (src : RngSource K)
    (marginalZ : MarginalZ K) (options : Options) (highDensityPoint : Mcmc K n k)
    (i_iter : Nat) (s s1 : SamplerState K n k)
    (h : mcmcIteration m src marginalZ options highDensityPoint i_iter s = .ok s1) :
    s1.samples.nSaved = s.samples.nSaved + (if isRecorded options i_iter then 1 else 0) ∧
      s1.samples.nSamples = s.samples.nSamples := by
  unfold mcmcIteration at h
  split at h
  · exact absurd h (by simp)
  · rename_i s0 a b hprop
    obtain ⟨-, hp, -, -⟩ := proposalStep_spec m src marginalZ s s0 a b hprop
    obtain ⟨-, ha, -⟩ := acceptReject_spec m src a b s0
    obtain ⟨-, hs1, hs2⟩ :=
      storeStep_spec m src marginalZ options highDensityPoint i_iter _ s1 h
    rw [hs1, hs2, ha, hp]
    exact ⟨rfl, rfl⟩

/-- Unfolding `recordedCount` by one iteration. -/
theorem recordedCount_step (options : Options) (i_iter : Nat)
    (h : i_iter ≤ options.iterations) :
    recordedCount options i_iter =
      (if isRecorded options i_iter then 1 else 0) + recordedCount options (i_iter + 1) := by
  unfold recordedCount
  have : options.iterations + 1 - i_iter = (options.iterations + 1 - (i_iter + 1)) + 1 := by
    omega
  rw [this, List.range'_succ, List.countP_cons]
  omega

/-- No iteration is left to record after the last one. -/
theorem recordedCount_done (options : Options) (i_iter : Nat)
    (h : ¬ i_iter ≤ options.iterations) : recordedCount options i_iter = 0 := by
  unfold recordedCount
  have : options.iterations + 1 - i_iter = 0 := by omega
  rw [this]
  rfl

/-- The write cursor after the MCMC loop: one step per recorded iteration. -/
theorem mcmcLoop_nSaved {n k : Nat} (m : Libm K) (src : RngSource K)
    (marginalZ : MarginalZ K) (options : Options) (highDensityPoint : Mcmc K n k) :
    ∀ (d i_iter : Nat) (s s1 : SamplerState K n k),
      options.iterations + 1 - i_iter = d →
      mcmcLoop m src marginalZ options highDensityPoint i_iter s = .ok s1 →
      s1.samples.nSaved = s.samples.nSaved + recordedCount options i_iter ∧
        s1.samples.nSamples = s.samples.nSamples := by
  intro d
  induction d with
  | zero =>
    intro i_iter s s1 hd h
    rw [mcmcLoop, if_neg (by omega)] at h
    simp only [Except.ok.injEq] at h
    subst h
    rw [recordedCount_done options i_iter (by omega)]
    exact ⟨rfl, rfl⟩
  | succ d ih =>
    intro i_iter s s1 hd h
    rw [mcmcLoop, if_pos (by omega)] at h
    split at h
    · exact absurd h (by simp)
    · rename_i s0 hiter
      obtain ⟨h1, h2⟩ :=
        mcmcIteration_nSaved m src marginalZ options highDensityPoint i_iter s s0 hiter
      obtain ⟨h3, h4⟩ := ih (i_iter + 1) s0 s1 (by omega) h
      rw [h3, h4, h1, h2, recordedCount_step options i_iter (by omega)]
      exact ⟨by omega, rfl⟩

/-! ## The scenario: sampler -/

/-- Any outcome of `startWithNewLinPred` in the scenario is a success. -/
theorem scenario_startWithNewLinPred_eq (logf : ℝ → ℝ) (c0 : ℝ) (useFixedZ : Bool)
    (epsilon logDet0 g : ℝ) (maxIter : Nat) (linPredStart : AVector ℝ 4)
    (r : IwlsResults ℝ 4 0) (res : Except Failure (Nat × Iwls ℝ 4 0))
    (h : Iwls.startWithNewLinPred ⟨Real.sqrt, Real.exp, logf, c0⟩ maxIter g linPredStart
          (scenarioIwls ⟨Real.sqrt, Real.exp, logf, c0⟩ useFixedZ epsilon logDet0 r) = res) :
    ∃ (ret : Nat) (r1 : IwlsResults ℝ 4 0),
      res = .ok (ret, scenarioIwls ⟨Real.sqrt, Real.exp, logf, c0⟩ useFixedZ epsilon logDet0 r1) := by
  obtain ⟨ret, r1, h1⟩ := scenario_startWithNewLinPred_ok logf c0 useFixedZ epsilon logDet0 g
    maxIter linPredStart r
  exact ⟨ret, r1, by rw [← h, h1]⟩

/-- Any outcome of `startWithNewCoefs` in the scenario is a success. -/
theorem scenario_startWithNewCoefs_eq (logf : ℝ → ℝ) (c0 : ℝ) (useFixedZ : Bool)
    (epsilon logDet0 g : ℝ) (maxIter : Nat) (coefsStart : AVector ℝ 1)
    (r : IwlsResults ℝ 4 0) (res : Except Failure (Nat × Iwls ℝ 4 0))
    (h : Iwls.startWithNewCoefs ⟨Real.sqrt, Real.exp, logf, c0⟩ maxIter g coefsStart
          (scenarioIwls ⟨Real.sqrt, Real.exp, logf, c0⟩ useFixedZ epsilon logDet0 r) = res) :
    ∃ (ret : Nat) (r1 : IwlsResults ℝ 4 0),
      res = .ok (ret, scenarioIwls ⟨Real.sqrt, Real.exp, logf, c0⟩ useFixedZ epsilon logDet0 r1) := by
  obtain ⟨ret, r1, h1⟩ := scenario_startWithNewCoefs_ok logf c0 useFixedZ epsilon logDet0 g
    maxIter coefsStart r
  exact ⟨ret, r1, by rw [← h, h1]⟩

/-- In the scenario the proposal part of an iteration never fails. -/
theorem scenario_proposalStep_ok (logf : ℝ → ℝ) (c0 : ℝ) (useFixedZ : Bool)
    (epsilon logDet0 : ℝ) (src : RngSource ℝ) (marginalZ : MarginalZ ℝ)
    (s : SamplerState ℝ 4 0) (r : IwlsResults ℝ 4 0)
    (hs : s.iwlsObject =
      scenarioIwls ⟨Real.sqrt, Real.exp, logf, c0⟩ useFixedZ epsilon logDet0 r) :
    ∃ (s1 : SamplerState ℝ 4 0) (a b : ℝ) (r1 : IwlsResults ℝ 4 0),
      proposalStep ⟨Real.sqrt, Real.exp, logf, c0⟩ src marginalZ s = .ok (s1, a, b) ∧
      s1.iwlsObject =
        scenarioIwls ⟨Real.sqrt, Real.exp, logf, c0⟩ useFixedZ epsilon logDet0 r1 := by
  unfold proposalStep
  simp only [hs]
  split
  · rename_i e heq
    obtain ⟨_, _, h⟩ := scenario_startWithNewCoefs_eq _ _ _ _ _ _ _ _ _ _ heq
    exact absurd h (by simp)
  · rename_i ret1 iwls1 heq
    obtain ⟨_, r1, h⟩ := scenario_startWithNewCoefs_eq _ _ _ _ _ _ _ _ _ _ heq
    simp only [Except.ok.injEq, Prod.mk.injEq] at h
    obtain ⟨-, h⟩ := h
    subst h
    split
    · rename_i e heq2
      obtain ⟨_, _, h⟩ := scenario_startWithNewCoefs_eq _ _ _ _ _ _ _ _ _ _ heq2
      exact absurd h (by simp)
    · rename_i ret2 iwls2 heq2
      obtain ⟨_, r2, h⟩ := scenario_startWithNewCoefs_eq _ _ _ _ _ _ _ _ _ _ heq2
      simp only [Except.ok.injEq, Prod.mk.injEq] at h
      obtain ⟨-, h⟩ := h
      subst h
      exact ⟨_, _, _, r2, rfl, rfl⟩

/-- In the scenario the marginal likelihood terms never fail. -/
theorem scenario_margLikStep_ok (logf : ℝ → ℝ) (c0 : ℝ) (useFixedZ : Bool)
    (epsilon logDet0 : ℝ) (src : RngSource ℝ) (marginalZ : MarginalZ ℝ)
    (highDensityPoint : Mcmc ℝ 4 0) (s : SamplerState ℝ 4 0) (r : IwlsResults ℝ 4 0)
    (hs : s.iwlsObject =
      scenarioIwls ⟨Real.sqrt, Real.exp, logf, c0⟩ useFixedZ epsilon logDet0 r) :
    ∃ (s1 : SamplerState ℝ 4 0) (r1 : IwlsResults ℝ 4 0),
      margLikStep ⟨Real.sqrt, Real.exp, logf, c0⟩ src marginalZ highDensityPoint s = .ok s1 ∧
      s1.iwlsObject =
        scenarioIwls ⟨Real.sqrt, Real.exp, logf, c0⟩ useFixedZ epsilon logDet0 r1 := by
  unfold margLikStep
  simp only [hs]
  split
  · rename_i e heq
    obtain ⟨_, _, h⟩ := scenario_startWithNewLinPred_eq _ _ _ _ _ _ _ _ _ _ heq
    exact absurd h (by simp)
  · rename_i ret1 iwls1 heq
    obtain ⟨_, r1, h⟩ := scenario_startWithNewLinPred_eq _ _ _ _ _ _ _ _ _ _ heq
    simp only [Except.ok.injEq, Prod.mk.injEq] at h
    obtain ⟨-, h⟩ := h
    subst h
    split
    · rename_i e heq2
      obtain ⟨_, _, h⟩ := scenario_startWithNewCoefs_eq _ _ _ _ _ _ _ _ _ _ heq2
      exact absurd h (by simp)
    · rename_i ret2 iwls2 heq2
      obtain ⟨_, r2, h⟩ := scenario_startWithNewCoefs_eq _ _ _ _ _ _ _ _ _ _ heq2
      simp only [Except.ok.injEq, Prod.mk.injEq] at h
      obtain ⟨-, h⟩ := h
      subst h
      split
      · rename_i e heq3
        obtain ⟨_, _, h⟩ := scenario_startWithNewLinPred_eq _ _ _ _ _ _ _ _ _ _ heq3
        exact absurd h (by simp)
      · rename_i ret3 iwls3 heq3
        obtain ⟨_, r3, h⟩ := scenario_startWithNewLinPred_eq _ _ _ _ _ _ _ _ _ _ heq3
        simp only [Except.ok.injEq, Prod.mk.injEq] at h
        obtain ⟨-, h⟩ := h
        subst h
        split
        · rename_i e heq4
          obtain ⟨_, _, h⟩ := scenario_startWithNewCoefs_eq _ _ _ _ _ _ _ _ _ _ heq4
          exact absurd h (by simp)
        · rename_i ret4 iwls4 heq4
          obtain ⟨_, r4, h⟩ := scenario_startWithNewCoefs_eq _ _ _ _ _ _ _ _ _ _ heq4
          simp only [Except.ok.injEq, Prod.mk.injEq] at h
          obtain ⟨-, h⟩ := h
          subst h
          exact ⟨_, r4, rfl, rfl⟩

/-- In the scenario an iteration never fails when the sample store has room for the
sample of a recorded iteration. -/
theorem scenario_mcmcIteration_ok (logf : ℝ → ℝ) (c0 : ℝ) (useFixedZ : Bool)
    (epsilon logDet0 : ℝ) (src : RngSource ℝ) (marginalZ : MarginalZ ℝ) (options : Options)
    (highDensityPoint : Mcmc ℝ 4 0) (i_iter : Nat) (s : SamplerState ℝ 4 0)
    (r : IwlsResults ℝ 4 0)
    (hs : s.iwlsObject =
      scenarioIwls ⟨Real.sqrt, Real.exp, logf, c0⟩ useFixedZ epsilon logDet0 r)
    (hroom : isRecorded options i_iter = true → s.samples.nSaved < s.samples.nSamples) :
    ∃ (s1 : SamplerState ℝ 4 0) (r1 : IwlsResults ℝ 4 0),
      mcmcIteration ⟨Real.sqrt, Real.exp, logf, c0⟩ src marginalZ options highDensityPoint
          i_iter s = .ok s1 ∧
      s1.iwlsObject =
        scenarioIwls ⟨Real.sqrt, Real.exp, logf, c0⟩ useFixedZ epsilon logDet0 r1 := by
  obtain ⟨s0, a, b, r0, hprop, hs0⟩ :=
    scenario_proposalStep_ok logf c0 useFixedZ epsilon logDet0 src marginalZ s r hs
  obtain ⟨-, hsamp, -, -⟩ := proposalStep_spec _ src marginalZ s s0 a b hprop
  obtain ⟨-, hsamp2, hobj2⟩ := acceptReject_spec ⟨Real.sqrt, Real.exp, logf, c0⟩ src a b s0
  unfold mcmcIteration
  rw [hprop]
  simp only []
  unfold storeStep
  by_cases hrec : isRecorded options i_iter = true
  · have hlt := hroom hrec
    rw [← hsamp, ← hsamp2] at hlt
    simp only [hrec, if_true, Samples.storeParameters, hlt]
    split
    · exact scenario_margLikStep_ok logf c0 useFixedZ epsilon logDet0 src marginalZ
        highDensityPoint _ r0 (by simp only [hobj2, hs0])
    · exact ⟨_, r0, rfl, by simp only [hobj2, hs0]⟩
  · simp only [hrec, Bool.false_eq_true, if_false]
    exact ⟨_, r0, rfl, by simp only [hobj2, hs0]⟩

/-- In the scenario the MCMC loop never fails when the sample store has room for the
samples of the recorded iterations still to come. -/
theorem scenario_mcmcLoop_ok (logf : ℝ → ℝ) (c0 : ℝ) (useFixedZ : Bool)
    (epsilon logDet0 : ℝ) (src : RngSource ℝ) (marginalZ : MarginalZ ℝ) (options : Options)
    (highDensityPoint : Mcmc ℝ 4 0) :
    ∀ (d i_iter : Nat) (s : SamplerState ℝ 4 0) (r : IwlsResults ℝ 4 0),
      options.iterations + 1 - i_iter = d →
      s.iwlsObject =
        scenarioIwls ⟨Real.sqrt, Real.exp, logf, c0⟩ useFixedZ epsilon logDet0 r →
      s.samples.nSaved + recordedCount options i_iter ≤ s.samples.nSamples →
      ∃ s1 : SamplerState ℝ 4 0,
        mcmcLoop ⟨Real.sqrt, Real.exp, logf, c0⟩ src marginalZ options highDensityPoint
          i_iter s = .ok s1 := by
  intro d
  induction d with
  | zero =>
    intro i_iter s r hd hs hroom
    rw [mcmcLoop, if_neg (by omega)]
    exact ⟨s, rfl⟩
  | succ d ih =>
    intro i_iter s r hd hs hroom
    have hle : i_iter ≤ options.iterations := by omega
    rw [recordedCount_step options i_iter hle] at hroom
    obtain ⟨s0, r0, hiter, hs0⟩ :=
      scenario_mcmcIteration_ok logf c0 useFixedZ epsilon logDet0 src marginalZ options
        highDensityPoint i_iter s r hs (by intro hrec; rw [hrec] at hroom; simp at hroom; omega)
    obtain ⟨h1, h2⟩ :=
      mcmcIteration_nSaved _ src marginalZ options highDensityPoint i_iter s s0 hiter
    rw [mcmcLoop, if_pos hle, hiter]
    exact ih (i_iter + 1) s0 r0 (by omega) hs0 (by rw [h1, h2]; omega)

/-- The sample store and the random number stream at the start of the MCMC loop. -/
theorem samplerInit_spec {n k : Nat} (m : Libm K) (design : AMatrix K n (k + 1))
    (response : AVector K n) (config : GlmModelConfig K n) (options : Options)
    (startZ eps : K) (u : Uninit K k) (uninitCols : Nat → AVector K (k + 1))
    (s0 : SamplerState K n k) (highDensityPoint : Mcmc K n k)
    (h : samplerInit m design response config options startZ eps u uninitCols =
      .ok (s0, highDensityPoint)) :
    s0.samples.nSaved = 0 ∧ s0.samples.nSamples = options.nSamples ∧ s0.rng.trace = [] ∧
      s0.nAccepted = 0 ∧ s0.old = s0.now := by
  unfold samplerInit at h
  split at h
  · exact absurd h (by simp)
  · split at h
    · exact absurd h (by simp)
    · simp only [Except.ok.injEq, Prod.mk.injEq] at h
      obtain ⟨h, -⟩ := h
      subst h
      exact ⟨rfl, rfl, rfl, rfl, rfl⟩

/-- The write cursor and the capacity of the sample store that `cpp_sampleGlm`
returns: one stored sample per recorded iteration, in a matrix of
`options.nSamples` columns. -/
theorem cpp_sampleGlm_nSaved {n k : Nat} (m : Libm K) (src : RngSource K)
    (marginalZ : MarginalZ K) (design : AMatrix K n (k + 1)) (response : AVector K n)
    (config : GlmModelConfig K n) (options : Options) (startZ eps : K) (u : Uninit K k)
    (uninitCols : Nat → AVector K (k + 1)) (res : SampleGlmResult K k)
    (h : cpp_sampleGlm m src marginalZ design response config options startZ eps u
      uninitCols = .ok res) :
    res.samples.nSaved = recordedCount options 1 ∧
      res.samples.nSamples = options.nSamples := by
  unfold cpp_sampleGlm at h
  split at h
  · exact absurd h (by simp)
  · rename_i s0 hdp hinit
    obtain ⟨h1, h2, -, -, -⟩ :=
      samplerInit_spec m design response config options startZ eps u uninitCols s0 hdp hinit
    split at h
    · exact absurd h (by simp)
    · rename_i s1 hloop
      obtain ⟨h3, h4⟩ := mcmcLoop_nSaved m src marginalZ options hdp _ 1 s0 s1 rfl hloop
      simp only [Except.ok.injEq] at h
      subst h
      simp only [h3, h4, h1, h2, zero_add, and_self]

/-- In the scenario the initialisation of the sampler never fails. -/
theorem scenario_samplerInit_ok (logf : ℝ → ℝ) (c0 : ℝ) (options : Options)
    (startZ eps : ℝ) (u : Uninit ℝ 0) (uninitCols : Nat → AVector ℝ 1) :
    ∃ (s0 : SamplerState ℝ 4 0) (highDensityPoint : Mcmc ℝ 4 0) (r : IwlsResults ℝ 4 0),
      samplerInit ⟨Real.sqrt, Real.exp, logf, c0⟩ scenarioDesign scenarioResponse
          (scenarioConfig ⟨Real.sqrt, Real.exp, logf, c0⟩) options startZ eps u uninitCols =
        .ok (s0, highDensityPoint) ∧
      s0.iwlsObject = scenarioIwls ⟨Real.sqrt, Real.exp, logf, c0⟩ options.useFixedZ eps
        u.logScaledDesignWithoutInterceptCrossprodDeterminant r := by
  unfold samplerInit
  rw [scenario_create]
  simp only []
  split
  · rename_i e heq
    obtain ⟨_, _, h⟩ := scenario_startWithNewLinPred_eq _ _ _ _ _ _ _ _ _ _ heq
    exact absurd h (by simp)
  · rename_i ret1 iwls1 heq
    obtain ⟨_, r1, h⟩ := scenario_startWithNewLinPred_eq _ _ _ _ _ _ _ _ _ _ heq
    simp only [Except.ok.injEq, Prod.mk.injEq] at h
    obtain ⟨-, h⟩ := h
    subst h
    exact ⟨_, _, r1, rfl, rfl⟩

/-- In the scenario `cpp_sampleGlm` never fails when the sample store has room for the
samples of all recorded iterations. -/
theorem scenario_cpp_sampleGlm_ok (logf : ℝ → ℝ) (c0 : ℝ) (src : RngSource ℝ)
    (marginalZ : MarginalZ ℝ) (options : Options) (startZ eps : ℝ) (u : Uninit ℝ 0)
    (uninitCols : Nat → AVector ℝ 1) (hroom : recordedCount options 1 ≤ options.nSamples) :
    ∃ res : SampleGlmResult ℝ 0,
      cpp_sampleGlm ⟨Real.sqrt, Real.exp, logf, c0⟩ src marginalZ scenarioDesign
        scenarioResponse (scenarioConfig ⟨Real.sqrt, Real.exp, logf, c0⟩) options startZ eps u
        uninitCols = .ok res := by
  obtain ⟨s0, hdp, r, hinit, hs0⟩ :=
    scenario_samplerInit_ok logf c0 options startZ eps u uninitCols
  obtain ⟨h1, h2, -, -, -⟩ := samplerInit_spec _ _ _ _ options startZ eps u uninitCols s0 hdp hinit
  obtain ⟨s1, hloop⟩ := scenario_mcmcLoop_ok logf c0 options.useFixedZ eps
    u.logScaledDesignWithoutInterceptCrossprodDeterminant src marginalZ options hdp _ 1 s0 r rfl
    hs0 (by rw [h1, h2]; omega)
  unfold cpp_sampleGlm
  rw [hinit]
  simp only []
  rw [hloop]
  exact ⟨_, rfl⟩

/-- The capacity computed for 10 iterations, no burn-in and step 3. -/
theorem Options.create_nSamples_10_0_3 (estimateMargLik isNullModel useFixedZ : Bool) :
    (Options.create estimateMargLik isNullModel useFixedZ 10 0 3).nSamples = 4 := by
  unfold Options.create posIntModulus
  have h : ⌈(((10 + 2 ^ 32 - 0) % 2 ^ 32 : Nat) : ℚ) * 1.0 / ((3 : Nat) : ℚ)⌉₊ = 4 := by
    rw [Nat.ceil_eq_iff (by norm_num)]
    norm_num
  simp only [h]
  norm_num

/-- The capacity computed for 1 iteration, no burn-in and step 1. -/
theorem Options.create_nSamples_1_0_1 (estimateMargLik isNullModel useFixedZ : Bool) :
    (Options.create estimateMargLik isNullModel useFixedZ 1 0 1).nSamples = 1 := by
  unfold Options.create posIntModulus
  have h : ⌈(((1 + 2 ^ 32 - 0) % 2 ^ 32 : Nat) : ℚ) * 1.0 / ((1 : Nat) : ℚ)⌉₊ = 1 := by
    rw [Nat.ceil_eq_iff (by norm_num)]
    norm_num
  simp only [h]
  norm_num

/-- C2, evaluated on the scenario with `iterations = 10`, `burnin = 0`, `step = 3`:
the run completes with 3 stored samples (iterations 3, 6, 9) in a sample store whose
capacity `nSamples = ceil(10/3)` is 4. -/
theorem cpp_sampleGlm_stored_below_capacity (estimateMargLik useFixedZ : Bool)
    (src : RngSource ℝ) (marginalZ : MarginalZ ℝ) (startZ eps : ℝ) (u : Uninit ℝ 0)
    (uninitCols : Nat → AVector ℝ 1) :
    ∃ res : SampleGlmResult ℝ 0,
      cpp_sampleGlm ⟨Real.sqrt, Real.exp, Real.log, Real.log (Real.sqrt (2 * Real.pi))⟩
          src marginalZ scenarioDesign scenarioResponse
          (scenarioConfig ⟨Real.sqrt, Real.exp, Real.log, Real.log (Real.sqrt (2 * Real.pi))⟩)
          (Options.create estimateMargLik true useFixedZ 10 0 3) startZ eps u uninitCols =
        .ok res ∧
      res.samples.nSaved = 3 ∧ res.samples.nSamples = 4 ∧
      (Options.create estimateMargLik true useFixedZ 10 0 3).nSamples = 4 := by
  have hcap := Options.create_nSamples_10_0_3 estimateMargLik true useFixedZ
  have hcount : recordedCount (Options.create estimateMargLik true useFixedZ 10 0 3) 1 = 3 := by
    simp [recordedCount, Options.create, isRecorded, List.range', List.countP_cons]
  obtain ⟨res, hres⟩ := scenario_cpp_sampleGlm_ok Real.log (Real.log (Real.sqrt (2 * Real.pi)))
    src marginalZ (Options.create estimateMargLik true useFixedZ 10 0 3) startZ eps u uninitCols
    (by rw [hcap, hcount]; norm_num)
  obtain ⟨h1, h2⟩ := cpp_sampleGlm_nSaved _ _ _ _ _ _ _ _ _ _ _ res hres
  exact ⟨res, hres, by rw [h1, hcount], by rw [h2, hcap], hcap⟩

/-! ## Draw order -/

/-- C4, as stated, fails: in the first iteration of the scenario (one iteration, no
burn-in, step 1, marginal likelihood estimation enabled, all draws 0) the draws are
z-draw, normal draw, uniform draw, z-draw, normal draw: the uniform acceptance draw
is taken before the bridge-term draws, not last. -/
theorem mcmcIteration_uniform_not_last :
    ∃ (s0 : SamplerState ℝ 4 0) (highDensityPoint : Mcmc ℝ 4 0) (s1 : SamplerState ℝ 4 0),
      samplerInit ⟨Real.sqrt, Real.exp, Real.log, Real.log (Real.sqrt (2 * Real.pi))⟩
          scenarioDesign scenarioResponse
          (scenarioConfig ⟨Real.sqrt, Real.exp, Real.log, Real.log (Real.sqrt (2 * Real.pi))⟩)
          (Options.create true true false 1 0 1) 0 (1 / 100) (zeroUninit 0) (fun _ _ => 0) =
        .ok (s0, highDensityPoint) ∧
      mcmcIteration ⟨Real.sqrt, Real.exp, Real.log, Real.log (Real.sqrt (2 * Real.pi))⟩
          zeroSource flatMarginalZ (Options.create true true false 1 0 1) highDensityPoint 1
          s0 = .ok s1 ∧
      s1.rng.trace =
        [Draw.zGen, Draw.normal, Draw.uniform, Draw.zGen, Draw.normal] ∧
      s1.rng.trace ≠
        [Draw.zGen, Draw.normal, Draw.zGen, Draw.normal, Draw.uniform] := by
  obtain ⟨s0, hdp, r, hinit, hs0⟩ := scenario_samplerInit_ok Real.log
    (Real.log (Real.sqrt (2 * Real.pi))) (Options.create true true false 1 0 1) 0 (1 / 100)
    (zeroUninit 0) (fun _ _ => 0)
  obtain ⟨h1, h2, h3, -, -⟩ := samplerInit_spec _ _ _ _ _ _ _ _ _ s0 hdp hinit
  obtain ⟨s1, r1, hiter, -⟩ := scenario_mcmcIteration_ok Real.log
    (Real.log (Real.sqrt (2 * Real.pi))) _ (1 / 100) _ zeroSource flatMarginalZ
    (Options.create true true false 1 0 1) hdp 1 s0 r hs0
    (by intro _; rw [h1, h2, Options.create_nSamples_1_0_1]; norm_num)
  have htrace := mcmcIteration_trace _ _ _ _ _ _ _ _ hiter
  have hrec : isRecorded (Options.create true true false 1 0 1) 1 = true := by
    simp [isRecorded, Options.create]
  have hml : (Options.create true true false 1 0 1).estimateMargLik = true := rfl
  rw [h3, hrec, hml] at htrace
  have ht : s1.rng.trace = [Draw.zGen, Draw.normal, Draw.uniform, Draw.zGen, Draw.normal] := by
    rw [htrace]
    rfl
  exact ⟨s0, hdp, s1, hinit, hiter, ht, by rw [ht]; decide⟩

/-- C4, amended. In every sampler iteration that does not fail the draws are taken
from the shared stream in the order: z-draw, the `nCoefs` proposal coefficient normal
draws, the uniform acceptance draw, and then, only on a recorded iteration with
marginal likelihood estimation enabled, the bridge-term draws (denominator z-draw and
the `nCoefs` denominator coefficient draws). -/
theorem mcmcIteration_draw_order {n k : Nat} (m : Libm K) (src : RngSource K)
    (marginalZ : MarginalZ K) (options : Options) (highDensityPoint : Mcmc K n k)
    (i_iter : Nat) (s s1 : SamplerState K n k)
    (h : mcmcIteration m src marginalZ options highDensityPoint i_iter s = .ok s1) :
    s1.rng.trace = s.rng.trace ++
      ([Draw.zGen] ++ List.replicate (k + 1) Draw.normal ++ [Draw.uniform] ++
        (if isRecorded options i_iter = true ∧ options.estimateMargLik = true then
          [Draw.zGen] ++ List.replicate (k + 1) Draw.normal else [])) :=
  mcmcIteration_trace m src marginalZ options highDensityPoint i_iter s s1 h

/-- C4, amended, on the first iteration of the scenario. -/
theorem mcmcIteration_draw_order_witness :
    ∃ (s0 : SamplerState ℝ 4 0) (highDensityPoint : Mcmc ℝ 4 0) (s1 : SamplerState ℝ 4 0),
      samplerInit ⟨Real.sqrt, Real.exp, Real.log, Real.log (Real.sqrt (2 * Real.pi))⟩
          scenarioDesign scenarioResponse
          (scenarioConfig ⟨Real.sqrt, Real.exp, Real.log, Real.log (Real.sqrt (2 * Real.pi))⟩)
          (Options.create true true false 1 0 1) 0 (1 / 100) (zeroUninit 0) (fun _ _ => 0) =
        .ok (s0, highDensityPoint) ∧
      mcmcIteration ⟨Real.sqrt, Real.exp, Real.log, Real.log (Real.sqrt (2 * Real.pi))⟩
          zeroSource flatMarginalZ (Options.create true true false 1 0 1) highDensityPoint 1
          s0 = .ok s1 ∧
      s1.rng.trace = s0.rng.trace ++
        ([Draw.zGen] ++ List.replicate (0 + 1) Draw.normal ++ [Draw.uniform] ++
          (if isRecorded (Options.create true true false 1 0 1) 1 = true ∧
              (Options.create true true false 1 0 1).estimateMargLik = true then
            [Draw.zGen] ++ List.replicate (0 + 1) Draw.normal else [])) := by
  obtain ⟨s0, hdp, r, hinit, hs0⟩ := scenario_samplerInit_ok Real.log
    (Real.log (Real.sqrt (2 * Real.pi))) (Options.create true true false 1 0 1) 0 (1 / 100)
    (zeroUninit 0) (fun _ _ => 0)
  obtain ⟨h1, h2, -, -, -⟩ := samplerInit_spec _ _ _ _ _ _ _ _ _ s0 hdp hinit
  obtain ⟨s1, r1, hiter, -⟩ := scenario_mcmcIteration_ok Real.log
    (Real.log (Real.sqrt (2 * Real.pi))) _ (1 / 100) _ zeroSource flatMarginalZ
    (Options.create true true false 1 0 1) hdp 1 s0 r hs0
    (by intro _; rw [h1, h2, Options.create_nSamples_1_0_1]; norm_num)
  exact ⟨s0, hdp, s1, hinit, hiter, mcmcIteration_draw_order _ _ _ _ _ _ _ _ hiter⟩

/-! ## Instances on concrete inputs -/

/-- C5 on a model with one observation and one covariate: design `[1 1]`, unit
dispersion, `cfactor = 1`, coefficients `(1, 1)` and `z = 0`. -/
theorem computeLogUnPosteriorDens_fixedZ_witness :
    ∃ o : Iwls ℝ 1 1,
      Iwls.create ⟨Real.sqrt, Real.exp, Real.log, Real.log (Real.sqrt (2 * Real.pi))⟩
          (onesDesign : AMatrix ℝ 1 2) (fun _ => 1)
          (bernoulliConfig ⟨Real.sqrt, Real.exp, Real.log, Real.log (Real.sqrt (2 * Real.pi))⟩
            (fun _ => 1))
          (fun _ => 0) true (1 / 100) (zeroUninit 1) = .ok o ∧
      o.isNullModel = false ∧
      o.logScaledDesignWithoutInterceptCrossprodDeterminant =
        Real.log (((onesDesign : AMatrix ℝ 1 2).submatrix id Fin.succ).transpose *
            Matrix.diagonal (fun _ : Fin 1 => (1 : ℝ)⁻¹) *
            (onesDesign : AMatrix ℝ 1 2).submatrix id Fin.succ).det ∧
      o.computeLogUnPosteriorDens
          ⟨Real.sqrt, Real.exp, Real.log, Real.log (Real.sqrt (2 * Real.pi))⟩
          ⟨fun _ => 1, 0⟩ -
        (bernoulliConfig ⟨Real.sqrt, Real.exp, Real.log, Real.log (Real.sqrt (2 * Real.pi))⟩
            (fun _ : Fin 1 => (1 : ℝ))).distribution.loglik
          (fun i =>
            (bernoulliConfig
              ⟨Real.sqrt, Real.exp, Real.log, Real.log (Real.sqrt (2 * Real.pi))⟩
              (fun _ : Fin 1 => (1 : ℝ))).link.linkinv
              ((onesDesign : AMatrix ℝ 1 2).mulVec (fun _ => 1) i)) =
      0.5 * Real.log (((onesDesign : AMatrix ℝ 1 2).submatrix id Fin.succ).transpose *
            Matrix.diagonal (fun _ : Fin 1 => (1 : ℝ)⁻¹) *
            (onesDesign : AMatrix ℝ 1 2).submatrix id Fin.succ).det -
        (((1 : Nat) : ℝ) / 2) * Real.log (2 * Real.pi * Real.exp 0 * 1) -
        Matrix.dotProduct (fun _ : Fin 1 => (1 : ℝ))
          ((((onesDesign : AMatrix ℝ 1 2).submatrix id Fin.succ).transpose *
              Matrix.diagonal (fun _ : Fin 1 => (1 : ℝ)⁻¹) *
              (onesDesign : AMatrix ℝ 1 2).submatrix id Fin.succ).mulVec
            (fun _ => 1)) /
          (2 * Real.exp 0 * 1) := by
  have hcross : scaledDesignWithoutInterceptCrossprod
      (fun _ : Fin 1 => 1 / Real.sqrt 1) (onesDesign : AMatrix ℝ 1 2) 0 0 = 1 := by
    simp [scaledDesignWithoutInterceptCrossprod, scaledDesignWithoutIntercept,
      Matrix.mul_apply, onesDesign]
  have hpotrf := potrf_one
    ⟨Real.sqrt, Real.exp, Real.log, Real.log (Real.sqrt (2 * Real.pi))⟩
    (scaledDesignWithoutInterceptCrossprod
      (fun _ : Fin 1 => 1 / Real.sqrt 1) (onesDesign : AMatrix ℝ 1 2))
    (by rw [hcross]; exact one_pos)
  obtain ⟨o, hcreate, hld⟩ : ∃ o : Iwls ℝ 1 1, Iwls.create
      ⟨Real.sqrt, Real.exp, Real.log, Real.log (Real.sqrt (2 * Real.pi))⟩
      (onesDesign : AMatrix ℝ 1 2) (fun _ => 1)
      (bernoulliConfig ⟨Real.sqrt, Real.exp, Real.log, Real.log (Real.sqrt (2 * Real.pi))⟩
        (fun _ => 1))
      (fun _ => 0) true (1 / 100) (zeroUninit 1) = .ok o ∧
      o.logScaledDesignWithoutInterceptCrossprodDeterminant = logDetFromCholesky
        ⟨Real.sqrt, Real.exp, Real.log, Real.log (Real.sqrt (2 * Real.pi))⟩
        (fun _ _ : Fin 1 => Real.sqrt (scaledDesignWithoutInterceptCrossprod
          (fun _ : Fin 1 => 1 / Real.sqrt 1) (onesDesign : AMatrix ℝ 1 2) 0 0)) := by
    unfold Iwls.create
    simp only [bernoulliConfig]
    rw [hpotrf]
    exact ⟨_, rfl, rfl⟩
  have hnull : o.isNullModel = false := by
    rw [(Iwls.create_fields hcreate).2.2.1]
    rfl
  have hdet : logDetFromCholesky
      ⟨Real.sqrt, Real.exp, Real.log, Real.log (Real.sqrt (2 * Real.pi))⟩
      (fun _ _ : Fin 1 => Real.sqrt (scaledDesignWithoutInterceptCrossprod
        (fun _ : Fin 1 => 1 / Real.sqrt 1) (onesDesign : AMatrix ℝ 1 2) 0 0)) =
      Real.log (((onesDesign : AMatrix ℝ 1 2).submatrix id Fin.succ).transpose *
            Matrix.diagonal (fun _ : Fin 1 => (1 : ℝ)⁻¹) *
            (onesDesign : AMatrix ℝ 1 2).submatrix id Fin.succ).det := by
    rw [hcross]
    simp [logDetFromCholesky, Matrix.det_unique, Matrix.mul_apply, onesDesign]
  rw [← hld] at hdet
  exact ⟨o, hcreate, hnull, hdet,
    computeLogUnPosteriorDens_fixedZ _ _ _ _ _ _ _ _ _ hcreate hnull (fun _ => rfl)
      (fun _ => one_pos) one_pos hdet⟩

/-! ## The convergence criterion -/

/-- The relative difference of component `j`: `fabs(a(j) - b(j)) / (fabs(b(j)) + 0.01)`. -/
theorem criterionStep_eq_max {n : Nat} (a b : AVector K n) (ret : K) (j : Fin n) :
    criterionStep a b ret j = max ret (|a j - b j| / (|b j| + 0.01)) := by
  unfold criterionStep
  simp only [gt_iff_lt]
  split
  · rename_i h
    exact (max_eq_right h.le).symm
  · rename_i h
    exact (max_eq_left (not_lt.mp h)).symm

/-- A relative difference is not negative. -/
theorem relDiff_nonneg (x y : K) : 0 ≤ |x - y| / (|y| + 0.01) := by
  have h : (0 : K) < |y| + 0.01 := by
    have := abs_nonneg y
    norm_num
    linarith
  exact div_nonneg (abs_nonneg _) h.le

/-- The loop of `criterion` over a list of indices, from the running value `ret`:
the result is at least `ret` and at least every relative difference in the list, and
it is `ret` or one of these relative differences. -/
theorem criterion_foldl {n : Nat} (a b : AVector K n) :
    ∀ (l : List (Fin n)) (ret : K),
      ret ≤ l.foldl (criterionStep a b) ret ∧
      (∀ j ∈ l, |a j - b j| / (|b j| + 0.01) ≤ l.foldl (criterionStep a b) ret) ∧
      (l.foldl (criterionStep a b) ret = ret ∨
        ∃ j ∈ l, l.foldl (criterionStep a b) ret = |a j - b j| / (|b j| + 0.01)) := by
  intro l
  induction l with
  | nil =>
    intro ret
    simp
  | cons i l ih =>
    intro ret
    obtain ⟨h1, h2, h3⟩ := ih (criterionStep a b ret i)
    have hstep := criterionStep_eq_max a b ret i
    simp only [List.foldl_cons, List.mem_cons]
    refine ⟨?_, ?_, ?_⟩
    · exact le_trans (by rw [hstep]; exact le_max_left _ _) h1
    · intro j hj
      rcases hj with rfl | hj
      · exact le_trans (by rw [hstep]; exact le_max_right _ _) h1
      · exact h2 j hj
    · rcases h3 with h3 | ⟨j, hj, h3⟩
      · rw [h3, hstep]
        rcases max_choice ret (|a i - b i| / (|b i| + 0.01)) with h | h
        · exact Or.inl h
        · exact Or.inr ⟨i, Or.inl rfl, h⟩
      · exact Or.inr ⟨j, Or.inr hj, h3⟩

/-- C15. For every vector `a`, of any length, `criterion(a, a) = 0`. -/
theorem criterion_self {n : Nat} (a : AVector K n) : criterion a a = 0 := by
  obtain ⟨h1, -, h3⟩ := criterion_foldl a a (List.finRange n) 0
  rcases h3 with h3 | ⟨j, -, h3⟩
  · exact h3
  · rw [criterion, h3, sub_self, abs_zero, zero_div]

/-- C16. For vectors `a`, `b` of equal length, `criterion(a, b) >= 0`, it is 0 for
empty vectors, and for nonempty vectors it is the maximum over `j` of
`|a_j - b_j| / (|b_j| + 0.01)`. -/
theorem criterion_eq_max {n : Nat} (a b : AVector K n) :
    0 ≤ criterion a b ∧
    (n = 0 → criterion a b = 0) ∧
    (∀ hne : (Finset.univ : Finset (Fin n)).Nonempty,
      criterion a b = Finset.univ.sup' hne (fun j => |a j - b j| / (|b j| + 0.01))) := by
  obtain ⟨h1, h2, h3⟩ := criterion_foldl a b (List.finRange n) 0
  refine ⟨h1, ?_, ?_⟩
  · intro hn
    subst hn
    rfl
  · intro hne
    apply le_antisymm
    · rcases h3 with h3 | ⟨j, -, h3⟩
      · obtain ⟨j, hj⟩ := hne
        rw [criterion, h3]
        exact le_trans (relDiff_nonneg (a j) (b j))
          (Finset.le_sup' (fun j => |a j - b j| / (|b j| + 0.01)) hj)
      · rw [criterion, h3]
        exact Finset.le_sup' (fun j => |a j - b j| / (|b j| + 0.01)) (Finset.mem_univ j)
    · apply Finset.sup'_le
      intro j _
      exact h2 j (List.mem_finRange j)

/-- C17. `criterion` is not symmetric: for `a = [1]` and `b = [2]`,
`criterion(a, b) = 1 / 2.01` and `criterion(b, a) = 1 / 1.01`, since each difference
is divided by `|b_j| + 0.01`. -/
theorem criterion_not_symmetric :
    criterion (fun _ : Fin 1 => (1 : ℚ)) (fun _ => 2) = 1 / 2.01 ∧
    criterion (fun _ : Fin 1 => (2 : ℚ)) (fun _ => 1) = 1 / 1.01 ∧
    criterion (fun _ : Fin 1 => (1 : ℚ)) (fun _ => 2) ≠
      criterion (fun _ : Fin 1 => (2 : ℚ)) (fun _ => 1) := by
  have h1 : List.finRange 1 = [0] := rfl
  have ha : criterion (fun _ : Fin 1 => (1 : ℚ)) (fun _ => 2) = 1 / 2.01 := by
    simp only [criterion, h1, List.foldl_cons, List.foldl_nil, criterionStep]
    norm_num
  have hb : criterion (fun _ : Fin 1 => (2 : ℚ)) (fun _ => 1) = 1 / 1.01 := by
    simp only [criterion, h1, List.foldl_cons, List.foldl_nil, criterionStep]
    norm_num
  refine ⟨ha, hb, ?_⟩
  rw [ha, hb]
  norm_num

/-! ## The prior of `z` and the proposal density -/

/-- C11. For a non-null model and every sample `(coefs, z)`, `computeLogUnPosteriorDens`
with `z` not held fixed (`useFixedZ = false`) is its value with `z` held fixed
(`useFixedZ = true`) plus `gPrior.logDens(exp(z)) + z`. -/
theorem computeLogUnPosteriorDens_useFixedZ_diff {n k : Nat} (m : Libm K) (o : Iwls K n k)
    (sample : Parameter K k) (hnonnull : o.isNullModel = false) :
    Iwls.computeLogUnPosteriorDens m { o with useFixedZ := false } sample =
      Iwls.computeLogUnPosteriorDens m { o with useFixedZ := true } sample +
        (o.config.gPrior.logDens (m.exp sample.z) + sample.z) := by
  unfold Iwls.computeLogUnPosteriorDens
  simp only [hnonnull, Bool.not_false, Bool.not_true, if_true, Bool.false_eq_true, if_false]

/-- The product `L' v` computed from the lower triangle is the product with the
transpose when `L` is lower triangular. -/
theorem trmv_eq_transpose_mulVec {p : Nat} (L : AMatrix K p p) (v : AVector K p)
    (hlower : ∀ i j, i < j → L i j = 0) : trmv L v = L.transpose.mulVec v := by
  funext i
  simp only [trmv, Matrix.mulVec, Matrix.dotProduct, Matrix.transpose_apply]
  rw [Finset.sum_filter]
  refine Finset.sum_congr rfl fun t _ => ?_
  split
  · rfl
  · rename_i h
    rw [hlower t i (not_le.mp h), zero_mul]

/-- The log determinant of `L L'` from the diagonal of a lower triangular `L` with
positive diagonal. -/
theorem log_det_mul_transpose {p : Nat} (L : AMatrix ℝ p p)
    (hlower : ∀ i j, i < j → L i j = 0) (hdiag : ∀ i, 0 < L i i) :
    Real.log (L * L.transpose).det = 2 * ∑ i, Real.log (L i i) := by
  have hdet : L.det = ∏ i, L i i :=
    Matrix.det_of_lowerTriangular L (fun i j h => hlower i j h)
  rw [Matrix.det_mul, Matrix.det_transpose, hdet, ← sq, Real.log_pow,
    Real.log_prod _ _ (fun i _ => (hdiag i).ne')]
  norm_num

/-- C12. For an `Mcmc` state whose `proposalInfo` has a lower triangular factor `L` of
dimension `n = k + 1` with positive diagonal and
`logPrecisionDeterminant = 2 * sum_i log L_ii`, `computeLogProposalDens()` is
`0.5 * (logDet - ||L'(x - mu)||^2) - (n/2) * log(2*pi)` plus
`marginalz.logDens(sample.z)`, with `x = sample.coefs`, `mu = proposalInfo.coefs`;
here `logDet = log det(L L')` and `||L'(x - mu)||^2 = (x - mu)' (L L') (x - mu)`, so this
is the normalised log density of the normal distribution with mean `mu` and precision
matrix `L L'`. -/
theorem computeLogProposalDens_eq {nObs k : Nat} (marginalz : MarginalZ ℝ)
    (s : Mcmc ℝ nObs k)
    (hlower : ∀ i j, i < j → s.proposalInfo.qFactor i j = 0)
    (hdiag : ∀ i, 0 < s.proposalInfo.qFactor i i)
    (hlogdet : s.proposalInfo.logPrecisionDeterminant =
      2 * ∑ i, Real.log (s.proposalInfo.qFactor i i)) :
    s.computeLogProposalDens
        ⟨Real.sqrt, Real.exp, Real.log, Real.log (Real.sqrt (2 * Real.pi))⟩ marginalz =
      0.5 * (s.proposalInfo.logPrecisionDeterminant -
          Matrix.dotProduct
            (s.proposalInfo.qFactor.transpose.mulVec (s.sample.coefs - s.proposalInfo.coefs))
            (s.proposalInfo.qFactor.transpose.mulVec (s.sample.coefs - s.proposalInfo.coefs))) -
        (((k + 1 : Nat) : ℝ) / 2) * Real.log (2 * Real.pi) +
        marginalz.logDens s.sample.z ∧
    s.computeLogProposalDens
        ⟨Real.sqrt, Real.exp, Real.log, Real.log (Real.sqrt (2 * Real.pi))⟩ marginalz =
      0.5 * (Real.log (s.proposalInfo.qFactor * s.proposalInfo.qFactor.transpose).det -
          Matrix.dotProduct (s.sample.coefs - s.proposalInfo.coefs)
            ((s.proposalInfo.qFactor * s.proposalInfo.qFactor.transpose).mulVec
              (s.sample.coefs - s.proposalInfo.coefs))) -
        (((k + 1 : Nat) : ℝ) / 2) * Real.log (2 * Real.pi) +
        marginalz.logDens s.sample.z := by
  have h2pi : (0 : ℝ) ≤ 2 * Real.pi := by positivity
  have hfirst : s.computeLogProposalDens
        ⟨Real.sqrt, Real.exp, Real.log, Real.log (Real.sqrt (2 * Real.pi))⟩ marginalz =
      0.5 * (s.proposalInfo.logPrecisionDeterminant -
          Matrix.dotProduct
            (s.proposalInfo.qFactor.transpose.mulVec (s.sample.coefs - s.proposalInfo.coefs))
            (s.proposalInfo.qFactor.transpose.mulVec (s.sample.coefs - s.proposalInfo.coefs))) -
        (((k + 1 : Nat) : ℝ) / 2) * Real.log (2 * Real.pi) +
        marginalz.logDens s.sample.z := by
    unfold Mcmc.computeLogProposalDens
    simp only [trmv_eq_transpose_mulVec _ _ hlower, dot, Real.log_sqrt h2pi]
    have hsub : (fun i => s.sample.coefs i - s.proposalInfo.coefs i) =
        s.sample.coefs - s.proposalInfo.coefs := rfl
    rw [hsub]
    simp only [Matrix.dotProduct]
    ring
  refine ⟨hfirst, ?_⟩
  rw [hfirst, hlogdet, log_det_mul_transpose _ hlower hdiag]
  have hquad : Matrix.dotProduct
      (s.proposalInfo.qFactor.transpose.mulVec (s.sample.coefs - s.proposalInfo.coefs))
      (s.proposalInfo.qFactor.transpose.mulVec (s.sample.coefs - s.proposalInfo.coefs)) =
      Matrix.dotProduct (s.sample.coefs - s.proposalInfo.coefs)
        ((s.proposalInfo.qFactor * s.proposalInfo.qFactor.transpose).mulVec
          (s.sample.coefs - s.proposalInfo.coefs)) := by
    symm
    rw [← Matrix.mulVec_mulVec, Matrix.dotProduct_mulVec, ← Matrix.mulVec_transpose]
  rw [hquad]

/-! ## Determinism of IWLS on a reused engine -/

/-- A round of IWLS only passes `logPrecisionDeterminant` on. -/
theorem Iwls.iwlsRound_logDet {n k : Nat} (m : Libm K) (g : K) (iter : Nat) (o : Iwls K n k)
    (d : K) :
    Iwls.iwlsRound m g iter
        { o with results := { o.results with logPrecisionDeterminant := d } } =
      match o.iwlsRound m g iter with
      | .error e => .error e
      | .ok (o1, c) =>
        .ok ({ o1 with results := { o1.results with logPrecisionDeterminant := d } }, c) := by
  unfold Iwls.iwlsRound
  simp only []
  cases potrf m (syrk (o.design.transpose * Matrix.diagonal fun i =>
      o.invSqrtDispersions i * (o.config.link.mu_eta (o.results.linPred i) /
        m.sqrt (o.config.distribution.variance (o.config.link.linkinv (o.results.linPred i)))))
      (1 / g) o.unscaledPriorPrec) with
  | error e => rfl
  | ok q => rfl

/-- The first round of IWLS reads only the linear predictor of the results it finds
(and passes `logPrecisionDeterminant` on). -/
theorem Iwls.iwlsRound_one_results {n k : Nat} (m : Libm K) (g : K) (o : Iwls K n k)
    (r1 r2 : IwlsResults K n k) (hlin : r1.linPred = r2.linPred) :
    Iwls.iwlsRound m g 1 { o with results := r2 } =
      match Iwls.iwlsRound m g 1 { o with results := r1 } with
      | .error e => .error e
      | .ok (o1, c) =>
        .ok ({ o1 with results :=
                { o1.results with logPrecisionDeterminant := r2.logPrecisionDeterminant } },
             c) := by
  unfold Iwls.iwlsRound
  simp only [hlin]
  cases potrf m (syrk (o.design.transpose * Matrix.diagonal fun i =>
      o.invSqrtDispersions i * (o.config.link.mu_eta (r2.linPred i) /
        m.sqrt (o.config.distribution.variance (o.config.link.linkinv (r2.linPred i)))))
      (1 / g) o.unscaledPriorPrec) with
  | error e => rfl
  | ok q => rfl

/-- The IWLS loop only passes `logPrecisionDeterminant` on. -/
theorem Iwls.whileLoop_logDet {n k : Nat} (m : Libm K) (maxIter : Nat) (g : K) (d : K) :
    ∀ (f iter : Nat) (converged : Bool) (rounds : Nat) (o : Iwls K n k),
      maxIter - iter = f →
      Iwls.whileLoop m maxIter g iter converged rounds
          { o with results := { o.results with logPrecisionDeterminant := d } } =
        match Iwls.whileLoop m maxIter g iter converged rounds o with
        | .error e => .error e
        | .ok x =>
          .ok { x with obj :=
                  { x.obj with results :=
                      { x.obj.results with logPrecisionDeterminant := d } } } := by
  intro f
  induction f with
  | zero =>
    intro iter converged rounds o hf
    have hn : ¬ (iter < maxIter ∧ converged = false) := by omega
    rw [Iwls.whileLoop, if_neg hn, Iwls.whileLoop, if_neg hn]
  | succ f ih =>
    intro iter converged rounds o hf
    rw [Iwls.whileLoop, Iwls.whileLoop]
    split
    · rw [Iwls.iwlsRound_logDet]
      cases hround : o.iwlsRound m g (iter + 1) with
      | error e => rfl
      | ok v =>
        obtain ⟨o1, c⟩ := v
        exact ih (iter + 1) c (rounds + 1) o1 (by omega)
    · rfl

/-- The value of `logPrecisionDeterminant` before `startWithLastLinPred` is of no
consequence. -/
theorem Iwls.startWithLastLinPred_logDet {n k : Nat} (m : Libm K) (maxIter : Nat) (g : K)
    (d : K) (o : Iwls K n k) :
    Iwls.startWithLastLinPred m maxIter g
        { o with results := { o.results with logPrecisionDeterminant := d } } =
      Iwls.startWithLastLinPred m maxIter g o := by
  unfold Iwls.startWithLastLinPred
  rw [Iwls.whileLoop_logDet m maxIter g d _ 0 false 0 o rfl]
  cases Iwls.whileLoop m maxIter g 0 false 0 o with
  | error e => rfl
  | ok x => rfl

/-- The result of `startWithNewLinPred` with `maxIter >= 1` does not depend on the
results the object held before the call. -/
theorem Iwls.startWithNewLinPred_results {n k : Nat} (m : Libm K) (maxIter : Nat) (g : K)
    (linPredStart : AVector K n) (o : Iwls K n k) (r1 r2 : IwlsResults K n k)
    (hmax : 1 ≤ maxIter) :
    Iwls.startWithNewLinPred m maxIter g linPredStart { o with results := r1 } =
      Iwls.startWithNewLinPred m maxIter g linPredStart { o with results := r2 } := by
  have hround := Iwls.iwlsRound_one_results m g o { r1 with linPred := linPredStart }
    { r2 with linPred := linPredStart } rfl
  unfold Iwls.startWithNewLinPred Iwls.startWithLastLinPred
  simp only []
  rw [Iwls.whileLoop, if_pos ⟨by omega, rfl⟩, Iwls.whileLoop, if_pos ⟨by omega, rfl⟩]
  simp only [zero_add]
  rw [hround]
  cases Iwls.iwlsRound m g 1 { o with results := { r1 with linPred := linPredStart } } with
  | error e => rfl
  | ok v =>
    obtain ⟨o1, c⟩ := v
    simp only []
    rw [Iwls.whileLoop_logDet m maxIter g r2.logPrecisionDeterminant _ 1 c 1 o1 rfl]
    cases Iwls.whileLoop m maxIter g 1 c 1 o1 with
    | error e => rfl
    | ok x => rfl

/-! ## The number of rounds of the IWLS loop -/

/-- What a successful round returns as `converged`, and that it keeps `epsilon`. -/
theorem Iwls.iwlsRound_converged {n k : Nat} (m : Libm K) (g : K) (iter : Nat)
    (o o1 : Iwls K n k) (c : Bool) (hround : o.iwlsRound m g iter = .ok (o1, c)) :
    c = (if iter > 1 then decide (criterion o.results.coefs o1.results.coefs < o.epsilon)
          else false) ∧
      o1.epsilon = o.epsilon := by
  unfold Iwls.iwlsRound at hround
  simp only [] at hround
  split at hround
  · exact absurd hround (by simp)
  · simp only [Except.ok.injEq, Prod.mk.injEq] at hround
    obtain ⟨h1, h2⟩ := hround
    subst h1
    exact ⟨h2.symm, rfl⟩

/-- A round fails only with the Cholesky error of that round. -/
theorem Iwls.iwlsRound_error {n k : Nat} (m : Libm K) (g : K) (iter : Nat)
    (o : Iwls K n k) (e : Failure) (hround : o.iwlsRound m g iter = .error e) :
    ∃ info, e = Failure.cholesky info iter := by
  unfold Iwls.iwlsRound at hround
  simp only [] at hround
  split at hround
  · rename_i info _
    simp only [Except.error.injEq] at hround
    exact ⟨info, hround.symm⟩
  · exact absurd hround (by simp)

/-- The rounds keep `epsilon`. -/
theorem Iwls.afterRounds_epsilon {n k : Nat} (m : Libm K) (g : K) (o : Iwls K n k) :
    ∀ (j : Nat) (o1 : Iwls K n k), Iwls.afterRounds m g o j = .ok o1 →
      o1.epsilon = o.epsilon := by
  intro j
  induction j with
  | zero =>
    intro o1 h
    simp only [Iwls.afterRounds, Except.ok.injEq] at h
    rw [← h]
  | succ j ih =>
    intro o1 h
    rw [Iwls.afterRounds] at h
    split at h
    · exact absurd h (by simp)
    · rename_i o2 h2
      split at h
      · exact absurd h (by simp)
      · rename_i o3 c h3
        simp only [Except.ok.injEq] at h
        subst h
        rw [(Iwls.iwlsRound_converged m g (j + 1) o2 o3 c h3).2, ih o2 h2]

/-- The loop invariant of the IWLS loop: entered after `iter` rounds with `converged`
the outcome of the test of round `iter` and no earlier round below the tolerance, the
loop is left after the least round from 2 on whose criterion is below `epsilon`, or
after `maxIter` rounds when there is none. -/
theorem Iwls.whileLoop_least {n k : Nat} (m : Libm K) (maxIter : Nat) (g : K)
    (o : Iwls K n k) :
    ∀ (f iter : Nat) (converged : Bool) (cur : Iwls K n k) (x : LoopExit K n k),
      maxIter - iter = f → iter ≤ maxIter →
      Iwls.afterRounds m g o iter = .ok cur →
      (converged = true ↔ (2 ≤ iter ∧ Iwls.criterionBelowAt m g o iter = true)) →
      (∀ j, 2 ≤ j → j < iter → Iwls.criterionBelowAt m g o j = false) →
      Iwls.whileLoop m maxIter g iter converged iter cur = .ok x →
      x.rounds ≤ maxIter ∧ Iwls.afterRounds m g o x.rounds = .ok x.obj ∧
        ((x.converged = true ∧ 2 ≤ x.rounds ∧ Iwls.criterionBelowAt m g o x.rounds = true ∧
            ∀ j, 2 ≤ j → j < x.rounds → Iwls.criterionBelowAt m g o j = false) ∨
          (x.converged = false ∧ x.rounds = maxIter ∧
            ∀ j, 2 ≤ j → j ≤ maxIter → Iwls.criterionBelowAt m g o j = false)) := by
  intro f
  induction f with
  | zero =>
    intro iter converged cur x hf hle hcur hconv hprev hrun
    have hn : ¬ (iter < maxIter ∧ converged = false) := by omega
    rw [Iwls.whileLoop, if_neg hn] at hrun
    simp only [Except.ok.injEq] at hrun
    subst hrun
    have hiter : iter = maxIter := by omega
    refine ⟨hle, hcur, ?_⟩
    cases hc : converged with
    | true =>
      obtain ⟨h2, hb⟩ := hconv.mp hc
      exact Or.inl ⟨rfl, h2, hb, hprev⟩
    | false =>
      refine Or.inr ⟨rfl, hiter, ?_⟩
      intro j hj2 hjle
      rcases Nat.lt_or_ge j iter with hlt | hge
      · exact hprev j hj2 hlt
      · have hj : j = iter := by omega
        subst hj
        cases hb : Iwls.criterionBelowAt m g o j with
        | false => rfl
        | true => exact absurd (hconv.mpr ⟨hj2, hb⟩) (by rw [hc]; simp)
  | succ f ih =>
    intro iter converged cur x hf hle hcur hconv hprev hrun
    rw [Iwls.whileLoop] at hrun
    split at hrun
    · rename_i hgo
      obtain ⟨hlt, hcf⟩ := hgo
      split at hrun
      · exact absurd hrun (by simp)
      · rename_i o1 c1 hround
        obtain ⟨hc1, heps⟩ := Iwls.iwlsRound_converged m g (iter + 1) cur o1 c1 hround
        have hnext : Iwls.afterRounds m g o (iter + 1) = .ok o1 := by
          rw [Iwls.afterRounds, hcur]
          simp only [hround]
        have hcureps := Iwls.afterRounds_epsilon m g o iter cur hcur
        have hbelow : Iwls.criterionBelowAt m g o (iter + 1) =
            decide (criterion cur.results.coefs o1.results.coefs < o.epsilon) := by
          unfold Iwls.criterionBelowAt
          simp only [Nat.add_sub_cancel, hcur, hnext]
        refine ih (iter + 1) c1 o1 x (by omega) (by omega) hnext ?_ ?_ hrun
        · rw [hc1, hbelow, hcureps]
          by_cases h1 : iter + 1 > 1
          · simp only [h1, if_true]
            constructor
            · intro h
              exact ⟨by omega, h⟩
            · intro h
              exact h.2
          · simp only [h1, if_false]
            constructor
            · intro h
              exact absurd h (by simp)
            · intro h
              omega
        · intro j hj2 hjlt
          rcases Nat.lt_or_ge j iter with hlt' | hge
          · exact hprev j hj2 hlt'
          · have hj : j = iter := by omega
            subst hj
            cases hb : Iwls.criterionBelowAt m g o j with
            | false => rfl
            | true => exact absurd (hconv.mpr ⟨hj2, hb⟩) (by rw [hcf]; simp)
    · rename_i hstop
      simp only [Except.ok.injEq] at hrun
      subst hrun
      refine ⟨hle, hcur, ?_⟩
      cases hc : converged with
      | true =>
        obtain ⟨h2, hb⟩ := hconv.mp hc
        exact Or.inl ⟨rfl, h2, hb, hprev⟩
      | false =>
        have hiter : iter = maxIter := by
          by_contra hne
          exact hstop ⟨by omega, hc⟩
        refine Or.inr ⟨rfl, hiter, ?_⟩
        intro j hj2 hjle
        rcases Nat.lt_or_ge j iter with hlt | hge
        · exact hprev j hj2 hlt
        · have hj : j = iter := by omega
          subst hj
          cases hb : Iwls.criterionBelowAt m g o j with
          | false => rfl
          | true => exact absurd (hconv.mpr ⟨hj2, hb⟩) (by rw [hc]; simp)

/-- The IWLS loop fails only with the Cholesky error of one of its rounds. -/
theorem Iwls.whileLoop_error {n k : Nat} (m : Libm K) (maxIter : Nat) (g : K)
    (o : Iwls K n k) :
    ∀ (f iter : Nat) (converged : Bool) (rounds : Nat) (cur : Iwls K n k) (e : Failure),
      maxIter - iter = f →
      Iwls.afterRounds m g o iter = .ok cur →
      Iwls.whileLoop m maxIter g iter converged rounds cur = .error e →
      ∃ info j, e = Failure.cholesky info j ∧ iter < j ∧ j ≤ maxIter ∧
        Iwls.afterRounds m g o j = .error e := by
  intro f
  induction f with
  | zero =>
    intro iter converged rounds cur e hf hcur hrun
    have hn : ¬ (iter < maxIter ∧ converged = false) := by omega
    rw [Iwls.whileLoop, if_neg hn] at hrun
    exact absurd hrun (by simp)
  | succ f ih =>
    intro iter converged rounds cur e hf hcur hrun
    rw [Iwls.whileLoop] at hrun
    split at hrun
    · split at hrun
      · rename_i e1 hround
        simp only [Except.error.injEq] at hrun
        subst hrun
        obtain ⟨info, he⟩ := Iwls.iwlsRound_error m g (iter + 1) cur e1 hround
        refine ⟨info, iter + 1, he, by omega, by omega, ?_⟩
        rw [Iwls.afterRounds, hcur]
        simp only [hround]
      · rename_i o1 c1 hround
        have hnext : Iwls.afterRounds m g o (iter + 1) = .ok o1 := by
          rw [Iwls.afterRounds, hcur]
          simp only [hround]
        obtain ⟨info, j, he, hj1, hj2, hj3⟩ :=
          ih (iter + 1) c1 (rounds + 1) o1 e (by omega) hnext hrun
        exact ⟨info, j, he, by omega, hj2, hj3⟩
    · exact absurd hrun (by simp)

/-- C20. The IWLS loop ends after at most `maxIter` rounds.  It fails only with the
Cholesky error of one of its rounds; not reaching the tolerance raises no error.  When
it does not fail, the number of rounds executed is the least `j` with
`2 <= j <= maxIter` such that
`criterion(coefficients after round j-1, coefficients after round j) < epsilon`, and is
`maxIter` when there is no such `j`; the object then holds the results of the last
round executed, and `startWithLastLinPred` returns normally with them and with the
log precision determinant computed from the last factor. -/
theorem Iwls.whileLoop_rounds_least {n k : Nat} (m : Libm K) (maxIter : Nat) (g : K)
    (o : Iwls K n k) :
    (∀ e, Iwls.whileLoop m maxIter g 0 false 0 o = .error e →
      Iwls.startWithLastLinPred m maxIter g o = .error e ∧
      ∃ info j, e = Failure.cholesky info j ∧ 1 ≤ j ∧ j ≤ maxIter ∧
        Iwls.afterRounds m g o j = .error e) ∧
    (∀ x, Iwls.whileLoop m maxIter g 0 false 0 o = .ok x →
      x.rounds ≤ maxIter ∧ Iwls.afterRounds m g o x.rounds = .ok x.obj ∧
      ((x.converged = true ∧ 2 ≤ x.rounds ∧ Iwls.criterionBelowAt m g o x.rounds = true ∧
          ∀ j, 2 ≤ j → j < x.rounds → Iwls.criterionBelowAt m g o j = false) ∨
        (x.converged = false ∧ x.rounds = maxIter ∧
          ∀ j, 2 ≤ j → j ≤ maxIter → Iwls.criterionBelowAt m g o j = false)) ∧
      Iwls.startWithLastLinPred m maxIter g o =
        .ok (x.iter,
          { x.obj with results :=
              { x.obj.results with
                logPrecisionDeterminant :=
                  logDetFromCholesky m x.obj.results.qFactor } })) ∧
    ((∃ e, Iwls.whileLoop m maxIter g 0 false 0 o = .error e) ∨
      ∃ x, Iwls.whileLoop m maxIter g 0 false 0 o = .ok x) := by
  refine ⟨?_, ?_, ?_⟩
  · intro e hrun
    obtain ⟨info, j, he, hj1, hj2, hj3⟩ :=
      Iwls.whileLoop_error m maxIter g o _ 0 false 0 o e rfl rfl hrun
    refine ⟨?_, info, j, he, by omega, hj2, hj3⟩
    unfold Iwls.startWithLastLinPred
    rw [hrun]
  · intro x hrun
    obtain ⟨h1, h2, h3⟩ := Iwls.whileLoop_least m maxIter g o _ 0 false o x rfl
      (Nat.zero_le _) rfl (by simp) (by intro j _ hj; omega) hrun
    exact ⟨h1, h2, h3, Iwls.startWithLastLinPred_of_whileLoop m maxIter g o x hrun⟩
  · cases h : Iwls.whileLoop m maxIter g 0 false 0 o with
    | error e => exact Or.inl ⟨e, rfl⟩
    | ok x => exact Or.inr ⟨x, rfl⟩

/-- C18. Determinism of IWLS on a reused engine: for `maxIter >= 1`, two calls
`startWithNewLinPred(maxIter, g, linPred)` on objects with the same design, response,
model configuration, tolerance, `g` and starting linear predictor have the same
outcome (coefficients, Cholesky factor, log precision determinant, final linear
predictor and returned iteration count, or the same error), whatever results
`r1`, `r2` the objects held before. -/
theorem Iwls.startWithNewLinPred_deterministic {n k : Nat} (m : Libm K) (maxIter : Nat)
    (g : K) (linPredStart : AVector K n) (o : Iwls K n k) (r1 r2 : IwlsResults K n k)
    (hmax : 1 ≤ maxIter) :
    Iwls.startWithNewLinPred m maxIter g linPredStart { o with results := r1 } =
      Iwls.startWithNewLinPred m maxIter g linPredStart { o with results := r2 } :=
  Iwls.startWithNewLinPred_results m maxIter g linPredStart o r1 r2 hmax

/-- C18 on the scenario: after results `(5, 7, 3)` and after all-zero results the call
with `maxIter = 30`, `g = 1` from the all-zero linear predictor succeeds with the same
outcome. -/
theorem Iwls.startWithNewLinPred_deterministic_witness :
    ∃ (ret : Nat) (o1 : Iwls ℝ 4 0),
      Iwls.startWithNewLinPred
          ⟨Real.sqrt, Real.exp, Real.log, Real.log (Real.sqrt (2 * Real.pi))⟩ 30 1
          (fun _ => 0)
          { scenarioIwls ⟨Real.sqrt, Real.exp, Real.log, Real.log (Real.sqrt (2 * Real.pi))⟩
              false (1 / 100) 0
              { coefs := fun _ => 0, qFactor := fun _ _ => 0, logPrecisionDeterminant := 0,
                linPred := fun _ => 0 } with
            results := { coefs := fun _ => 5, qFactor := fun _ _ => 7,
                         logPrecisionDeterminant := 3, linPred := fun _ => 1 } } =
        .ok (ret, o1) ∧
      Iwls.startWithNewLinPred
          ⟨Real.sqrt, Real.exp, Real.log, Real.log (Real.sqrt (2 * Real.pi))⟩ 30 1
          (fun _ => 0)
          { scenarioIwls ⟨Real.sqrt, Real.exp, Real.log, Real.log (Real.sqrt (2 * Real.pi))⟩
              false (1 / 100) 0
              { coefs := fun _ => 0, qFactor := fun _ _ => 0, logPrecisionDeterminant := 0,
                linPred := fun _ => 0 } with
            results := { coefs := fun _ => 0, qFactor := fun _ _ => 0,
                         logPrecisionDeterminant := 0, linPred := fun _ => 0 } } =
        .ok (ret, o1) := by
  obtain ⟨ret, r1, h⟩ := scenario_startWithNewLinPred_ok Real.log
    (Real.log (Real.sqrt (2 * Real.pi))) false (1 / 100) 0 1 30 (fun _ => 0)
    { coefs := fun _ => 5, qFactor := fun _ _ => 7, logPrecisionDeterminant := 3,
      linPred := fun _ => 1 }
  refine ⟨ret, _, h, ?_⟩
  rw [← h]
  exact (Iwls.startWithNewLinPred_deterministic _ 30 1 (fun _ => 0) _ _ _ (by norm_num)).symm

/-! ## Instances of the prior and proposal density identities -/

/-- The constructor succeeds on the model with one observation and one covariate,
design `[1 1]`, and builds a non-null model. -/
theorem onesDesign_create_ok (useFixedZ : Bool) :
    ∃ o : Iwls ℝ 1 1,
      Iwls.create ⟨Real.sqrt, Real.exp, Real.log, Real.log (Real.sqrt (2 * Real.pi))⟩
          (onesDesign : AMatrix ℝ 1 2) (fun _ => 1)
          (bernoulliConfig ⟨Real.sqrt, Real.exp, Real.log, Real.log (Real.sqrt (2 * Real.pi))⟩
            (fun _ => 1))
          (fun _ => 0) useFixedZ (1 / 100) (zeroUninit 1) = .ok o ∧
      o.isNullModel = false := by
  have hcross : scaledDesignWithoutInterceptCrossprod
      (fun _ : Fin 1 => 1 / Real.sqrt 1) (onesDesign : AMatrix ℝ 1 2) 0 0 = 1 := by
    simp [scaledDesignWithoutInterceptCrossprod, scaledDesignWithoutIntercept,
      Matrix.mul_apply, onesDesign]
  have hpotrf := potrf_one
    ⟨Real.sqrt, Real.exp, Real.log, Real.log (Real.sqrt (2 * Real.pi))⟩
    (scaledDesignWithoutInterceptCrossprod
      (fun _ : Fin 1 => 1 / Real.sqrt 1) (onesDesign : AMatrix ℝ 1 2))
    (by rw [hcross]; exact one_pos)
  unfold Iwls.create
  simp only [bernoulliConfig]
  rw [hpotrf]
  exact ⟨_, rfl, rfl⟩

/-- C11 on the model with one observation and one covariate, at the sample
`((1, 1), 0)`. -/
theorem computeLogUnPosteriorDens_useFixedZ_diff_witness :
    ∃ o : Iwls ℝ 1 1,
      Iwls.create ⟨Real.sqrt, Real.exp, Real.log, Real.log (Real.sqrt (2 * Real.pi))⟩
          (onesDesign : AMatrix ℝ 1 2) (fun _ => 1)
          (bernoulliConfig ⟨Real.sqrt, Real.exp, Real.log, Real.log (Real.sqrt (2 * Real.pi))⟩
            (fun _ => 1))
          (fun _ => 0) true (1 / 100) (zeroUninit 1) = .ok o ∧
      o.isNullModel = false ∧
      Iwls.computeLogUnPosteriorDens
          ⟨Real.sqrt, Real.exp, Real.log, Real.log (Real.sqrt (2 * Real.pi))⟩
          { o with useFixedZ := false } ⟨fun _ => 1, 0⟩ =
        Iwls.computeLogUnPosteriorDens
            ⟨Real.sqrt, Real.exp, Real.log, Real.log (Real.sqrt (2 * Real.pi))⟩
            { o with useFixedZ := true } ⟨fun _ => 1, 0⟩ +
          (o.config.gPrior.logDens (Real.exp 0) + 0) := by
  obtain ⟨o, hcreate, hnull⟩ := onesDesign_create_ok true
  exact ⟨o, hcreate, hnull,
    computeLogUnPosteriorDens_useFixedZ_diff _ o ⟨fun _ => 1, 0⟩ hnull⟩

/-- C12 on the state `unitMcmc`. -/
theorem computeLogProposalDens_eq_witness :
    (unitMcmc : Mcmc ℝ 1 0).computeLogProposalDens
        ⟨Real.sqrt, Real.exp, Real.log, Real.log (Real.sqrt (2 * Real.pi))⟩ flatMarginalZ =
      0.5 * ((unitMcmc : Mcmc ℝ 1 0).proposalInfo.logPrecisionDeterminant -
          Matrix.dotProduct
            ((unitMcmc : Mcmc ℝ 1 0).proposalInfo.qFactor.transpose.mulVec
              ((unitMcmc : Mcmc ℝ 1 0).sample.coefs - (unitMcmc : Mcmc ℝ 1 0).proposalInfo.coefs))
            ((unitMcmc : Mcmc ℝ 1 0).proposalInfo.qFactor.transpose.mulVec
              ((unitMcmc : Mcmc ℝ 1 0).sample.coefs -
                (unitMcmc : Mcmc ℝ 1 0).proposalInfo.coefs))) -
        (((0 + 1 : Nat) : ℝ) / 2) * Real.log (2 * Real.pi) +
        (flatMarginalZ : MarginalZ ℝ).logDens (unitMcmc : Mcmc ℝ 1 0).sample.z :=
  (computeLogProposalDens_eq flatMarginalZ unitMcmc
    (fun i j h => absurd h (by omega))
    (fun _ => one_pos) (by simp [unitMcmc])).1

/-! ## The sample store never overflows -/

/-- The number of recorded iterations among `1, ..., N` is `floor((N - burnin) / step)`. -/
theorem countP_isRecorded_range (options : Options) :
    ∀ N : Nat, (List.range' 1 N).countP (isRecorded options) =
      (N - options.burnin) / options.step := by
  intro N
  induction N with
  | zero => simp
  | succ N ih =>
    rw [List.range'_concat, List.countP_append, ih]
    simp only [List.countP_cons, List.countP_nil, zero_add, isRecorded, Nat.one_mul]
    by_cases hb : 1 + N > options.burnin
    · have hsub : N + 1 - options.burnin = (N - options.burnin) + 1 := by omega
      have hsub2 : 1 + N - options.burnin = (N - options.burnin) + 1 := by omega
      have hd : (1 + N - options.burnin) % options.step = 0 ↔
          options.step ∣ N - options.burnin + 1 := by
        rw [hsub2, Nat.dvd_iff_mod_eq_zero]
      rw [hsub, Nat.succ_div]
      simp only [hb, decide_True, Bool.true_and, decide_eq_true_eq, hd]
    · have h1 : N + 1 - options.burnin = 0 := by omega
      have h2 : N - options.burnin = 0 := by omega
      simp [hb, h1, h2]

/-- The number of recorded iterations of a whole run. -/
theorem recordedCount_one (options : Options) :
    recordedCount options 1 = (options.iterations - options.burnin) / options.step := by
  unfold recordedCount
  rw [Nat.add_sub_cancel]
  exact countP_isRecorded_range options options.iterations

/-- The capacity the constructor of `Options` computes, for `burnin <= iterations`
within the range of `PosInt` and `step >= 1`: the ceiling of the exact quotient, which
is at least the floor. -/
theorem Options.create_nSamples (estimateMargLik isNullModel useFixedZ : Bool)
    (iterations burnin step : Nat) (hb : burnin ≤ iterations)
    (hN : iterations < posIntModulus) (hstep : 1 ≤ step) :
    (Options.create estimateMargLik isNullModel useFixedZ iterations burnin step).nSamples =
        ⌈((iterations - burnin : Nat) : ℚ) / (step : ℚ)⌉₊ ∧
      (iterations - burnin) / step ≤
        (Options.create estimateMargLik isNullModel useFixedZ iterations burnin step).nSamples := by
  have hmod : (iterations + posIntModulus - burnin) % posIntModulus = iterations - burnin := by
    have h1 : iterations + posIntModulus - burnin = (iterations - burnin) + posIntModulus := by
      omega
    rw [h1, Nat.add_mod_right, Nat.mod_eq_of_lt (by omega)]
  have hstepQ : (0 : ℚ) < (step : ℚ) := by exact_mod_cast hstep
  have hceil_le : ⌈((iterations - burnin : Nat) : ℚ) / (step : ℚ)⌉₊ ≤ iterations - burnin := by
    rw [Nat.ceil_le]
    exact div_le_self (Nat.cast_nonneg _) (by exact_mod_cast hstep)
  have hval : (Options.create estimateMargLik isNullModel useFixedZ iterations burnin
      step).nSamples = ⌈((iterations - burnin : Nat) : ℚ) / (step : ℚ)⌉₊ := by
    simp only [Options.create, hmod]
    have h10 : ((iterations - burnin : Nat) : ℚ) * 1.0 / (step : ℚ) =
        ((iterations - burnin : Nat) : ℚ) / (step : ℚ) := by norm_num
    rw [h10, Nat.mod_eq_of_lt (by omega)]
  refine ⟨hval, ?_⟩
  have hfloor : ⌊((iterations - burnin : Nat) : ℚ) / (step : ℚ)⌋₊ = (iterations - burnin) / step :=
    Nat.floor_div_eq_div _ _
  rw [hval, ← hfloor]
  exact Nat.floor_le_ceil _

/-- A failing `startWithLastLinPred` failed in a Cholesky factorisation. -/
theorem Iwls.startWithLastLinPred_error {n k : Nat} (m : Libm K) (maxIter : Nat) (g : K)
    (o : Iwls K n k) (e : Failure) (h : Iwls.startWithLastLinPred m maxIter g o = .error e) :
    ∃ info j, e = Failure.cholesky info j := by
  unfold Iwls.startWithLastLinPred at h
  split at h
  · rename_i e1 hloop
    simp only [Except.error.injEq] at h
    subst h
    obtain ⟨info, j, he, -, -, -⟩ :=
      Iwls.whileLoop_error m maxIter g o _ 0 false 0 o e1 rfl rfl hloop
    exact ⟨info, j, he⟩
  · exact absurd h (by simp)

/-- A failing `startWithNewLinPred` failed in a Cholesky factorisation. -/
theorem Iwls.startWithNewLinPred_error {n k : Nat} (m : Libm K) (maxIter : Nat) (g : K)
    (linPredStart : AVector K n) (o : Iwls K n k) (e : Failure)
    (h : Iwls.startWithNewLinPred m maxIter g linPredStart o = .error e) :
    ∃ info j, e = Failure.cholesky info j :=
  Iwls.startWithLastLinPred_error m maxIter g _ e h

/-- A failing `startWithNewCoefs` failed in a Cholesky factorisation. -/
theorem Iwls.startWithNewCoefs_error {n k : Nat} (m : Libm K) (maxIter : Nat) (g : K)
    (coefsStart : AVector K (k + 1)) (o : Iwls K n k) (e : Failure)
    (h : Iwls.startWithNewCoefs m maxIter g coefsStart o = .error e) :
    ∃ info j, e = Failure.cholesky info j :=
  Iwls.startWithLastLinPred_error m maxIter g _ e h

/-- A failing proposal part failed in a Cholesky factorisation. -/
theorem proposalStep_error {n k : Nat} (m : Libm K) (src : RngSource K)
    (marginalZ : MarginalZ K) (s : SamplerState K n k) (e : Failure)
    (h : proposalStep m src marginalZ s = .error e) :
    ∃ info j, e = Failure.cholesky info j := by
  unfold proposalStep at h
  simp only [] at h
  split at h
  · rename_i e1 h1
    simp only [Except.error.injEq] at h
    subst h
    exact Iwls.startWithNewCoefs_error m _ _ _ _ _ h1
  · split at h
    · rename_i e1 h1
      simp only [Except.error.injEq] at h
      subst h
      exact Iwls.startWithNewCoefs_error m _ _ _ _ _ h1
    · exact absurd h (by simp)

/-- Failing marginal likelihood terms failed in a Cholesky factorisation. -/
theorem margLikStep_error {n k : Nat} (m : Libm K) (src : RngSource K)
    (marginalZ : MarginalZ K) (highDensityPoint : Mcmc K n k) (s : SamplerState K n k)
    (e : Failure) (h : margLikStep m src marginalZ highDensityPoint s = .error e) :
    ∃ info j, e = Failure.cholesky info j := by
  unfold margLikStep at h
  simp only [] at h
  split at h
  · rename_i e1 h1
    simp only [Except.error.injEq] at h
    subst h
    exact Iwls.startWithNewLinPred_error m _ _ _ _ _ h1
  · split at h
    · rename_i e1 h1
      simp only [Except.error.injEq] at h
      subst h
      exact Iwls.startWithNewCoefs_error m _ _ _ _ _ h1
    · split at h
      · rename_i e1 h1
        simp only [Except.error.injEq] at h
        subst h
        exact Iwls.startWithNewLinPred_error m _ _ _ _ _ h1
      · split at h
        · rename_i e1 h1
          simp only [Except.error.injEq] at h
          subst h
          exact Iwls.startWithNewCoefs_error m _ _ _ _ _ h1
        · exact absurd h (by simp)

/-- An iteration that finds room in the sample store fails only in a Cholesky
factorisation. -/
theorem mcmcIteration_error {n k : Nat} (m : Libm K) (src : RngSource K)
    (marginalZ : MarginalZ K) (options : Options) (highDensityPoint : Mcmc K n k)
    (i_iter : Nat) (s : SamplerState K n k) (e : Failure)
    (hroom : isRecorded options i_iter = true → s.samples.nSaved < s.samples.nSamples)
    (h : mcmcIteration m src marginalZ options highDensityPoint i_iter s = .error e) :
    ∃ info j, e = Failure.cholesky info j := by
  unfold mcmcIteration at h
  split at h
  · rename_i e1 h1
    simp only [Except.error.injEq] at h
    subst h
    exact proposalStep_error m src marginalZ s e1 h1
  · rename_i s0 a b hprop
    obtain ⟨-, hsamp, -, -⟩ := proposalStep_spec m src marginalZ s s0 a b hprop
    obtain ⟨-, hsamp2, -⟩ := acceptReject_spec m src a b s0
    unfold storeStep at h
    split at h
    · rename_i hrec
      have hlt := hroom hrec
      rw [← hsamp, ← hsamp2] at hlt
      simp only [Samples.storeParameters, hlt, if_true] at h
      split at h
      · exact margLikStep_error m src marginalZ highDensityPoint _ e h
      · exact absurd h (by simp)
    · exact absurd h (by simp)

/-- The MCMC loop fails only in a Cholesky factorisation when the sample store has
room for the samples of the recorded iterations still to come. -/
theorem mcmcLoop_error {n k : Nat} (m : Libm K) (src : RngSource K)
    (marginalZ : MarginalZ K) (options : Options) (highDensityPoint : Mcmc K n k) :
    ∀ (d i_iter : Nat) (s : SamplerState K n k) (e : Failure),
      options.iterations + 1 - i_iter = d →
      s.samples.nSaved + recordedCount options i_iter ≤ s.samples.nSamples →
      mcmcLoop m src marginalZ options highDensityPoint i_iter s = .error e →
      ∃ info j, e = Failure.cholesky info j := by
  intro d
  induction d with
  | zero =>
    intro i_iter s e hd hroom h
    rw [mcmcLoop, if_neg (by omega)] at h
    exact absurd h (by simp)
  | succ d ih =>
    intro i_iter s e hd hroom h
    have hle : i_iter ≤ options.iterations := by omega
    rw [recordedCount_step options i_iter hle] at hroom
    rw [mcmcLoop, if_pos hle] at h
    split at h
    · rename_i e1 hiter
      simp only [Except.error.injEq] at h
      subst h
      exact mcmcIteration_error m src marginalZ options highDensityPoint i_iter s e1
        (by intro hrec; rw [hrec] at hroom; simp at hroom; omega) hiter
    · rename_i s1 hiter
      obtain ⟨h1, h2⟩ :=
        mcmcIteration_nSaved m src marginalZ options highDensityPoint i_iter s s1 hiter
      exact ih (i_iter + 1) s1 e (by omega) (by rw [h1, h2]; omega) h

/-- The first `j` iterations of a run are the run of the same options with
`iterations := j`: the loop of the full run continues from their result. -/
theorem mcmcLoop_continue {n k : Nat} (m : Libm K) (src : RngSource K)
    (marginalZ : MarginalZ K) (options : Options) (highDensityPoint : Mcmc K n k)
    (j : Nat) (hj : j ≤ options.iterations) :
    ∀ (d i_iter : Nat) (s : SamplerState K n k),
      j + 1 - i_iter = d → i_iter ≤ j + 1 →
      mcmcLoop m src marginalZ options highDensityPoint i_iter s =
        match mcmcLoop m src marginalZ { options with iterations := j } highDensityPoint
            i_iter s with
        | .error e => .error e
        | .ok s1 => mcmcLoop m src marginalZ options highDensityPoint (j + 1) s1 := by
  intro d
  induction d with
  | zero =>
    intro i_iter s hd hle
    have hi : i_iter = j + 1 := by omega
    subst hi
    have h2 : mcmcLoop m src marginalZ { options with iterations := j } highDensityPoint
        (j + 1) s = .ok s := by
      rw [mcmcLoop, if_neg (by simp)]
    rw [h2]
  | succ d ih =>
    intro i_iter s hd hle
    have hle1 : i_iter ≤ options.iterations := by omega
    have hle2 : i_iter ≤ j := by omega
    have h2 : mcmcLoop m src marginalZ { options with iterations := j } highDensityPoint
        i_iter s =
        match mcmcIteration m src marginalZ options highDensityPoint i_iter s with
        | .error e => .error e
        | .ok s1 =>
          mcmcLoop m src marginalZ { options with iterations := j } highDensityPoint
            (i_iter + 1) s1 := by
      rw [mcmcLoop, if_pos hle2]
      rfl
    rw [h2, mcmcLoop, if_pos hle1]
    cases mcmcIteration m src marginalZ options highDensityPoint i_iter s with
    | error e => rfl
    | ok s1 => exact ih (i_iter + 1) s1 (by omega) (by omega)

/-- The marginal likelihood terms leave the stored `z` values alone. -/
theorem margLikStep_zSamples {n k : Nat} (m : Libm K) (src : RngSource K)
    (marginalZ : MarginalZ K) (highDensityPoint : Mcmc K n k) (s s1 : SamplerState K n k)
    (h : margLikStep m src marginalZ highDensityPoint s = .ok s1) :
    s1.samples.zSamples = s.samples.zSamples := by
  unfold margLikStep at h
  simp only [] at h
  split at h
  · exact absurd h (by simp)
  · split at h
    · exact absurd h (by simp)
    · split at h
      · exact absurd h (by simp)
      · split at h
        · exact absurd h (by simp)
        · simp only [Except.ok.injEq] at h
          subst h
          rfl

/-- An iteration keeps the number of stored `z` values equal to the write cursor. -/
theorem mcmcIteration_zSamples {n k : Nat} (m : Libm K) (src : RngSource K)
    (marginalZ : MarginalZ K) (options : Options) (highDensityPoint : Mcmc K n k)
    (i_iter : Nat) (s s1 : SamplerState K n k)
    (hinv : s.samples.zSamples.length = s.samples.nSaved)
    (h : mcmcIteration m src marginalZ options highDensityPoint i_iter s = .ok s1) :
    s1.samples.zSamples.length = s1.samples.nSaved := by
  unfold mcmcIteration at h
  split at h
  · exact absurd h (by simp)
  · rename_i s0 a b hprop
    obtain ⟨-, hsamp, -, -⟩ := proposalStep_spec m src marginalZ s s0 a b hprop
    obtain ⟨-, hsamp2, -⟩ := acceptReject_spec m src a b s0
    have hinv2 : (acceptReject m src a b s0).samples.zSamples.length =
        (acceptReject m src a b s0).samples.nSaved := by
      rw [hsamp2, hsamp]
      exact hinv
    unfold storeStep at h
    split at h
    · split at h
      · exact absurd h (by simp)
      · rename_i samples1 hstore
        have hs : samples1.zSamples.length = samples1.nSaved := by
          unfold Samples.storeParameters at hstore
          split at hstore
          · simp only [Except.ok.injEq] at hstore
            subst hstore
            simp only [List.length_append, List.length_singleton, hinv2]
          · exact absurd hstore (by simp)
        split at h
        · obtain ⟨-, h2, -⟩ := margLikStep_spec m src marginalZ highDensityPoint _ s1 h
          rw [margLikStep_zSamples m src marginalZ highDensityPoint _ s1 h, h2]
          exact hs
        · simp only [Except.ok.injEq] at h
          subst h
          exact hs
    · simp only [Except.ok.injEq] at h
      subst h
      exact hinv2

/-- The MCMC loop keeps the number of stored `z` values equal to the write cursor. -/
theorem mcmcLoop_zSamples {n k : Nat} (m : Libm K) (src : RngSource K)
    (marginalZ : MarginalZ K) (options : Options) (highDensityPoint : Mcmc K n k) :
    ∀ (d i_iter : Nat) (s s1 : SamplerState K n k),
      options.iterations + 1 - i_iter = d →
      s.samples.zSamples.length = s.samples.nSaved →
      mcmcLoop m src marginalZ options highDensityPoint i_iter s = .ok s1 →
      s1.samples.zSamples.length = s1.samples.nSaved := by
  intro d
  induction d with
  | zero =>
    intro i_iter s s1 hd hinv h
    rw [mcmcLoop, if_neg (by omega)] at h
    simp only [Except.ok.injEq] at h
    subst h
    exact hinv
  | succ d ih =>
    intro i_iter s s1 hd hinv h
    rw [mcmcLoop, if_pos (by omega)] at h
    split at h
    · exact absurd h (by simp)
    · rename_i s0 hiter
      exact ih (i_iter + 1) s0 s1 (by omega)
        (mcmcIteration_zSamples m src marginalZ options highDensityPoint i_iter s s0 hinv hiter)
        h

/-- The sample store at the start of the MCMC loop is empty. -/
theorem samplerInit_zSamples {n k : Nat} (m : Libm K) (design : AMatrix K n (k + 1))
    (response : AVector K n) (config : GlmModelConfig K n) (options : Options)
    (startZ eps : K) (u : Uninit K k) (uninitCols : Nat → AVector K (k + 1))
    (s0 : SamplerState K n k) (highDensityPoint : Mcmc K n k)
    (h : samplerInit m design response config options startZ eps u uninitCols =
      .ok (s0, highDensityPoint)) :
    s0.samples.zSamples = [] := by
  unfold samplerInit at h
  split at h
  · exact absurd h (by simp)
  · split at h
    · exact absurd h (by simp)
    · simp only [Except.ok.injEq, Prod.mk.injEq] at h
      obtain ⟨h, -⟩ := h
      subst h
      rfl

/-- A failing initialisation of the sampler failed in a Cholesky factorisation, in
the constructor or in the initial IWLS run. -/
theorem samplerInit_error {n k : Nat} (m : Libm K) (design : AMatrix K n (k + 1))
    (response : AVector K n) (config : GlmModelConfig K n) (options : Options)
    (startZ eps : K) (u : Uninit K k) (uninitCols : Nat → AVector K (k + 1)) (e : Failure)
    (h : samplerInit m design response config options startZ eps u uninitCols = .error e) :
    ∀ c, e ≠ Failure.storeBeyondCapacity c := by
  intro c
  unfold samplerInit at h
  split at h
  · rename_i e1 hcreate
    simp only [Except.error.injEq] at h
    subst h
    unfold Iwls.create at hcreate
    simp only [] at hcreate
    split at hcreate
    · split at hcreate
      · simp only [Except.error.injEq] at hcreate
        subst hcreate
        simp
      · exact absurd hcreate (by simp)
    · exact absurd hcreate (by simp)
  · split at h
    · rename_i e1 hstart
      simp only [Except.error.injEq] at h
      subst h
      obtain ⟨info, j, he⟩ := Iwls.startWithNewLinPred_error m _ _ _ _ _ hstart
      rw [he]
      simp
    · exact absurd h (by simp)

/-- The state after the first `j` iterations of a run with `burnin <= iterations`
and `step >= 1`: the loop so far failed at most in a Cholesky factorisation, and the
write cursor is `floor((j - burnin) / step)`, within the capacity. -/
theorem mcmcLoop_within_capacity {n k : Nat} (m : Libm K) (src : RngSource K)
    (marginalZ : MarginalZ K) (highDensityPoint : Mcmc K n k)
    (estimateMargLik isNullModel useFixedZ : Bool) (iterations burnin step : Nat)
    (hb : burnin ≤ iterations) (hstep : 1 ≤ step) (hN : iterations + 1 < posIntModulus)
    (s0 : SamplerState K n k) (hsaved : s0.samples.nSaved = 0)
    (hcap : s0.samples.nSamples =
      (Options.create estimateMargLik isNullModel useFixedZ iterations burnin step).nSamples)
    (j : Nat) (hj : j ≤ iterations) :
    (∀ e, mcmcLoop m src marginalZ
        { Options.create estimateMargLik isNullModel useFixedZ iterations burnin step with
          iterations := j } highDensityPoint 1 s0 = .error e →
      ∃ info r, e = Failure.cholesky info r) ∧
    (∀ s, mcmcLoop m src marginalZ
        { Options.create estimateMargLik isNullModel useFixedZ iterations burnin step with
          iterations := j } highDensityPoint 1 s0 = .ok s →
      s.samples.nSamples = ⌈((iterations - burnin : Nat) : ℚ) / (step : ℚ)⌉₊ ∧
      s.samples.nSaved = (j - burnin) / step ∧
      s.samples.nSaved ≤ s.samples.nSamples ∧
      (j < iterations →
        isRecorded (Options.create estimateMargLik isNullModel useFixedZ iterations burnin
          step) (j + 1) = true →
        s.samples.nSaved < s.samples.nSamples)) := by
  obtain ⟨hval, hfloor⟩ := Options.create_nSamples estimateMargLik isNullModel useFixedZ
    iterations burnin step hb (by omega) hstep
  have hcount : recordedCount
      { Options.create estimateMargLik isNullModel useFixedZ iterations burnin step with
        iterations := j } 1 = (j - burnin) / step :=
    recordedCount_one _
  have hmono : (j - burnin) / step ≤ (iterations - burnin) / step :=
    Nat.div_le_div_right (by omega)
  refine ⟨?_, ?_⟩
  · intro e h
    exact mcmcLoop_error m src marginalZ _ highDensityPoint _ 1 s0 e rfl
      (by rw [hsaved, hcap, hcount]; omega) h
  · intro s h
    obtain ⟨h1, h2⟩ := mcmcLoop_nSaved m src marginalZ _ highDensityPoint _ 1 s0 s rfl h
    rw [hsaved, hcount, zero_add] at h1
    rw [hcap] at h2
    refine ⟨by rw [h2, hval], h1, by rw [h1, h2]; omega, ?_⟩
    intro hlt hrec
    simp only [isRecorded, Options.create, Bool.and_eq_true, decide_eq_true_eq] at hrec
    obtain ⟨hgt, hmod⟩ := hrec
    have hsub : j + 1 - burnin = (j - burnin) + 1 := by omega
    have hnext : (j + 1 - burnin) / step = (j - burnin) / step + 1 := by
      rw [hsub, Nat.succ_div, if_pos]
      rw [Nat.dvd_iff_mod_eq_zero, ← hsub]
      exact hmod
    have hmono2 : (j + 1 - burnin) / step ≤ (iterations - burnin) / step :=
      Nat.div_le_div_right (by omega)
    rw [h1, h2]
    omega

/-- C14. For `iterations >= burnin` and `step >= 1` (and `iterations` below the largest
`PosInt`), at every point of the sampler run the number of `storeParameters` calls made
so far, which is the write cursor `nSaved`, is at most the capacity
`nSamples = ceil((iterations - burnin)/step)`; `nSaved < nSamples` holds whenever
`storeParameters` is about to write a column; and the beyond-capacity error is never
reached, neither in the first `j` iterations nor by `cpp_sampleGlm` as a whole. -/
theorem storeParameters_within_capacity {n k : Nat} (m : Libm K) (src : RngSource K)
    (marginalZ : MarginalZ K) (design : AMatrix K n (k + 1)) (response : AVector K n)
    (config : GlmModelConfig K n) (startZ eps : K) (u : Uninit K k)
    (uninitCols : Nat → AVector K (k + 1))
    (estimateMargLik isNullModel useFixedZ : Bool) (iterations burnin step : Nat)
    (hb : burnin ≤ iterations) (hstep : 1 ≤ step) (hN : iterations + 1 < posIntModulus) :
    (∀ e, cpp_sampleGlm m src marginalZ design response config
        (Options.create estimateMargLik isNullModel useFixedZ iterations burnin step)
        startZ eps u uninitCols = .error e →
      ∀ c, e ≠ Failure.storeBeyondCapacity c) ∧
    (∀ (s0 : SamplerState K n k) (highDensityPoint : Mcmc K n k),
      samplerInit m design response config
          (Options.create estimateMargLik isNullModel useFixedZ iterations burnin step)
          startZ eps u uninitCols = .ok (s0, highDensityPoint) →
      ∀ j, j ≤ iterations →
        (∀ e, mcmcLoop m src marginalZ
            { Options.create estimateMargLik isNullModel useFixedZ iterations burnin step with
              iterations := j } highDensityPoint 1 s0 = .error e →
          ∀ c, e ≠ Failure.storeBeyondCapacity c) ∧
        (∀ s, mcmcLoop m src marginalZ
            { Options.create estimateMargLik isNullModel useFixedZ iterations burnin step with
              iterations := j } highDensityPoint 1 s0 = .ok s →
          s.samples.nSamples = ⌈((iterations - burnin : Nat) : ℚ) / (step : ℚ)⌉₊ ∧
          s.samples.nSaved ≤ s.samples.nSamples ∧
          (j < iterations →
            isRecorded (Options.create estimateMargLik isNullModel useFixedZ iterations
              burnin step) (j + 1) = true →
            s.samples.nSaved < s.samples.nSamples))) := by
  have hpoint : ∀ (s0 : SamplerState K n k) (highDensityPoint : Mcmc K n k),
      samplerInit m design response config
          (Options.create estimateMargLik isNullModel useFixedZ iterations burnin step)
          startZ eps u uninitCols = .ok (s0, highDensityPoint) →
      ∀ j, j ≤ iterations → _ :=
    fun s0 hdp hinit j hj =>
      mcmcLoop_within_capacity m src marginalZ hdp estimateMargLik isNullModel useFixedZ
        iterations burnin step hb hstep hN s0
        (samplerInit_spec m design response config _ startZ eps u uninitCols s0 hdp hinit).1
        (samplerInit_spec m design response config _ startZ eps u uninitCols s0 hdp
          hinit).2.1 j hj
  refine ⟨?_, ?_⟩
  · intro e h c
    unfold cpp_sampleGlm at h
    split at h
    · rename_i e1 hinit
      simp only [Except.error.injEq] at h
      subst h
      exact samplerInit_error m design response config _ startZ eps u uninitCols e1 hinit c
    · rename_i s0 hdp hinit
      split at h
      · rename_i e1 hloop
        simp only [Except.error.injEq] at h
        subst h
        obtain ⟨info, r, he⟩ := (hpoint s0 hdp hinit iterations (le_refl _)).1 e1 hloop
        rw [he]
        simp
      · exact absurd h (by simp)
  · intro s0 hdp hinit j hj
    obtain ⟨h1, h2⟩ := hpoint s0 hdp hinit j hj
    refine ⟨?_, ?_⟩
    · intro e he c
      obtain ⟨info, r, hc⟩ := h1 e he
      rw [hc]
      simp
    · intro s hs
      obtain ⟨h3, -, h5, h6⟩ := h2 s hs
      exact ⟨h3, h5, h6⟩

/-- C14 on the scenario with `iterations = 10`, `burnin = 0`, `step = 3`: after the
first 7 iterations the write cursor is within the capacity. -/
theorem storeParameters_within_capacity_witness :
    ∃ (s0 : SamplerState ℝ 4 0) (highDensityPoint : Mcmc ℝ 4 0) (s : SamplerState ℝ 4 0),
      samplerInit ⟨Real.sqrt, Real.exp, Real.log, Real.log (Real.sqrt (2 * Real.pi))⟩
          scenarioDesign scenarioResponse
          (scenarioConfig ⟨Real.sqrt, Real.exp, Real.log, Real.log (Real.sqrt (2 * Real.pi))⟩)
          (Options.create true true false 10 0 3) 0 (1 / 100) (zeroUninit 0) (fun _ _ => 0) =
        .ok (s0, highDensityPoint) ∧
      mcmcLoop ⟨Real.sqrt, Real.exp, Real.log, Real.log (Real.sqrt (2 * Real.pi))⟩
          zeroSource flatMarginalZ
          { Options.create true true false 10 0 3 with iterations := 7 } highDensityPoint 1
          s0 = .ok s ∧
      s.samples.nSaved ≤ s.samples.nSamples := by
  obtain ⟨s0, hdp, r, hinit, hs0⟩ := scenario_samplerInit_ok Real.log
    (Real.log (Real.sqrt (2 * Real.pi))) (Options.create true true false 10 0 3) 0 (1 / 100)
    (zeroUninit 0) (fun _ _ => 0)
  obtain ⟨h1, h2, -, -, -⟩ := samplerInit_spec _ _ _ _ _ _ _ _ _ s0 hdp hinit
  have hcount : recordedCount { Options.create true true false 10 0 3 with iterations := 7 }
      1 = 2 := by
    rw [recordedCount_one]
    simp [Options.create]
  obtain ⟨s, hloop⟩ := scenario_mcmcLoop_ok Real.log (Real.log (Real.sqrt (2 * Real.pi)))
    _ (1 / 100) _ zeroSource flatMarginalZ
    { Options.create true true false 10 0 3 with iterations := 7 } hdp _ 1 s0 r rfl hs0
    (by rw [h1, h2, hcount, Options.create_nSamples_10_0_3]; norm_num)
  exact ⟨s0, hdp, s, hinit, hloop,
    (((storeParameters_within_capacity _ zeroSource flatMarginalZ _ _ _ _ _ _ _ true true false
      10 0 3 (by norm_num) (by norm_num) (by norm_num [posIntModulus])).2 s0 hdp hinit 7
      (by norm_num)).2 s hloop).2.1⟩

/-! ## The chain state -/

/-- The accept/reject step leaves `old` and `now` equal: both are the proposed state
on acceptance and the previous `old` on rejection, and the accepted-count grows by one
exactly on acceptance. -/
theorem acceptReject_chain {n k : Nat} (m : Libm K) (src : RngSource K) (a b : K)
    (s : SamplerState K n k) :
    (acceptReject m src a b s).old = (acceptReject m src a b s).now ∧
      ((unif src s.rng).1 < m.exp (a + b) →
        (acceptReject m src a b s).now = s.now ∧
          (acceptReject m src a b s).nAccepted = s.nAccepted + 1) ∧
      (¬ (unif src s.rng).1 < m.exp (a + b) →
        (acceptReject m src a b s).now = s.old ∧
          (acceptReject m src a b s).nAccepted = s.nAccepted) := by
  unfold acceptReject
  simp only []
  by_cases h : (unif src s.rng).1 < m.exp (a + b)
  · simp only [h, if_true, not_true_eq_false, true_implies, false_implies, and_self, and_true]
  · simp only [h, if_false, not_false_eq_true, true_implies, false_implies, and_self, true_and]

/-- The marginal likelihood terms leave `now`, `old` and the accepted-count alone. -/
theorem margLikStep_chain {n k : Nat} (m : Libm K) (src : RngSource K)
    (marginalZ : MarginalZ K) (highDensityPoint : Mcmc K n k) (s s1 : SamplerState K n k)
    (h : margLikStep m src marginalZ highDensityPoint s = .ok s1) :
    s1.now = s.now ∧ s1.old = s.old ∧ s1.nAccepted = s.nAccepted := by
  unfold margLikStep at h
  simp only [] at h
  split at h
  · exact absurd h (by simp)
  · split at h
    · exact absurd h (by simp)
    · split at h
      · exact absurd h (by simp)
      · split at h
        · exact absurd h (by simp)
        · simp only [Except.ok.injEq] at h
          subst h
          exact ⟨rfl, rfl, rfl⟩

/-- The storing part of an iteration leaves `now`, `old` and the accepted-count
alone. -/
theorem storeStep_chain {n k : Nat} (m : Libm K) (src : RngSource K)
    (marginalZ : MarginalZ K) (options : Options) (highDensityPoint : Mcmc K n k)
    (i_iter : Nat) (s s1 : SamplerState K n k)
    (h : storeStep m src marginalZ options highDensityPoint i_iter s = .ok s1) :
    s1.now = s.now ∧ s1.old = s.old ∧ s1.nAccepted = s.nAccepted := by
  unfold storeStep at h
  split at h
  · split at h
    · exact absurd h (by simp)
    · split at h
      · obtain ⟨h1, h2, h3⟩ := margLikStep_chain m src marginalZ highDensityPoint _ s1 h
        exact ⟨h1, h2, h3⟩
      · simp only [Except.ok.injEq] at h
        subst h
        exact ⟨rfl, rfl, rfl⟩
  · simp only [Except.ok.injEq] at h
    subst h
    exact ⟨rfl, rfl, rfl⟩

/-- What an iteration does to the chain state: it ends with `old = now`, equal to the
proposed state on acceptance and to the previous `old` on rejection. -/
theorem mcmcIteration_chain {n k : Nat} (m : Libm K) (src : RngSource K)
    (marginalZ : MarginalZ K) (options : Options) (highDensityPoint : Mcmc K n k)
    (i_iter : Nat) (s s1 : SamplerState K n k)
    (h : mcmcIteration m src marginalZ options highDensityPoint i_iter s = .ok s1) :
    ∃ (sp : SamplerState K n k) (a b : K),
      proposalStep m src marginalZ s = .ok (sp, a, b) ∧
      s1.old = s1.now ∧
      ((unif src sp.rng).1 < m.exp (a + b) →
        s1.now = sp.now ∧ s1.nAccepted = s.nAccepted + 1) ∧
      (¬ (unif src sp.rng).1 < m.exp (a + b) →
        s1.now = s.old ∧ s1.nAccepted = s.nAccepted) := by
  unfold mcmcIteration at h
  split at h
  · exact absurd h (by simp)
  · rename_i sp a b hprop
    obtain ⟨-, -, hacc, hold⟩ := proposalStep_spec m src marginalZ s sp a b hprop
    obtain ⟨h1, h2, h3⟩ := acceptReject_chain m src a b sp
    obtain ⟨h4, h5, h6⟩ := storeStep_chain m src marginalZ options highDensityPoint i_iter _ s1 h
    refine ⟨sp, a, b, hprop, by rw [h4, h5]; exact h1, ?_, ?_⟩
    · intro hlt
      obtain ⟨h7, h8⟩ := h2 hlt
      exact ⟨by rw [h4, h7], by rw [h6, h8, hacc]⟩
    · intro hge
      obtain ⟨h7, h8⟩ := h3 hge
      exact ⟨by rw [h4, h7, hold], by rw [h6, h8, hacc]⟩

/-- The MCMC loop keeps `old = now`. -/
theorem mcmcLoop_chain {n k : Nat} (m : Libm K) (src : RngSource K)
    (marginalZ : MarginalZ K) (options : Options) (highDensityPoint : Mcmc K n k) :
    ∀ (d i_iter : Nat) (s s1 : SamplerState K n k),
      options.iterations + 1 - i_iter = d → s.old = s.now →
      mcmcLoop m src marginalZ options highDensityPoint i_iter s = .ok s1 →
      s1.old = s1.now := by
  intro d
  induction d with
  | zero =>
    intro i_iter s s1 hd hinv h
    rw [mcmcLoop, if_neg (by omega)] at h
    simp only [Except.ok.injEq] at h
    subst h
    exact hinv
  | succ d ih =>
    intro i_iter s s1 hd hinv h
    rw [mcmcLoop, if_pos (by omega)] at h
    split at h
    · exact absurd h (by simp)
    · rename_i s0 hiter
      obtain ⟨_, _, _, -, heq, -, -⟩ :=
        mcmcIteration_chain m src marginalZ options highDensityPoint i_iter s s0 hiter
      exact ih (i_iter + 1) s0 s1 (by omega) heq h

/-- The forward IWLS step of the proposal part, which the code starts from
`now.sample.coefs`: its results are the proposal info of the proposed state. -/
theorem proposalStep_forward {n k : Nat} (m : Libm K) (src : RngSource K)
    (marginalZ : MarginalZ K) (s sp : SamplerState K n k) (a b : K)
    (h : proposalStep m src marginalZ s = .ok (sp, a, b)) :
    ∃ (ret : Nat) (iw : Iwls K n k),
      s.iwlsObject.startWithNewCoefs m 1 (m.exp (drawZ src s.rng).1) s.now.sample.coefs =
        .ok (ret, iw) ∧
      sp.now.proposalInfo = iw.results ∧ sp.now.sample.z = (drawZ src s.rng).1 := by
  unfold proposalStep at h
  simp only [] at h
  split at h
  · exact absurd h (by simp)
  · rename_i ret iw hfwd
    split at h
    · exact absurd h (by simp)
    · simp only [Except.ok.injEq, Prod.mk.injEq] at h
      obtain ⟨h1, -, -⟩ := h
      subst h1
      exact ⟨ret, iw, hfwd, rfl, rfl⟩

/-- C19. Chain-state invariant of the sampler loop.  At initialisation and in the state
`s` reached after any number `j` of iterations the slots `old` and `now` are equal
(sample, `logUnPosterior` and `proposalInfo`).  In the next iteration the forward IWLS
step, which the code starts from `now.sample.coefs`, therefore starts from
`old.sample.coefs`; after its accept/reject step `old` and `now` are equal again, to the
proposed state on acceptance and to the previous `old` on rejection, and the
accepted-count has grown by exactly one on acceptance and not at all on rejection. -/
theorem chain_state_invariant {n k : Nat} (m : Libm K) (src : RngSource K)
    (marginalZ : MarginalZ K) (design : AMatrix K n (k + 1)) (response : AVector K n)
    (config : GlmModelConfig K n) (options : Options) (startZ eps : K) (u : Uninit K k)
    (uninitCols : Nat → AVector K (k + 1)) (s0 : SamplerState K n k)
    (highDensityPoint : Mcmc K n k) (j : Nat) (s : SamplerState K n k)
    (hinit : samplerInit m design response config options startZ eps u uninitCols =
      .ok (s0, highDensityPoint))
    (hloop : mcmcLoop m src marginalZ { options with iterations := j } highDensityPoint 1
      s0 = .ok s) :
    s0.old = s0.now ∧ s.old = s.now ∧
    (∀ (sp : SamplerState K n k) (a b : K),
      proposalStep m src marginalZ s = .ok (sp, a, b) →
      (∃ (ret : Nat) (iw : Iwls K n k),
        s.iwlsObject.startWithNewCoefs m 1 (m.exp (drawZ src s.rng).1) s.old.sample.coefs =
          .ok (ret, iw) ∧
        sp.now.proposalInfo = iw.results) ∧
      (acceptReject m src a b sp).old = (acceptReject m src a b sp).now ∧
      ((unif src sp.rng).1 < m.exp (a + b) →
        (acceptReject m src a b sp).now = sp.now ∧
          (acceptReject m src a b sp).nAccepted = s.nAccepted + 1) ∧
      (¬ (unif src sp.rng).1 < m.exp (a + b) →
        (acceptReject m src a b sp).now = s.old ∧
          (acceptReject m src a b sp).nAccepted = s.nAccepted)) ∧
    (∀ (s1 : SamplerState K n k),
      mcmcIteration m src marginalZ options highDensityPoint (j + 1) s = .ok s1 →
      s1.old = s1.now) := by
  have h0 : s0.old = s0.now :=
    (samplerInit_spec m design response config options startZ eps u uninitCols s0
      highDensityPoint hinit).2.2.2.2
  have hs : s.old = s.now :=
    mcmcLoop_chain m src marginalZ _ highDensityPoint _ 1 s0 s rfl h0 hloop
  refine ⟨h0, hs, ?_, ?_⟩
  · intro sp a b hprop
    obtain ⟨ret, iw, hfwd, hinfo, -⟩ := proposalStep_forward m src marginalZ s sp a b hprop
    obtain ⟨-, -, hacc, hold⟩ := proposalStep_spec m src marginalZ s sp a b hprop
    obtain ⟨h1, h2, h3⟩ := acceptReject_chain m src a b sp
    refine ⟨⟨ret, iw, by rw [hs]; exact hfwd, hinfo⟩, h1, ?_, ?_⟩
    · intro hlt
      obtain ⟨h7, h8⟩ := h2 hlt
      exact ⟨h7, by rw [h8, hacc]⟩
    · intro hge
      obtain ⟨h7, h8⟩ := h3 hge
      exact ⟨by rw [h7, hold], by rw [h8, hacc]⟩
  · intro s1 hiter
    obtain ⟨_, _, _, -, heq, -, -⟩ :=
      mcmcIteration_chain m src marginalZ options highDensityPoint (j + 1) s s1 hiter
    exact heq

/-- C19 on the scenario, in the state reached after 2 iterations. -/
theorem chain_state_invariant_witness :
    ∃ (s0 : SamplerState ℝ 4 0) (highDensityPoint : Mcmc ℝ 4 0) (s : SamplerState ℝ 4 0),
      samplerInit ⟨Real.sqrt, Real.exp, Real.log, Real.log (Real.sqrt (2 * Real.pi))⟩
          scenarioDesign scenarioResponse
          (scenarioConfig ⟨Real.sqrt, Real.exp, Real.log, Real.log (Real.sqrt (2 * Real.pi))⟩)
          (Options.create true true false 10 0 3) 0 (1 / 100) (zeroUninit 0) (fun _ _ => 0) =
        .ok (s0, highDensityPoint) ∧
      mcmcLoop ⟨Real.sqrt, Real.exp, Real.log, Real.log (Real.sqrt (2 * Real.pi))⟩
          zeroSource flatMarginalZ
          { Options.create true true false 10 0 3 with iterations := 2 } highDensityPoint 1
          s0 = .ok s ∧
      s0.old = s0.now ∧ s.old = s.now := by
  obtain ⟨s0, hdp, r, hinit, hs0⟩ := scenario_samplerInit_ok Real.log
    (Real.log (Real.sqrt (2 * Real.pi))) (Options.create true true false 10 0 3) 0 (1 / 100)
    (zeroUninit 0) (fun _ _ => 0)
  obtain ⟨h1, h2, -, -, -⟩ := samplerInit_spec _ _ _ _ _ _ _ _ _ s0 hdp hinit
  have hcount : recordedCount { Options.create true true false 10 0 3 with iterations := 2 }
      1 = 0 := by
    rw [recordedCount_one]
    simp [Options.create]
  obtain ⟨s, hloop⟩ := scenario_mcmcLoop_ok Real.log (Real.log (Real.sqrt (2 * Real.pi)))
    _ (1 / 100) _ zeroSource flatMarginalZ
    { Options.create true true false 10 0 3 with iterations := 2 } hdp _ 1 s0 r rfl hs0
    (by rw [h1, h2, hcount, Options.create_nSamples_10_0_3]; norm_num)
  have h := chain_state_invariant _ zeroSource flatMarginalZ _ _ _ _ _ _ _ _ s0 hdp 2 s
    hinit hloop
  exact ⟨s0, hdp, s, hinit, hloop, h.1, h.2.1⟩

/-! ## What the sample store holds -/

/-- The marginal likelihood terms leave the stored coefficients alone. -/
theorem margLikStep_coefsSamples {n k : Nat} (m : Libm K) (src : RngSource K)
    (marginalZ : MarginalZ K) (highDensityPoint : Mcmc K n k) (s s1 : SamplerState K n k)
    (h : margLikStep m src marginalZ highDensityPoint s = .ok s1) :
    s1.samples.coefsSamples = s.samples.coefsSamples := by
  unfold margLikStep at h
  simp only [] at h
  split at h
  · exact absurd h (by simp)
  · split at h
    · exact absurd h (by simp)
    · split at h
      · exact absurd h (by simp)
      · split at h
        · exact absurd h (by simp)
        · simp only [Except.ok.injEq] at h
          subst h
          rfl

/-- The storing part of an iteration: on a recorded iteration the sample of `now` goes
into the column at the write cursor and its `z` to the end of the stored `z` values; on
any other iteration the store is left alone. -/
theorem storeStep_stored {n k : Nat} (m : Libm K) (src : RngSource K)
    (marginalZ : MarginalZ K) (options : Options) (highDensityPoint : Mcmc K n k)
    (i_iter : Nat) (s s1 : SamplerState K n k)
    (h : storeStep m src marginalZ options highDensityPoint i_iter s = .ok s1) :
    (isRecorded options i_iter = true →
      s1.samples.coefsSamples =
        Function.update s.samples.coefsSamples s.samples.nSaved s.now.sample.coefs ∧
      s1.samples.zSamples = s.samples.zSamples ++ [s.now.sample.z]) ∧
    (isRecorded options i_iter = false →
      s1.samples.coefsSamples = s.samples.coefsSamples ∧
      s1.samples.zSamples = s.samples.zSamples) := by
  unfold storeStep at h
  split at h
  · rename_i hrec
    split at h
    · exact absurd h (by simp)
    · rename_i samples1 hstore
      have hsp : samples1.coefsSamples =
            Function.update s.samples.coefsSamples s.samples.nSaved s.now.sample.coefs ∧
          samples1.zSamples = s.samples.zSamples ++ [s.now.sample.z] := by
        unfold Samples.storeParameters at hstore
        split at hstore
        · simp only [Except.ok.injEq] at hstore
          subst hstore
          exact ⟨rfl, rfl⟩
        · exact absurd hstore (by simp)
      obtain ⟨hc, hz⟩ := hsp
      refine ⟨fun _ => ?_, fun hno => absurd hrec (by simp [hno])⟩
      split at h
      · rw [margLikStep_coefsSamples m src marginalZ highDensityPoint _ s1 h,
          margLikStep_zSamples m src marginalZ highDensityPoint _ s1 h]
        exact ⟨hc, hz⟩
      · simp only [Except.ok.injEq] at h
        subst h
        exact ⟨hc, hz⟩
  · rename_i hrec
    simp only [Except.ok.injEq] at h
    subst h
    exact ⟨fun hyes => absurd hyes hrec, fun _ => ⟨rfl, rfl⟩⟩

/-- What an iteration stores: on a recorded iteration the sample `now` holds at the end
of the iteration, on any other iteration nothing. -/
theorem mcmcIteration_stored {n k : Nat} (m : Libm K) (src : RngSource K)
    (marginalZ : MarginalZ K) (options : Options) (highDensityPoint : Mcmc K n k)
    (i_iter : Nat) (s s1 : SamplerState K n k)
    (h : mcmcIteration m src marginalZ options highDensityPoint i_iter s = .ok s1) :
    (isRecorded options i_iter = true →
      s1.samples.coefsSamples =
        Function.update s.samples.coefsSamples s.samples.nSaved s1.now.sample.coefs ∧
      s1.samples.zSamples = s.samples.zSamples ++ [s1.now.sample.z]) ∧
    (isRecorded options i_iter = false →
      s1.samples.coefsSamples = s.samples.coefsSamples ∧
      s1.samples.zSamples = s.samples.zSamples) := by
  unfold mcmcIteration at h
  split at h
  · exact absurd h (by simp)
  · rename_i sp a b hprop
    obtain ⟨-, hp, -, -⟩ := proposalStep_spec m src marginalZ s sp a b hprop
    obtain ⟨-, ha, -⟩ := acceptReject_spec m src a b sp
    obtain ⟨hnow, -, -⟩ :=
      storeStep_chain m src marginalZ options highDensityPoint i_iter _ s1 h
    obtain ⟨h1, h2⟩ := storeStep_stored m src marginalZ options highDensityPoint i_iter _ s1 h
    rw [ha, hp] at h1 h2
    rw [← hnow] at h1
    exact ⟨h1, h2⟩

/-- An iteration leaves the columns before the write cursor alone and only appends to
the stored `z` values. -/
theorem mcmcIteration_frame {n k : Nat} (m : Libm K) (src : RngSource K)
    (marginalZ : MarginalZ K) (options : Options) (highDensityPoint : Mcmc K n k)
    (i_iter : Nat) (s s1 : SamplerState K n k)
    (h : mcmcIteration m src marginalZ options highDensityPoint i_iter s = .ok s1) :
    (∀ c, c < s.samples.nSaved → s1.samples.coefsSamples c = s.samples.coefsSamples c) ∧
      ∃ l, s1.samples.zSamples = s.samples.zSamples ++ l := by
  obtain ⟨h1, h2⟩ := mcmcIteration_stored m src marginalZ options highDensityPoint i_iter s s1 h
  cases hrec : isRecorded options i_iter with
  | true =>
    obtain ⟨hc, hz⟩ := h1 hrec
    refine ⟨fun c hlt => ?_, ⟨_, hz⟩⟩
    rw [hc, Function.update_noteq (by omega)]
  | false =>
    obtain ⟨hc, hz⟩ := h2 hrec
    exact ⟨fun c _ => by rw [hc], ⟨[], by rw [hz, List.append_nil]⟩⟩

/-- The MCMC loop leaves the columns before the write cursor alone and only appends to
the stored `z` values. -/
theorem mcmcLoop_frame {n k : Nat} (m : Libm K) (src : RngSource K)
    (marginalZ : MarginalZ K) (options : Options) (highDensityPoint : Mcmc K n k) :
    ∀ (d i_iter : Nat) (s s1 : SamplerState K n k),
      options.iterations + 1 - i_iter = d →
      mcmcLoop m src marginalZ options highDensityPoint i_iter s = .ok s1 →
      (∀ c, c < s.samples.nSaved → s1.samples.coefsSamples c = s.samples.coefsSamples c) ∧
        ∃ l, s1.samples.zSamples = s.samples.zSamples ++ l := by
  intro d
  induction d with
  | zero =>
    intro i_iter s s1 hd h
    rw [mcmcLoop, if_neg (by omega)] at h
    simp only [Except.ok.injEq] at h
    subst h
    exact ⟨fun _ _ => rfl, ⟨[], by rw [List.append_nil]⟩⟩
  | succ d ih =>
    intro i_iter s s1 hd h
    rw [mcmcLoop, if_pos (by omega)] at h
    split at h
    · exact absurd h (by simp)
    · rename_i s0 hiter
      obtain ⟨hc0, l0, hz0⟩ :=
        mcmcIteration_frame m src marginalZ options highDensityPoint i_iter s s0 hiter
      obtain ⟨hn, -⟩ :=
        mcmcIteration_nSaved m src marginalZ options highDensityPoint i_iter s s0 hiter
      obtain ⟨hc1, l1, hz1⟩ := ih (i_iter + 1) s0 s1 (by omega) h
      refine ⟨fun c hlt => ?_, ⟨l0 ++ l1, ?_⟩⟩
      · rw [hc1 c (by rw [hn]; omega), hc0 c hlt]
      · rw [hz1, hz0, List.append_assoc]

/-- A loop whose last iteration is recorded ends with the sample `now` in the column
before the write cursor and its `z` as the stored `z` value of that index. -/
theorem mcmcLoop_last_stored {n k : Nat} (m : Libm K) (src : RngSource K)
    (marginalZ : MarginalZ K) (options : Options) (highDensityPoint : Mcmc K n k)
    (hrec : isRecorded options options.iterations = true) :
    ∀ (d i_iter : Nat) (s s1 : SamplerState K n k),
      options.iterations + 1 - i_iter = d → i_iter ≤ options.iterations →
      s.samples.zSamples.length = s.samples.nSaved →
      mcmcLoop m src marginalZ options highDensityPoint i_iter s = .ok s1 →
      1 ≤ s1.samples.nSaved ∧
        s1.samples.coefsSamples (s1.samples.nSaved - 1) = s1.now.sample.coefs ∧
        s1.samples.zSamples[s1.samples.nSaved - 1]? = some s1.now.sample.z := by
  intro d
  induction d with
  | zero =>
    intro i_iter s s1 hd hle
    omega
  | succ d ih =>
    intro i_iter s s1 hd hle hinv h
    rw [mcmcLoop, if_pos hle] at h
    split at h
    · exact absurd h (by simp)
    · rename_i s0 hiter
      have hinv0 := mcmcIteration_zSamples m src marginalZ options highDensityPoint i_iter
        s s0 hinv hiter
      by_cases hlast : i_iter = options.iterations
      · rw [mcmcLoop, if_neg (by omega)] at h
        simp only [Except.ok.injEq] at h
        subst h
        obtain ⟨hn, -⟩ :=
          mcmcIteration_nSaved m src marginalZ options highDensityPoint i_iter s s0 hiter
        obtain ⟨hc, hz⟩ :=
          (mcmcIteration_stored m src marginalZ options highDensityPoint i_iter s s0 hiter).1
            (by rw [hlast]; exact hrec)
        rw [hlast, hrec] at hn
        simp only [if_true] at hn
        have hidx : s0.samples.nSaved - 1 = s.samples.nSaved := by omega
        refine ⟨by omega, ?_, ?_⟩
        · rw [hidx, hc, Function.update_same]
        · rw [hidx, hz, ← hinv]
          simp
      · exact ih (i_iter + 1) s0 s1 (by omega) (by omega) hinv0 h

/-- The sample of a recorded iteration `J` in the store at the end of the run: the
sample `now` holds after iteration `J` is in the column whose index is the number of
recorded iterations before `J`, and its `z` is the stored `z` value of that index. -/
theorem mcmcLoop_stored_at {n k : Nat} (m : Libm K) (src : RngSource K)
    (marginalZ : MarginalZ K) (options : Options) (highDensityPoint : Mcmc K n k)
    (s0 sN : SamplerState K n k) (J : Nat) (hJ1 : 1 ≤ J) (hJ : J ≤ options.iterations)
    (hrec : isRecorded options J = true)
    (hz0 : s0.samples.zSamples = []) (hn0 : s0.samples.nSaved = 0)
    (hloop : mcmcLoop m src marginalZ options highDensityPoint 1 s0 = .ok sN) :
    ∃ sJ : SamplerState K n k,
      mcmcLoop m src marginalZ { options with iterations := J } highDensityPoint 1 s0 =
        .ok sJ ∧
      sJ.samples.nSaved = (J - options.burnin) / options.step ∧
      1 ≤ sJ.samples.nSaved ∧
      sN.samples.coefsSamples (sJ.samples.nSaved - 1) = sJ.now.sample.coefs ∧
      sN.samples.zSamples[sJ.samples.nSaved - 1]? = some sJ.now.sample.z := by
  have hc := mcmcLoop_continue m src marginalZ options highDensityPoint J hJ J 1 s0
    (by omega) (by omega)
  rw [hc] at hloop
  cases htr : mcmcLoop m src marginalZ { options with iterations := J } highDensityPoint 1
      s0 with
  | error e =>
    rw [htr] at hloop
    exact absurd hloop (by simp)
  | ok sJ =>
    rw [htr] at hloop
    simp only [] at hloop
    have hinv : s0.samples.zSamples.length = s0.samples.nSaved := by
      rw [hz0, hn0]
      rfl
    obtain ⟨h1, h2, h3⟩ := mcmcLoop_last_stored m src marginalZ
      { options with iterations := J } highDensityPoint hrec J 1 s0 sJ (by simp)
      hJ1 hinv htr
    obtain ⟨hsaved, -⟩ := mcmcLoop_nSaved m src marginalZ { options with iterations := J }
      highDensityPoint _ 1 s0 sJ rfl htr
    rw [hn0, zero_add, recordedCount_one] at hsaved
    obtain ⟨hf1, l, hf2⟩ := mcmcLoop_frame m src marginalZ options highDensityPoint _ (J + 1)
      sJ sN rfl hloop
    have hlen := mcmcLoop_zSamples m src marginalZ { options with iterations := J }
      highDensityPoint _ 1 s0 sJ rfl hinv htr
    refine ⟨sJ, rfl, hsaved, h1, ?_, ?_⟩
    · rw [hf1 _ (by omega), h2]
    · rw [hf2, List.getElem?_append_left (by rw [hlen]; omega), h3]

/-- A run of `cpp_sampleGlm` that does not fail is an initialisation followed by the
MCMC loop; the sample store it returns is the one the loop ends with. -/
theorem cpp_sampleGlm_run {n k : Nat} (m : Libm K) (src : RngSource K)
    (marginalZ : MarginalZ K) (design : AMatrix K n (k + 1)) (response : AVector K n)
    (config : GlmModelConfig K n) (options : Options) (startZ eps : K) (u : Uninit K k)
    (uninitCols : Nat → AVector K (k + 1)) (res : SampleGlmResult K k)
    (h : cpp_sampleGlm m src marginalZ design response config options startZ eps u
      uninitCols = .ok res) :
    ∃ (s0 : SamplerState K n k) (highDensityPoint : Mcmc K n k) (sN : SamplerState K n k),
      samplerInit m design response config options startZ eps u uninitCols =
        .ok (s0, highDensityPoint) ∧
      mcmcLoop m src marginalZ options highDensityPoint 1 s0 = .ok sN ∧
      res.samples = sN.samples ∧ res.nAccepted = sN.nAccepted := by
  unfold cpp_sampleGlm at h
  split at h
  · exact absurd h (by simp)
  · rename_i s0 hdp hinit
    split at h
    · exact absurd h (by simp)
    · rename_i s1 hloop
      simp only [Except.ok.injEq] at h
      subst h
      exact ⟨s0, hdp, s1, hinit, hloop, rfl, rfl⟩

/-- C13. For every `N` (below the largest `PosInt`), a sampler run with
`iterations = N`, `burnin = 0` and `step = 1` that does not fail stores exactly `N`
samples, one per iteration: the write cursor and the number of stored `z` values are
`N`, which is the capacity `nSamples` of the sample store; every iteration `1, ..., N`
is recorded; and for every `j < N` column `j` of the stored coefficients and the stored
`z` value of index `j` are the coefficients and the `z` of the sample `now` holds after
the first `j + 1` iterations. -/
theorem cpp_sampleGlm_stores_all {n k : Nat} (m : Libm K) (src : RngSource K)
    (marginalZ : MarginalZ K) (design : AMatrix K n (k + 1)) (response : AVector K n)
    (config : GlmModelConfig K n) (startZ eps : K) (u : Uninit K k)
    (uninitCols : Nat → AVector K (k + 1))
    (estimateMargLik isNullModel useFixedZ : Bool) (N : Nat) (res : SampleGlmResult K k)
    (hN : N + 1 < posIntModulus)
    (hrun : cpp_sampleGlm m src marginalZ design response config
        (Options.create estimateMargLik isNullModel useFixedZ N 0 1)
        startZ eps u uninitCols = .ok res) :
    res.samples.nSaved = N ∧ res.samples.zSamples.length = N ∧ res.samples.nSamples = N ∧
      (Options.create estimateMargLik isNullModel useFixedZ N 0 1).nSamples = N ∧
      (∀ i, 1 ≤ i → i ≤ N →
        isRecorded (Options.create estimateMargLik isNullModel useFixedZ N 0 1) i = true) ∧
      ∃ (s0 : SamplerState K n k) (highDensityPoint : Mcmc K n k),
        samplerInit m design response config
            (Options.create estimateMargLik isNullModel useFixedZ N 0 1) startZ eps u
            uninitCols = .ok (s0, highDensityPoint) ∧
        ∀ j, j < N → ∃ sj : SamplerState K n k,
          mcmcLoop m src marginalZ
              { Options.create estimateMargLik isNullModel useFixedZ N 0 1 with
                iterations := j + 1 } highDensityPoint 1 s0 = .ok sj ∧
            res.samples.coefsSamples j = sj.now.sample.coefs ∧
            res.samples.zSamples[j]? = some sj.now.sample.z := by
  obtain ⟨hval, -⟩ := Options.create_nSamples estimateMargLik isNullModel useFixedZ
    N 0 1 (Nat.zero_le _) (by omega) (le_refl _)
  have hcapN : (Options.create estimateMargLik isNullModel useFixedZ N 0 1).nSamples = N := by
    rw [hval]
    simp
  have hcount : recordedCount (Options.create estimateMargLik isNullModel useFixedZ N 0 1) 1 =
      N := by
    rw [recordedCount_one]
    simp [Options.create]
  have hrecorded : ∀ i, 1 ≤ i → i ≤ N →
      isRecorded (Options.create estimateMargLik isNullModel useFixedZ N 0 1) i = true := by
    intro i hi1 _
    simp only [isRecorded, Options.create, Nat.sub_zero, Nat.mod_one, decide_True,
      Bool.and_true, decide_eq_true_eq]
    omega
  obtain ⟨h1, h2⟩ := cpp_sampleGlm_nSaved m src marginalZ design response config _ startZ eps
    u uninitCols res hrun
  obtain ⟨s0, hdp, sN, hinit, hloop, hres, -⟩ := cpp_sampleGlm_run m src marginalZ design
    response config _ startZ eps u uninitCols res hrun
  have hz0 := samplerInit_zSamples m design response config _ startZ eps u uninitCols
    s0 hdp hinit
  have hn0 := (samplerInit_spec m design response config _ startZ eps u uninitCols
    s0 hdp hinit).1
  have hz : res.samples.zSamples.length = res.samples.nSaved := by
    rw [hres]
    exact mcmcLoop_zSamples m src marginalZ _ hdp _ 1 s0 sN rfl
      (by rw [hz0, hn0]; rfl) hloop
  refine ⟨by rw [h1, hcount], by rw [hz, h1, hcount], by rw [h2, hcapN], hcapN, hrecorded,
    s0, hdp, hinit, ?_⟩
  intro j hj
  obtain ⟨sj, hsj, hsaved, -, hcol, hzj⟩ := mcmcLoop_stored_at m src marginalZ
    (Options.create estimateMargLik isNullModel useFixedZ N 0 1) hdp s0 sN (j + 1)
    (by omega) hj (hrecorded (j + 1) (by omega) hj) hz0 hn0 hloop
  have hidx : sj.samples.nSaved - 1 = j := by
    rw [hsaved]
    simp [Options.create]
  rw [hidx] at hcol hzj
  exact ⟨sj, hsj, by rw [hres]; exact hcol, by rw [hres]; exact hzj⟩

/-- C13 on the scenario with `N = 3`. -/
theorem cpp_sampleGlm_stores_all_witness :
    ∃ (res : SampleGlmResult ℝ 0) (s0 : SamplerState ℝ 4 0) (highDensityPoint : Mcmc ℝ 4 0),
      cpp_sampleGlm ⟨Real.sqrt, Real.exp, Real.log, Real.log (Real.sqrt (2 * Real.pi))⟩
          zeroSource flatMarginalZ scenarioDesign scenarioResponse
          (scenarioConfig ⟨Real.sqrt, Real.exp, Real.log, Real.log (Real.sqrt (2 * Real.pi))⟩)
          (Options.create true true false 3 0 1) 0 (1 / 100) (zeroUninit 0) (fun _ _ => 0) =
        .ok res ∧
      samplerInit ⟨Real.sqrt, Real.exp, Real.log, Real.log (Real.sqrt (2 * Real.pi))⟩
          scenarioDesign scenarioResponse
          (scenarioConfig ⟨Real.sqrt, Real.exp, Real.log, Real.log (Real.sqrt (2 * Real.pi))⟩)
          (Options.create true true false 3 0 1) 0 (1 / 100) (zeroUninit 0) (fun _ _ => 0) =
        .ok (s0, highDensityPoint) ∧
      res.samples.nSaved = 3 ∧ res.samples.zSamples.length = 3 ∧ res.samples.nSamples = 3 ∧
      ∀ j, j < 3 → ∃ sj : SamplerState ℝ 4 0,
        mcmcLoop ⟨Real.sqrt, Real.exp, Real.log, Real.log (Real.sqrt (2 * Real.pi))⟩
            zeroSource flatMarginalZ
            { Options.create true true false 3 0 1 with iterations := j + 1 }
            highDensityPoint 1 s0 = .ok sj ∧
          res.samples.coefsSamples j = sj.now.sample.coefs ∧
          res.samples.zSamples[j]? = some sj.now.sample.z := by
  have hcap : (Options.create true true false 3 0 1).nSamples = 3 := by
    rw [(Options.create_nSamples true true false 3 0 1 (by norm_num)
      (by norm_num [posIntModulus]) (by norm_num)).1]
    simp
  have hcount : recordedCount (Options.create true true false 3 0 1) 1 = 3 := by
    rw [recordedCount_one]
    simp [Options.create]
  obtain ⟨res, hres⟩ := scenario_cpp_sampleGlm_ok Real.log
    (Real.log (Real.sqrt (2 * Real.pi))) zeroSource flatMarginalZ
    (Options.create true true false 3 0 1) 0 (1 / 100) (zeroUninit 0) (fun _ _ => 0)
    (by rw [hcap, hcount])
  obtain ⟨h1, h2, h3, -, -, s0, hdp, hinit, hall⟩ :=
    cpp_sampleGlm_stores_all _ _ _ _ _ _ _ _ _ _ _ _ _ 3 res
      (by norm_num [posIntModulus]) hres
  exact ⟨res, s0, hdp, hres, hinit, h1, h2, h3, hall⟩


end GlmBfp
